import Mathlib

/-!
Verification of the skeleton topology engine described by the repository's
specification.  The repository's own source is a tutorial notebook that only
calls the engine (`skeleton.Skeleton` of meshparty); the engine itself is not
part of the repository, so every operation below is modelled from the
specification text (sections 3, 4.1-4.6 of the spec) and each definition's
doc comment records what is modelled.

Conventions of the model:
* vertices are natural numbers `0, ..., n-1`;
* the parent mapping is a length-`n` list `par`, with the root mapped to
  itself as the "no parent" sentinel;
* the implied Euclidean edge weight is abstracted as an arbitrary symmetric
  nonnegative rational weight function `w : ℕ → ℕ → ℚ`.  The theorems about
  distances only use symmetry, nonnegativity and additivity along edges, all
  of which the Euclidean metric satisfies; rational weights keep every
  definition executable (real square roots are not computable).
-/

namespace SkelSpec

/-- Modelled from the spec (section 7): the error kinds of the engine,
`InvalidTopology`, `InvalidVertex` and `EmptyTree`. -/
inductive SkelErr where
  | invalidTopology : SkelErr
  | invalidVertex : SkelErr
  | emptyTree : SkelErr
deriving DecidableEq, Repr

/-- Modelled from the spec (section 3): the rooted-tree state of a skeleton:
the number of vertices, the current root, and the parent mapping stored as a
list (entry `v` is the parent of vertex `v`; the root is mapped to itself as
the "no parent" sentinel).  All other structures (children, classifications,
distances, segments, cover paths) are derived views, recomputed
deterministically, following the design note of spec section 9. -/
structure Skel where
  n : ℕ
  root : ℕ
  par : List ℕ
deriving DecidableEq, Repr

/-- Parent lookup of a vertex (total function view of the parent list). -/
def Skel.p (s : Skel) (v : ℕ) : ℕ := s.par.getD v 0

/-- Modelled from the spec (section 3, parent-mapping invariant): a valid
skeleton has an in-range root, a parent list of length `n` fixing the root,
mapping vertices into range, and following parent links from any vertex
reaches the root (within `n` steps, which is equivalent to reaching it at
all, see `iter_absorb`). -/
def Skel.Valid (s : Skel) : Prop :=
  s.root < s.n ∧ s.par.length = s.n ∧ s.p s.root = s.root ∧
  (∀ v, v < s.n → s.p v < s.n) ∧
  (∀ v, v < s.n → (s.p)^[s.n] v = s.root)

instance (s : Skel) : Decidable s.Valid := by
  unfold Skel.Valid
  infer_instance

/-- Number of steps from `v` to the root along parent links (fuel-bounded;
fuel `s.n` suffices on valid skeletons). -/
def stepsAux (s : Skel) : ℕ → ℕ → ℕ
  | 0, _ => 0
  | fuel+1, v => if v = s.root then 0 else stepsAux s fuel (s.p v) + 1

/-- Depth of a vertex: the number of parent steps to the root. -/
def Skel.depth (s : Skel) (v : ℕ) : ℕ := stepsAux s s.n v

/-- Modelled from the spec (section 4.4, `path_to_root`): the vertex sequence
from `v` to the root inclusive, following parent links (fuel-bounded). -/
def ptrAux (s : Skel) : ℕ → ℕ → List ℕ
  | 0, _ => []
  | fuel+1, v => if v = s.root then [v] else v :: ptrAux s fuel (s.p v)

/-- Path from a vertex to the root, both inclusive. -/
def Skel.pathToRoot (s : Skel) (v : ℕ) : List ℕ := ptrAux s (s.n + 1) v

/-- Modelled from the spec (section 4.2, `children`): the children of `v`
are the vertices whose parent is `v`, in ascending index order (a stable
deterministic order, as the spec allows). -/
def Skel.children (s : Skel) (v : ℕ) : List ℕ :=
  (List.range s.n).filter (fun u => decide (u ≠ s.root ∧ s.p u = v))

/-- Modelled from the spec (section 4.3): branch points are the vertices
with more than one child under the current root. -/
def Skel.branchPoints (s : Skel) : List ℕ :=
  (List.range s.n).filter (fun v => decide (2 ≤ (s.children v).length))

/-- Modelled from the spec (section 4.3): end points are the vertices with
zero children under the current root, the root itself excluded. -/
def Skel.endPoints (s : Skel) : List ℕ :=
  (List.range s.n).filter (fun v => decide (v ≠ s.root ∧ s.children v = []))

/-- Modelled from the spec (section 4.1): the undirected adjacency derived
from the parent mapping; `u` and `v` are adjacent when one is the parent of
the other (the root's sentinel self-link is not an edge). -/
def Skel.adjacent (s : Skel) (u v : ℕ) : Prop :=
  (u ≠ s.root ∧ s.p u = v) ∨ (v ≠ s.root ∧ s.p v = u)

instance (s : Skel) (u v : ℕ) : Decidable (s.adjacent u v) := by
  unfold Skel.adjacent
  infer_instance

/-- Undirected neighbors of a vertex, in ascending index order. -/
def Skel.neighbors (s : Skel) (v : ℕ) : List ℕ :=
  (List.range s.n).filter (fun u => decide (s.adjacent v u))

/-- Modelled from the spec (section 4.3, `end_points_undirected`): the
vertices with degree 1 in the undirected graph, including the root when it
has degree 1, and the unique vertex of a single-vertex tree (degree 0). -/
def Skel.endPointsUndirected (s : Skel) : List ℕ :=
  (List.range s.n).filter (fun v => (s.neighbors v).length == 1 || s.n == 1)

/-- Modelled from the spec (section 4.4, `distance_to_root`): cumulative
path length from each vertex to the root along the tree with respect to the
weight function `w` (fuel-bounded recursion along parent links). -/
def distAux (s : Skel) (w : ℕ → ℕ → ℚ) : ℕ → ℕ → ℚ
  | 0, _ => 0
  | fuel+1, v => if v = s.root then 0 else distAux s w fuel (s.p v) + w v (s.p v)

/-- Distance from a vertex to the root (sum of edge weights on its path). -/
def Skel.distToRoot (s : Skel) (w : ℕ → ℕ → ℚ) (v : ℕ) : ℚ :=
  distAux s w (s.n + 1) v

/-- Modelled from the spec (section 4.4, `path_length`): the sum of edge
weights among consecutive pairs of the index sequence that are directly
connected by a tree edge. -/
def Skel.pathLen (s : Skel) (w : ℕ → ℕ → ℚ) : List ℕ → ℚ
  | a :: b :: rest => (if s.adjacent a b then w a b else 0) + s.pathLen w (b :: rest)
  | _ => 0

/-- Modelled from the spec (section 4.4, `path_between`): the lowest common
ancestor of `a` and `b`, computed exactly as the spec prescribes, as the
first vertex shared by both path-to-root sequences (scanning `a`'s path from
the `a` end). -/
def Skel.lca (s : Skel) (a b : ℕ) : ℕ :=
  ((s.pathToRoot a).filter (fun u => (s.pathToRoot b).contains u)).headD s.root

/-- Modelled from the spec (section 4.4, `path_between`): the concatenation
of the `a`-to-LCA prefix (exclusive of the LCA) with the LCA-to-`b` suffix. -/
def Skel.pathBetween (s : Skel) (a b : ℕ) : List ℕ :=
  ((s.pathToRoot a).takeWhile (fun u => !(s.pathToRoot b).contains u)) ++
    s.lca a b :: ((s.pathToRoot b).takeWhile (fun u => !(u == s.lca a b))).reverse

/-- Modelled from the spec (section 4.4, `downstream_nodes`): `u` is
downstream of `v` when `v` lies on `u`'s path to the root (`v` itself
included). -/
def Skel.downstream (s : Skel) (v u : ℕ) : Prop := v ∈ s.pathToRoot u

instance (s : Skel) (v u : ℕ) : Decidable (s.downstream v u) := by
  unfold Skel.downstream
  infer_instance

/-- Modelled from the spec (section 4.6): ordering of end points used by the
cover-path construction: farthest from the root first, ties broken by lowest
vertex index. -/
def endOrd (s : Skel) (w : ℕ → ℕ → ℚ) (a b : ℕ) : Prop :=
  s.distToRoot w b < s.distToRoot w a ∨
    (s.distToRoot w a = s.distToRoot w b ∧ a ≤ b)

instance (s : Skel) (w : ℕ → ℕ → ℚ) : DecidableRel (endOrd s w) := by
  unfold endOrd
  intro a b
  infer_instance

instance (s : Skel) (w : ℕ → ℕ → ℚ) : IsTotal ℕ (endOrd s w) where
  total := by
    intro a b
    unfold endOrd
    rcases lt_trichotomy (s.distToRoot w a) (s.distToRoot w b) with h | h | h
    · exact Or.inr (Or.inl h)
    · rcases Nat.le_total a b with hab | hab
      · exact Or.inl (Or.inr ⟨h, hab⟩)
      · exact Or.inr (Or.inr ⟨h.symm, hab⟩)
    · exact Or.inl (Or.inl h)

instance (s : Skel) (w : ℕ → ℕ → ℚ) : IsTrans ℕ (endOrd s w) where
  trans := by
    intro a b c hab hbc
    unfold endOrd at hab hbc ⊢
    rcases hab with h1 | ⟨h1, h1'⟩
    · rcases hbc with h2 | ⟨h2, _⟩
      · exact Or.inl (h2.trans h1)
      · exact Or.inl (h2 ▸ h1)
    · rcases hbc with h2 | ⟨h2, h2'⟩
      · exact Or.inl (h1 ▸ h2)
      · exact Or.inr ⟨h1.trans h2, h1'.trans h2'⟩

/-- End points sorted farthest-from-root first (ties: lowest index first). -/
def sortEnds (s : Skel) (w : ℕ → ℕ → ℚ) : List ℕ :=
  List.insertionSort (endOrd s w) s.endPoints

/-- Modelled from the spec (section 4.6, step 2): walk from a vertex toward
the root, collecting vertices, stopping before the first already-visited
vertex (or after the root). -/
def walkUp (s : Skel) (vis : List ℕ) : ℕ → ℕ → List ℕ
  | 0, _ => []
  | fuel+1, v =>
    if v ∈ vis then []
    else if v = s.root then [v]
    else v :: walkUp s vis fuel (s.p v)

/-- Modelled from the spec (section 4.6): the greedy single pass over the
sorted end points; an already-visited end point starts no path. -/
def coverAux (s : Skel) : List ℕ → List ℕ → List (List ℕ)
  | _, [] => []
  | vis, e :: es =>
    if e ∈ vis then coverAux s vis es
    else walkUp s vis (s.n + 1) e :: coverAux s (vis ++ walkUp s vis (s.n + 1) e) es

/-- Modelled from the spec (section 4.6, `cover_paths`): the ordered list of
root-directed cover paths, built greedily from the farthest unvisited end
point. -/
def Skel.coverPaths (s : Skel) (w : ℕ → ℕ → ℚ) : List (List ℕ) :=
  coverAux s [] (sortEnds s w)

/-- Traversal order asserted by the spec's cover-path post-condition: the
produced list of sequences in reverse order, each sequence from its first
(most distal) element. -/
def Skel.coverOrder (s : Skel) (w : ℕ → ℕ → ℚ) : List ℕ :=
  (s.coverPaths w).reverse.flatten

/-- A visited set arising during cover-path construction: all members are in
range, and the set is closed under taking parents (every visited non-root
vertex has its parent visited too). -/
def visClosed (s : Skel) (vis : List ℕ) : Prop :=
  ∀ u ∈ vis, u < s.n ∧ (u ≠ s.root → s.p u ∈ vis)

/-- Invariant of the greedy cover-path pass: the visited set is parent-closed
and the pending starts are distinct unvisited end points. -/
def coverInv (s : Skel) (vis : List ℕ) (es : List ℕ) : Prop :=
  visClosed s vis ∧ es.Nodup ∧ ∀ e ∈ es, e ∈ s.endPoints ∧ e ∉ vis

/-- Modelled from the spec (section 4.5): boundary vertices are branch
points, end points and the root. -/
def Skel.isBoundary (s : Skel) (v : ℕ) : Prop :=
  v = s.root ∨ 2 ≤ (s.children v).length ∨ s.children v = []

instance (s : Skel) (v : ℕ) : Decidable (s.isBoundary v) := by
  unfold Skel.isBoundary
  infer_instance

/-- Climb from a vertex toward the root, stopping at (and including) the
first boundary vertex (fuel-bounded). -/
def segTail (s : Skel) : ℕ → ℕ → List ℕ
  | 0, _ => []
  | fuel+1, v => if s.isBoundary v then [v] else v :: segTail s fuel (s.p v)

/-- Distal starting vertices of segments: the non-root boundary vertices
(branch points and end points), in ascending index order. -/
def Skel.segStarts (s : Skel) : List ℕ :=
  (List.range s.n).filter (fun v => decide (v ≠ s.root ∧ s.isBoundary v))

/-- Modelled from the spec (sections 3 and 4.5): the segment starting at a
distal boundary vertex `d`: the run from `d` up to the next boundary vertex,
inclusive of both, ordered from the distal end toward the proximal end. -/
def Skel.segmentFrom (s : Skel) (d : ℕ) : List ℕ := d :: segTail s (s.n + 1) (s.p d)

/-- Modelled from the spec (section 4.5, `segments`): all maximal
non-branching runs, one per non-root boundary vertex. -/
def Skel.segments (s : Skel) : List (List ℕ) := s.segStarts.map s.segmentFrom

/-- Modelled from the spec (section 4.5, `segment_map`): the index of the
segment owned by `v`: the segment started at `v` when one exists, otherwise
the first segment containing `v` (0 when none exists). -/
def Skel.segMap (s : Skel) (v : ℕ) : ℕ :=
  match s.segments.findIdx? (fun S => S.head? == some v) with
  | some i => i
  | none => (s.segments.findIdx? (fun S => S.contains v)).getD 0

/-- The `segment_map` ownership convention claimed by the spec (section
4.5): `segment_map v` indexes a segment containing `v` that is, moreover,
started at `v` (its most-distal member) whenever `v` is a boundary vertex. -/
def Skel.segMapConv (s : Skel) (v : ℕ) : Prop :=
  s.segMap v < s.segments.length ∧
  v ∈ s.segments.getD (s.segMap v) [] ∧
  (s.isBoundary v → (s.segments.getD (s.segMap v) []).head? = some v)

instance (s : Skel) (v : ℕ) : Decidable (s.segMapConv v) := by
  unfold Skel.segMapConv
  infer_instance

/-- A root-directed non-branching vertex sequence: consecutive entries step
to the parent, and all entries are in range (used to state the minimality
part of the cover-path count claim). -/
def Skel.isParentChain (s : Skel) (l : List ℕ) : Prop :=
  (∀ x ∈ l, x < s.n) ∧ List.Chain' (fun a b => a ≠ s.root ∧ s.p a = b) l

/-- Modelled from the spec (section 4.2, `reroot`): the parent list after
rerooting to `x`, recomputed in one traversal: parent links are reversed
along the chain from `x` to the old root and unchanged elsewhere (this is
the unique orientation of the tree's edges toward `x`, which is what any
traversal from `x` produces). -/
def rerootFun (s : Skel) (x : ℕ) (v : ℕ) : ℕ :=
  if v = x then x
  else
    match (s.pathToRoot x).find? (fun u => s.p u == v && u != v) with
    | some u => u
    | none => s.p v

def rerootPar (s : Skel) (x : ℕ) : List ℕ :=
  (List.range s.n).map (rerootFun s x)

/-- The rerooted skeleton (unchecked index). -/
def Skel.rerootCore (s : Skel) (x : ℕ) : Skel := ⟨s.n, x, rerootPar s x⟩

/-- Modelled from the spec (section 4.2, `reroot`): fails with
`InvalidVertex` when the index is out of range, otherwise recomputes the
parent mapping toward the new root. -/
def Skel.reroot (s : Skel) (x : ℕ) : Except SkelErr Skel :=
  if x < s.n then Except.ok (s.rerootCore x) else Except.error SkelErr.invalidVertex

/-- Normalize an edge pair to (smaller, larger). -/
def normPair (p : ℕ × ℕ) : ℕ × ℕ := (min p.1 p.2, max p.1 p.2)

/-- Membership of an undirected edge in the raw edge list (either
orientation). -/
def adjE (es : List (ℕ × ℕ)) (u v : ℕ) : Prop := (u, v) ∈ es ∨ (v, u) ∈ es

instance (es : List (ℕ × ℕ)) (u v : ℕ) : Decidable (adjE es u v) := by
  unfold adjE
  infer_instance

/-- One step of breadth-first expansion over the undirected edge list. -/
def expand (n : ℕ) (es : List (ℕ × ℕ)) (vis : List ℕ) : List ℕ :=
  (List.range n).filter (fun v => vis.contains v || vis.any (fun u => decide (adjE es u v)))

/-- Vertices reachable from vertex 0 in at most `k` expansion steps. -/
def reachSet (n : ℕ) (es : List (ℕ × ℕ)) : ℕ → List ℕ
  | 0 => [0]
  | k+1 => expand n es (reachSet n es k)

/-- Modelled from the spec (section 4.1): the construction-time topology
check: all edge endpoints in range and distinct, no duplicate undirected
edge, edge count = vertex count - 1, and every vertex reachable from vertex
0 over the undirected edges. -/
def topoCheck (n : ℕ) (es : List (ℕ × ℕ)) : Bool :=
  es.all (fun q => decide (q.1 < n ∧ q.2 < n ∧ q.1 ≠ q.2)) &&
  decide (es.map normPair).Nodup &&
  (es.length + 1 == n) &&
  (List.range n).all (fun v => (reachSet n es n).contains v)

/-- Breadth-first level of a vertex: the least number of expansion steps
after which it is reached (fuel-bounded upward scan). -/
def lvlAux (q : ℕ → Bool) : ℕ → ℕ → ℕ
  | 0, k => k
  | f+1, k => if q k then k else lvlAux q f (k+1)

/-- Breadth-first level of a vertex from vertex 0. -/
def lvl (n : ℕ) (es : List (ℕ × ℕ)) (v : ℕ) : ℕ :=
  lvlAux (fun k => (reachSet n es k).contains v) (n + 1) 0

/-- Parent assignment of the construction traversal: a neighbor of strictly
smaller breadth-first level (vertex 0, the initial root, is its own
parent). -/
def bfsPar (n : ℕ) (es : List (ℕ × ℕ)) (v : ℕ) : ℕ :=
  if v = 0 then 0
  else
    ((List.range n).find?
      (fun u => decide (adjE es u v) && decide (lvl n es u < lvl n es v))).getD 0

/-- Modelled from the spec (sections 4.1 and 6): construction from a
coordinate sequence and an edge-pair sequence; fails with `InvalidTopology`
when the topology check fails, otherwise builds the skeleton rooted at
vertex 0 (the spec's default root) with the traversal's parent mapping. -/
def buildSkeleton (coords : List (ℤ × ℤ × ℤ)) (es : List (ℕ × ℕ)) : Except SkelErr Skel :=
  if topoCheck coords.length es then
    Except.ok ⟨coords.length, 0, (List.range coords.length).map (bfsPar coords.length es)⟩
  else Except.error SkelErr.invalidTopology

/-- The simple graph on `Fin n` generated by the raw edge list. -/
def graphOf (n : ℕ) (es : List (ℕ × ℕ)) : SimpleGraph (Fin n) :=
  SimpleGraph.fromRel (fun a b => adjE es a.val b.val)

instance (n : ℕ) (es : List (ℕ × ℕ)) : DecidableRel (graphOf n es).Adj := by
  intro a b
  exact decidable_of_iff _ (SimpleGraph.fromRel_adj (fun a b : Fin n => adjE es a.val b.val) a b).symm

/-- The spec's construction-time requirement, in the words of the claim: the
edge list forms exactly one connected acyclic tree spanning all vertices
(the graph it generates is a tree and the listed edge count is the vertex
count minus one, so no listed edge is degenerate or repeated). -/
def formsSpanningTree (n : ℕ) (es : List (ℕ × ℕ)) : Prop :=
  (graphOf n es).IsTree ∧ es.length + 1 = n

/-- The undirected edge of `Fin n` read off an in-range non-degenerate raw
edge pair (`none` for an out-of-range or degenerate pair); used to compare
the raw edge list with the edge set of the generated graph. -/
def symOf (n : ℕ) (q : ℕ × ℕ) : Option (Sym2 (Fin n)) :=
  if h : q.1 < n ∧ q.2 < n ∧ q.1 ≠ q.2 then
    some (Sym2.mk (⟨q.1, h.1⟩, ⟨q.2, h.2.1⟩))
  else none

/-- The Y-shaped example skeleton of the spec (section 8): 7 vertices,
edges 0-1, 1-2, 2-3, 3-4, 2-5, 5-6, rooted at 0. -/
def Ysk : Skel := ⟨7, 0, [0, 0, 1, 2, 3, 2, 5]⟩

/-- A single-vertex skeleton (vertex 0 is the root; no edges). -/
def Skel1 : Skel := ⟨1, 0, [0]⟩

/-- The unit weight function (all edges weigh 1). -/
def wOne : ℕ → ℕ → ℚ := fun _ _ => 1

/-! ### Iteration helpers -/

theorem iter_fix {f : ℕ → ℕ} {r : ℕ} (hr : f r = r) : ∀ k, f^[k] r = r := by
  intro k
  induction k with
  | zero => rfl
  | succ k ih => rw [Function.iterate_succ_apply, hr]; exact ih

theorem iter_lt {f : ℕ → ℕ} {n : ℕ} (hcl : ∀ v, v < n → f v < n) {v : ℕ} (hv : v < n) :
    ∀ k, f^[k] v < n := by
  intro k
  induction k with
  | zero => exact hv
  | succ k ih => rw [Function.iterate_succ_apply']; exact hcl _ ih

theorem iter_absorb {f : ℕ → ℕ} {n r : ℕ} (hr : f r = r) (hcl : ∀ v, v < n → f v < n)
    {v : ℕ} (hv : v < n) {k : ℕ} (hk : f^[k] v = r) : f^[n] v = r := by
  induction k using Nat.strong_induction_on generalizing v with
  | _ k ih =>
    by_cases hkn : k ≤ n
    · have h : f^[n] v = f^[n - k] (f^[k] v) := by
        rw [← Function.iterate_add_apply]
        congr 1
        omega
      rw [h, hk]
      exact iter_fix hr _
    · push_neg at hkn
      have maps : ∀ i ∈ Finset.range (n + 1), f^[i] v ∈ Finset.range n := by
        intro i _
        exact Finset.mem_range.mpr (iter_lt hcl hv i)
      have hcard : (Finset.range n).card < (Finset.range (n + 1)).card := by simp
      obtain ⟨i, hi, j, hj, hij, heq⟩ :=
        Finset.exists_ne_map_eq_of_card_lt_of_maps_to hcard maps
      have key : ∀ a b, a < b → b ≤ n → f^[a] v = f^[b] v → f^[n] v = r := by
        intro a b hab hbn habe
        have hswap : f^[(k - b) + b] v = f^[(k - b) + a] v := by
          rw [Function.iterate_add_apply, Function.iterate_add_apply, ← habe]
        rw [show k - b + b = k by omega] at hswap
        exact ih (k - b + a) (by omega) hv (hswap ▸ hk)
      rcases Nat.lt_or_ge i j with hlt | hge
      · exact key i j hlt (by have := Finset.mem_range.mp hj; omega) heq
      · have hji : j < i := lt_of_le_of_ne hge (Ne.symm hij)
        exact key j i hji (by have := Finset.mem_range.mp hi; omega) heq.symm

/-! ### Accessors for validity -/

theorem Skel.Valid.root_lt {s : Skel} (h : s.Valid) : s.root < s.n := h.1

theorem Skel.Valid.parLen {s : Skel} (h : s.Valid) : s.par.length = s.n := h.2.1

theorem Skel.Valid.p_root {s : Skel} (h : s.Valid) : s.p s.root = s.root := h.2.2.1

theorem Skel.Valid.p_lt {s : Skel} (h : s.Valid) : ∀ v, v < s.n → s.p v < s.n := h.2.2.2.1

theorem Skel.Valid.reach {s : Skel} (h : s.Valid) :
    ∀ v, v < s.n → (s.p)^[s.n] v = s.root := h.2.2.2.2

theorem Skel.Valid.n_pos {s : Skel} (h : s.Valid) : 0 < s.n :=
  lt_of_le_of_lt (Nat.zero_le _) h.root_lt

/-! ### Depth -/

theorem stepsAux_spec {s : Skel} :
    ∀ fuel k v, (s.p)^[k] v = s.root → k ≤ fuel →
      (s.p)^[stepsAux s fuel v] v = s.root ∧ stepsAux s fuel v ≤ k := by
  intro fuel
  induction fuel with
  | zero =>
    intro k v hk hle
    have h0 : k = 0 := Nat.le_zero.mp hle
    subst h0
    exact ⟨hk, le_refl 0⟩
  | succ fuel ih =>
    intro k v hk hle
    by_cases hv : v = s.root
    · subst hv
      simp only [stepsAux, if_pos rfl]
      exact ⟨rfl, Nat.zero_le k⟩
    · have hk0 : k ≠ 0 := by
        rintro rfl
        exact hv hk
      obtain ⟨k', rfl⟩ := Nat.exists_eq_succ_of_ne_zero hk0
      have hk' : (s.p)^[k'] (s.p v) = s.root := by
        rw [← Function.iterate_succ_apply]
        exact hk
      obtain ⟨h1, h2⟩ := ih k' (s.p v) hk' (Nat.succ_le_succ_iff.mp hle)
      refine ⟨?_, ?_⟩
      · simp only [stepsAux, if_neg hv]
        rw [Function.iterate_succ_apply]
        exact h1
      · simp only [stepsAux, if_neg hv]
        omega

theorem Skel.depth_reach {s : Skel} (hs : s.Valid) {v : ℕ} (hv : v < s.n) :
    (s.p)^[s.depth v] v = s.root :=
  (stepsAux_spec s.n s.n v (hs.reach v hv) le_rfl).1

theorem Skel.depth_le_n {s : Skel} (hs : s.Valid) {v : ℕ} (hv : v < s.n) :
    s.depth v ≤ s.n :=
  (stepsAux_spec s.n s.n v (hs.reach v hv) le_rfl).2

theorem Skel.depth_min {s : Skel} (hs : s.Valid) {v : ℕ} (hv : v < s.n) {k : ℕ}
    (hk : (s.p)^[k] v = s.root) : s.depth v ≤ k := by
  rcases le_or_lt k s.n with h | h
  · exact (stepsAux_spec s.n k v hk h).2
  · exact le_trans (Skel.depth_le_n hs hv) (le_of_lt h)

theorem Skel.depth_root {s : Skel} (hs : s.Valid) : s.depth s.root = 0 :=
  Nat.le_zero.mp (Skel.depth_min hs hs.root_lt (by rfl))

theorem Skel.root_of_depth_eq_zero {s : Skel} (hs : s.Valid) {v : ℕ} (hv : v < s.n)
    (h : s.depth v = 0) : v = s.root := by
  have := Skel.depth_reach hs hv
  rwa [h] at this

theorem Skel.depth_succ {s : Skel} (hs : s.Valid) {v : ℕ} (hv : v < s.n)
    (hr : v ≠ s.root) : s.depth v = s.depth (s.p v) + 1 := by
  have hpv : s.p v < s.n := hs.p_lt v hv
  have hub : s.depth v ≤ s.depth (s.p v) + 1 := by
    apply Skel.depth_min hs hv
    rw [Function.iterate_succ_apply]
    exact Skel.depth_reach hs hpv
  have hne : s.depth v ≠ 0 := fun h => hr (Skel.root_of_depth_eq_zero hs hv h)
  obtain ⟨e, he⟩ := Nat.exists_eq_succ_of_ne_zero hne
  have hlb : s.depth (s.p v) ≤ e := by
    apply Skel.depth_min hs hpv
    rw [← Function.iterate_succ_apply]
    rw [← he]
    exact Skel.depth_reach hs hv
  omega

theorem Skel.depth_pos {s : Skel} (hs : s.Valid) {v : ℕ} (hv : v < s.n)
    (hr : v ≠ s.root) : 0 < s.depth v := by
  rw [Skel.depth_succ hs hv hr]
  omega

theorem Skel.iter_ne_root_of_lt_depth {s : Skel} (hs : s.Valid) {v : ℕ} (hv : v < s.n)
    {i : ℕ} (hi : i < s.depth v) : (s.p)^[i] v ≠ s.root := by
  intro h
  have := Skel.depth_min hs hv h
  omega

theorem Skel.depth_iter {s : Skel} (hs : s.Valid) {v : ℕ} (hv : v < s.n) :
    ∀ i, i ≤ s.depth v → s.depth ((s.p)^[i] v) = s.depth v - i := by
  intro i
  induction i with
  | zero => intro _; rfl
  | succ i ih =>
    intro hi
    have hu : (s.p)^[i] v < s.n := iter_lt hs.p_lt hv i
    have hur : (s.p)^[i] v ≠ s.root := Skel.iter_ne_root_of_lt_depth hs hv (by omega)
    have hd := Skel.depth_succ hs hu hur
    rw [Function.iterate_succ_apply']
    have hih := ih (by omega)
    omega

/-! ### Path to root -/

theorem ptrAux_fuel_eq {s : Skel} :
    ∀ k v f1 f2, (s.p)^[k] v = s.root → k < f1 → k < f2 →
      ptrAux s f1 v = ptrAux s f2 v := by
  intro k
  induction k with
  | zero =>
    intro v f1 f2 hk h1 h2
    have hv : v = s.root := hk
    obtain ⟨m1, rfl⟩ := Nat.exists_eq_succ_of_ne_zero (by omega : f1 ≠ 0)
    obtain ⟨m2, rfl⟩ := Nat.exists_eq_succ_of_ne_zero (by omega : f2 ≠ 0)
    simp [ptrAux, hv]
  | succ k ih =>
    intro v f1 f2 hk h1 h2
    obtain ⟨m1, rfl⟩ := Nat.exists_eq_succ_of_ne_zero (by omega : f1 ≠ 0)
    obtain ⟨m2, rfl⟩ := Nat.exists_eq_succ_of_ne_zero (by omega : f2 ≠ 0)
    by_cases hv : v = s.root
    · simp [ptrAux, hv]
    · simp only [ptrAux, if_neg hv]
      congr 1
      exact ih (s.p v) m1 m2 (by rw [← Function.iterate_succ_apply]; exact hk)
        (by omega) (by omega)

theorem Skel.pathToRoot_of_root {s : Skel} : s.pathToRoot s.root = [s.root] := by
  simp [Skel.pathToRoot, ptrAux]

theorem Skel.pathToRoot_cons {s : Skel} (hs : s.Valid) {v : ℕ} (hv : v < s.n)
    (hr : v ≠ s.root) : s.pathToRoot v = v :: s.pathToRoot (s.p v) := by
  have hpv : s.p v < s.n := hs.p_lt v hv
  show ptrAux s (s.n + 1) v = v :: ptrAux s (s.n + 1) (s.p v)
  simp only [ptrAux, if_neg hr]
  congr 1
  apply ptrAux_fuel_eq (s.depth (s.p v)) (s.p v) s.n (s.n + 1)
    (Skel.depth_reach hs hpv)
  · have h1 := Skel.depth_succ hs hv hr
    have h2 := Skel.depth_le_n hs hv
    omega
  · have := Skel.depth_le_n hs hpv
    omega

theorem Skel.pathToRoot_length {s : Skel} (hs : s.Valid) :
    ∀ v, v < s.n → (s.pathToRoot v).length = s.depth v + 1 := by
  suffices H : ∀ d v, v < s.n → s.depth v = d → (s.pathToRoot v).length = d + 1 by
    intro v hv
    exact H (s.depth v) v hv rfl
  intro d
  induction d using Nat.strong_induction_on with
  | _ d ih =>
    intro v hv hd
    by_cases hr : v = s.root
    · subst hr
      rw [Skel.pathToRoot_of_root]
      rw [Skel.depth_root hs] at hd
      simp [← hd]
    · rw [Skel.pathToRoot_cons hs hv hr]
      have hstep := Skel.depth_succ hs hv hr
      have hlen := ih (s.depth (s.p v)) (by omega) (s.p v) (hs.p_lt v hv) rfl
      simp only [List.length_cons, hlen]
      omega

theorem Skel.pathToRoot_getElem {s : Skel} (hs : s.Valid) :
    ∀ v, v < s.n → ∀ i, (h : i < (s.pathToRoot v).length) →
      (s.pathToRoot v)[i] = (s.p)^[i] v := by
  suffices H : ∀ d v, v < s.n → s.depth v = d → ∀ i,
      (h : i < (s.pathToRoot v).length) → (s.pathToRoot v)[i] = (s.p)^[i] v by
    intro v hv
    exact H (s.depth v) v hv rfl
  intro d
  induction d using Nat.strong_induction_on with
  | _ d ih =>
    intro v hv hd i h
    by_cases hr : v = s.root
    · subst hr
      have he : s.pathToRoot s.root = [s.root] := Skel.pathToRoot_of_root
      have h1 : i = 0 := by
        have h2 := h
        rw [he] at h2
        simpa using h2
      subst h1
      rw [List.getElem_of_eq he h]
      simp
    · have hstep := Skel.depth_succ hs hv hr
      have he := Skel.pathToRoot_cons hs hv hr
      rcases i with _ | i
      · rw [List.getElem_of_eq he h]
        rfl
      · rw [List.getElem_of_eq he h]
        simp only [List.getElem_cons_succ]
        have h2 : i < (s.pathToRoot (s.p v)).length := by
          have h3 := h
          rw [he] at h3
          simpa using h3
        rw [ih (s.depth (s.p v)) (by omega) (s.p v) (hs.p_lt v hv) rfl i h2]
        rw [Function.iterate_succ_apply]

theorem Skel.mem_pathToRoot {s : Skel} (hs : s.Valid) {v : ℕ} (hv : v < s.n) {u : ℕ} :
    u ∈ s.pathToRoot v ↔ ∃ i, i ≤ s.depth v ∧ (s.p)^[i] v = u := by
  rw [List.mem_iff_getElem]
  constructor
  · rintro ⟨i, hi, rfl⟩
    refine ⟨i, ?_, (Skel.pathToRoot_getElem hs v hv i hi).symm⟩
    rw [Skel.pathToRoot_length hs v hv] at hi
    omega
  · rintro ⟨i, hi, rfl⟩
    have hlen : i < (s.pathToRoot v).length := by
      rw [Skel.pathToRoot_length hs v hv]
      omega
    exact ⟨i, hlen, Skel.pathToRoot_getElem hs v hv i hlen⟩

theorem Skel.self_mem_pathToRoot {s : Skel} (hs : s.Valid) {v : ℕ} (hv : v < s.n) :
    v ∈ s.pathToRoot v :=
  (Skel.mem_pathToRoot hs hv).mpr ⟨0, Nat.zero_le _, rfl⟩

theorem Skel.root_mem_pathToRoot {s : Skel} (hs : s.Valid) {v : ℕ} (hv : v < s.n) :
    s.root ∈ s.pathToRoot v :=
  (Skel.mem_pathToRoot hs hv).mpr ⟨s.depth v, le_rfl, Skel.depth_reach hs hv⟩

theorem Skel.mem_pathToRoot_lt {s : Skel} (hs : s.Valid) {v : ℕ} (hv : v < s.n) {u : ℕ}
    (hu : u ∈ s.pathToRoot v) : u < s.n := by
  obtain ⟨i, _, rfl⟩ := (Skel.mem_pathToRoot hs hv).mp hu
  exact iter_lt hs.p_lt hv i

theorem Skel.pathToRoot_ne_nil {s : Skel} (hs : s.Valid) {v : ℕ} (hv : v < s.n) :
    s.pathToRoot v ≠ [] := by
  intro h
  have := Skel.pathToRoot_length hs v hv
  rw [h] at this
  simp at this

theorem Skel.pathToRoot_head {s : Skel} (hs : s.Valid) {v : ℕ} (hv : v < s.n) :
    (s.pathToRoot v).head? = some v := by
  by_cases hr : v = s.root
  · subst hr
    rw [Skel.pathToRoot_of_root]
    rfl
  · rw [Skel.pathToRoot_cons hs hv hr]
    rfl

theorem Skel.pathToRoot_getLast {s : Skel} (hs : s.Valid) {v : ℕ} (hv : v < s.n) :
    (s.pathToRoot v).getLast? = some s.root := by
  rw [List.getLast?_eq_getElem?]
  have hlen := Skel.pathToRoot_length hs v hv
  have hidx : (s.pathToRoot v).length - 1 < (s.pathToRoot v).length := by omega
  rw [List.getElem?_eq_getElem hidx]
  congr 1
  rw [Skel.pathToRoot_getElem hs v hv _ hidx]
  rw [show (s.pathToRoot v).length - 1 = s.depth v by omega]
  exact Skel.depth_reach hs hv

theorem Skel.pathToRoot_drop {s : Skel} (hs : s.Valid) {v : ℕ} (hv : v < s.n) :
    ∀ i, i ≤ s.depth v → (s.pathToRoot v).drop i = s.pathToRoot ((s.p)^[i] v) := by
  intro i
  induction i with
  | zero => intro _; rfl
  | succ i ih =>
    intro hi
    have hu : (s.p)^[i] v < s.n := iter_lt hs.p_lt hv i
    have hur : (s.p)^[i] v ≠ s.root := Skel.iter_ne_root_of_lt_depth hs hv (by omega)
    have h1 : (s.pathToRoot v).drop (i + 1) = ((s.pathToRoot v).drop i).drop 1 := by
      rw [List.drop_drop]
    rw [h1, ih (by omega), Skel.pathToRoot_cons hs hu hur]
    rw [Function.iterate_succ_apply']
    rfl

theorem Skel.pathToRoot_nodup {s : Skel} (hs : s.Valid) {v : ℕ} (hv : v < s.n) :
    (s.pathToRoot v).Nodup := by
  rw [List.nodup_iff_injective_get]
  intro ⟨i, hi⟩ ⟨j, hj⟩ hij
  simp only [List.get_eq_getElem] at hij
  rw [Skel.pathToRoot_getElem hs v hv i hi, Skel.pathToRoot_getElem hs v hv j hj] at hij
  have hlen := Skel.pathToRoot_length hs v hv
  have hdi : s.depth ((s.p)^[i] v) = s.depth v - i := Skel.depth_iter hs hv i (by omega)
  have hdj : s.depth ((s.p)^[j] v) = s.depth v - j := Skel.depth_iter hs hv j (by omega)
  rw [hij] at hdi
  have : i = j := by omega
  simp [this]

theorem Skel.pathToRoot_chain {s : Skel} (hs : s.Valid) :
    ∀ v, v < s.n → List.Chain' (fun a b => a ≠ s.root ∧ s.p a = b) (s.pathToRoot v) := by
  suffices H : ∀ d v, v < s.n → s.depth v = d →
      List.Chain' (fun a b => a ≠ s.root ∧ s.p a = b) (s.pathToRoot v) by
    intro v hv
    exact H (s.depth v) v hv rfl
  intro d
  induction d using Nat.strong_induction_on with
  | _ d ih =>
    intro v hv hd
    by_cases hr : v = s.root
    · subst hr
      rw [Skel.pathToRoot_of_root]
      simp
    · rw [Skel.pathToRoot_cons hs hv hr]
      have hstep := Skel.depth_succ hs hv hr
      rw [List.chain'_cons']
      refine ⟨?_, ih (s.depth (s.p v)) (by omega) (s.p v) (hs.p_lt v hv) rfl⟩
      intro y hy
      rw [Skel.pathToRoot_head hs (hs.p_lt v hv)] at hy
      cases hy
      exact ⟨hr, rfl⟩

theorem Skel.mem_pathToRoot_trans {s : Skel} (hs : s.Valid) {v u t : ℕ} (hv : v < s.n)
    (hu : u ∈ s.pathToRoot v) (ht : t ∈ s.pathToRoot u) : t ∈ s.pathToRoot v := by
  obtain ⟨i, hi, rfl⟩ := (Skel.mem_pathToRoot hs hv).mp hu
  rw [← Skel.pathToRoot_drop hs hv i hi] at ht
  exact List.mem_of_mem_drop ht

theorem Skel.depth_le_of_mem_pathToRoot {s : Skel} (hs : s.Valid) {v u : ℕ}
    (hv : v < s.n) (hu : u ∈ s.pathToRoot v) : s.depth u ≤ s.depth v := by
  obtain ⟨i, hi, rfl⟩ := (Skel.mem_pathToRoot hs hv).mp hu
  have := Skel.depth_iter hs hv i hi
  omega

theorem Skel.mem_pathToRoot_antisymm {s : Skel} (hs : s.Valid) {v u : ℕ}
    (hv : v < s.n) (hu : u < s.n) (h1 : u ∈ s.pathToRoot v) (h2 : v ∈ s.pathToRoot u) :
    u = v := by
  obtain ⟨i, hi, rfl⟩ := (Skel.mem_pathToRoot hs hv).mp h1
  have hd1 := Skel.depth_iter hs hv i hi
  have hd2 := Skel.depth_le_of_mem_pathToRoot hs hu h2
  have : i = 0 := by omega
  simp [this]

theorem Skel.depth_lt_n {s : Skel} (hs : s.Valid) {v : ℕ} (hv : v < s.n) :
    s.depth v < s.n := by
  have hnd := Skel.pathToRoot_nodup hs hv
  have hlen := Skel.pathToRoot_length hs v hv
  have hsub : (s.pathToRoot v).toFinset ⊆ Finset.range s.n := by
    intro u hu
    rw [List.mem_toFinset] at hu
    exact Finset.mem_range.mpr (Skel.mem_pathToRoot_lt hs hv hu)
  have hcard : (s.pathToRoot v).toFinset.card = (s.pathToRoot v).length :=
    List.toFinset_card_of_nodup hnd
  have := Finset.card_le_card hsub
  rw [hcard, hlen] at this
  simp only [Finset.card_range] at this
  omega

/-! ### Children, branch points, end points -/

theorem Skel.mem_children {s : Skel} {u v : ℕ} :
    u ∈ s.children v ↔ u < s.n ∧ u ≠ s.root ∧ s.p u = v := by
  simp [Skel.children, List.mem_filter, List.mem_range, and_assoc]

theorem Skel.children_eq_nil_iff {s : Skel} {v : ℕ} :
    s.children v = [] ↔ ∀ u, u < s.n → u ≠ s.root → s.p u ≠ v := by
  rw [List.eq_nil_iff_forall_not_mem]
  constructor
  · intro h u hu hur hp
    exact h u (Skel.mem_children.mpr ⟨hu, hur, hp⟩)
  · intro h u hm
    obtain ⟨hu, hur, hp⟩ := Skel.mem_children.mp hm
    exact h u hu hur hp

theorem Skel.mem_endPoints {s : Skel} {v : ℕ} :
    v ∈ s.endPoints ↔ v < s.n ∧ v ≠ s.root ∧ s.children v = [] := by
  simp [Skel.endPoints, List.mem_filter, List.mem_range, and_assoc]

theorem Skel.mem_branchPoints {s : Skel} {v : ℕ} :
    v ∈ s.branchPoints ↔ v < s.n ∧ 2 ≤ (s.children v).length := by
  simp [Skel.branchPoints, List.mem_filter, List.mem_range]

theorem Skel.endPoints_nodup (s : Skel) : s.endPoints.Nodup :=
  (List.nodup_range s.n).filter _

theorem Skel.depth_child {s : Skel} (hs : s.Valid) {c v : ℕ} (hc : c ∈ s.children v) :
    s.depth c = s.depth v + 1 := by
  obtain ⟨hcn, hcr, hp⟩ := Skel.mem_children.mp hc
  rw [Skel.depth_succ hs hcn hcr, hp]

theorem Skel.endPoint_eq_of_mem_pathToRoot {s : Skel} (hs : s.Valid) {e v : ℕ}
    (he : e ∈ s.endPoints) (hv : v < s.n) (hm : e ∈ s.pathToRoot v) : e = v := by
  obtain ⟨hen, her, hech⟩ := Skel.mem_endPoints.mp he
  obtain ⟨i, hi, rfl⟩ := (Skel.mem_pathToRoot hs hv).mp hm
  rcases i with _ | i
  · rfl
  · exfalso
    set c := (s.p)^[i] v with hc
    have hcn : c < s.n := iter_lt hs.p_lt hv i
    have hpc : s.p c = (s.p)^[i + 1] v := (Function.iterate_succ_apply' s.p i v).symm
    have hcr : c ≠ s.root := by
      intro h
      rw [h, hs.p_root] at hpc
      exact her hpc.symm
    have : c ∈ s.children ((s.p)^[i + 1] v) := Skel.mem_children.mpr ⟨hcn, hcr, hpc⟩
    rw [hech] at this
    simp at this

theorem Skel.children_root_ne_nil {s : Skel} (hs : s.Valid) (h2 : 2 ≤ s.n) :
    s.children s.root ≠ [] := by
  have hu : ∃ u, u < s.n ∧ u ≠ s.root := by
    rcases Nat.eq_zero_or_pos s.root with h | h
    · exact ⟨1, by omega, by omega⟩
    · exact ⟨0, by omega, by omega⟩
  obtain ⟨u, hun, hur⟩ := hu
  have hd : 0 < s.depth u := Skel.depth_pos hs hun hur
  set c := (s.p)^[s.depth u - 1] u with hc
  have hcn : c < s.n := iter_lt hs.p_lt hun _
  have hcr : c ≠ s.root := Skel.iter_ne_root_of_lt_depth hs hun (by omega)
  have hpc : s.p c = s.root := by
    have hstep : (s.depth u - 1).succ = s.depth u := by omega
    rw [hc, ← Function.iterate_succ_apply' s.p, hstep]
    exact Skel.depth_reach hs hun
  intro h
  rw [Skel.children_eq_nil_iff] at h
  exact h c hcn hcr hpc

theorem Skel.exists_endPoint_above {s : Skel} (hs : s.Valid) (h2 : 2 ≤ s.n) :
    ∀ v, v < s.n → ∃ e ∈ s.endPoints, v ∈ s.pathToRoot e := by
  suffices H : ∀ k v, v < s.n → s.n - s.depth v ≤ k →
      ∃ e ∈ s.endPoints, v ∈ s.pathToRoot e by
    intro v hv
    exact H s.n v hv (by omega)
  intro k
  induction k with
  | zero =>
    intro v hv hk
    have := Skel.depth_lt_n hs hv
    omega
  | succ k ih =>
    intro v hv hk
    by_cases hch : s.children v = []
    · have hvr : v ≠ s.root := by
        intro h
        exact Skel.children_root_ne_nil hs h2 (h ▸ hch)
      exact ⟨v, Skel.mem_endPoints.mpr ⟨hv, hvr, hch⟩, Skel.self_mem_pathToRoot hs hv⟩
    · obtain ⟨c, hc⟩ := List.exists_mem_of_ne_nil _ hch
      obtain ⟨hcn, hcr, hpc⟩ := Skel.mem_children.mp hc
      have hdc : s.depth c = s.depth v + 1 := Skel.depth_child hs hc
      obtain ⟨e, he, hce⟩ := ih c hcn (by have := Skel.depth_lt_n hs hcn; omega)
      refine ⟨e, he, ?_⟩
      have hen : e < s.n := (Skel.mem_endPoints.mp he).1
      have hvc : v ∈ s.pathToRoot c :=
        (Skel.mem_pathToRoot hs hcn).mpr ⟨1, by omega, by simpa using hpc⟩
      exact Skel.mem_pathToRoot_trans hs hen hce hvc

/-! ### Distance to root -/

theorem distAux_fuel_eq {s : Skel} {w : ℕ → ℕ → ℚ} :
    ∀ k v f1 f2, (s.p)^[k] v = s.root → k < f1 → k < f2 →
      distAux s w f1 v = distAux s w f2 v := by
  intro k
  induction k with
  | zero =>
    intro v f1 f2 hk h1 h2
    have hv : v = s.root := hk
    obtain ⟨m1, rfl⟩ := Nat.exists_eq_succ_of_ne_zero (by omega : f1 ≠ 0)
    obtain ⟨m2, rfl⟩ := Nat.exists_eq_succ_of_ne_zero (by omega : f2 ≠ 0)
    simp [distAux, hv]
  | succ k ih =>
    intro v f1 f2 hk h1 h2
    obtain ⟨m1, rfl⟩ := Nat.exists_eq_succ_of_ne_zero (by omega : f1 ≠ 0)
    obtain ⟨m2, rfl⟩ := Nat.exists_eq_succ_of_ne_zero (by omega : f2 ≠ 0)
    by_cases hv : v = s.root
    · simp [distAux, hv]
    · simp only [distAux, if_neg hv]
      congr 1
      exact ih (s.p v) m1 m2 (by rw [← Function.iterate_succ_apply]; exact hk)
        (by omega) (by omega)

theorem Skel.distToRoot_of_root {s : Skel} {w : ℕ → ℕ → ℚ} :
    s.distToRoot w s.root = 0 := by
  simp [Skel.distToRoot, distAux]

theorem Skel.distToRoot_step {s : Skel} {w : ℕ → ℕ → ℚ} (hs : s.Valid) {v : ℕ}
    (hv : v < s.n) (hr : v ≠ s.root) :
    s.distToRoot w v = s.distToRoot w (s.p v) + w v (s.p v) := by
  have hpv : s.p v < s.n := hs.p_lt v hv
  show distAux s w (s.n + 1) v = distAux s w (s.n + 1) (s.p v) + w v (s.p v)
  simp only [distAux, if_neg hr]
  congr 2
  apply distAux_fuel_eq (s.depth (s.p v)) (s.p v) s.n (s.n + 1)
    (Skel.depth_reach hs hpv)
  · have h1 := Skel.depth_succ hs hv hr
    have h2 := Skel.depth_le_n hs hv
    omega
  · have := Skel.depth_le_n hs hpv
    omega

theorem Skel.distToRoot_nonneg {s : Skel} {w : ℕ → ℕ → ℚ} (hs : s.Valid)
    (hw : ∀ u, u < s.n → ∀ v, v < s.n → 0 ≤ w u v) :
    ∀ v, v < s.n → 0 ≤ s.distToRoot w v := by
  suffices H : ∀ d v, v < s.n → s.depth v = d → 0 ≤ s.distToRoot w v by
    intro v hv
    exact H (s.depth v) v hv rfl
  intro d
  induction d using Nat.strong_induction_on with
  | _ d ih =>
    intro v hv hd
    by_cases hr : v = s.root
    · subst hr
      rw [Skel.distToRoot_of_root]
    · rw [Skel.distToRoot_step hs hv hr]
      have hstep := Skel.depth_succ hs hv hr
      have h1 := ih (s.depth (s.p v)) (by omega) (s.p v) (hs.p_lt v hv) rfl
      have h2 := hw v hv (s.p v) (hs.p_lt v hv)
      linarith

theorem Skel.distToRoot_parent_le {s : Skel} {w : ℕ → ℕ → ℚ} (hs : s.Valid)
    (hw : ∀ u, u < s.n → ∀ v, v < s.n → 0 ≤ w u v) {v : ℕ} (hv : v < s.n) :
    s.distToRoot w (s.p v) ≤ s.distToRoot w v := by
  by_cases hr : v = s.root
  · rw [hr, hs.p_root]
  · rw [Skel.distToRoot_step hs hv hr]
    have := hw v hv (s.p v) (hs.p_lt v hv)
    linarith

theorem Skel.distToRoot_iter_le {s : Skel} {w : ℕ → ℕ → ℚ} (hs : s.Valid)
    (hw : ∀ u, u < s.n → ∀ v, v < s.n → 0 ≤ w u v) {v : ℕ} (hv : v < s.n) :
    ∀ k, s.distToRoot w ((s.p)^[k] v) ≤ s.distToRoot w v := by
  intro k
  induction k with
  | zero => rfl
  | succ k ih =>
    rw [Function.iterate_succ_apply']
    exact le_trans (Skel.distToRoot_parent_le hs hw (iter_lt hs.p_lt hv k)) ih

/-- C4: for every valid skeleton under any current root, the distance to the
root is zero at the root, nonnegative everywhere, satisfies the parent
recurrence `distance_to_root v = distance_to_root (parent v) + edge_length`
for every non-root vertex, and is monotonically non-decreasing along any
path away from the root (equivalently, non-increasing along parent links). -/
theorem distToRoot_invariants (s : Skel) (w : ℕ → ℕ → ℚ) (hs : s.Valid)
    (hw : ∀ u, u < s.n → ∀ v, v < s.n → 0 ≤ w u v) :
    s.distToRoot w s.root = 0 ∧
    (∀ v, v < s.n → 0 ≤ s.distToRoot w v) ∧
    (∀ v, v < s.n → v ≠ s.root →
      s.distToRoot w v = s.distToRoot w (s.p v) + w v (s.p v)) ∧
    (∀ v, v < s.n → ∀ k, s.distToRoot w ((s.p)^[k] v) ≤ s.distToRoot w v) :=
  ⟨Skel.distToRoot_of_root,
   Skel.distToRoot_nonneg hs hw,
   fun v hv hr => Skel.distToRoot_step hs hv hr,
   fun v hv k => Skel.distToRoot_iter_le hs hw hv k⟩

/-- Witness for C4: the Y-shaped example skeleton with unit weights. -/
theorem distToRoot_invariants_witness :
    (Ysk.Valid ∧ (∀ u, u < Ysk.n → ∀ v, v < Ysk.n → 0 ≤ wOne u v)) ∧
    (Ysk.distToRoot wOne Ysk.root = 0 ∧
     (∀ v, v < Ysk.n → 0 ≤ Ysk.distToRoot wOne v) ∧
     (∀ v, v < Ysk.n → v ≠ Ysk.root →
       Ysk.distToRoot wOne v = Ysk.distToRoot wOne (Ysk.p v) + wOne v (Ysk.p v)) ∧
     (∀ v, v < Ysk.n → ∀ k,
       Ysk.distToRoot wOne ((Ysk.p)^[k] v) ≤ Ysk.distToRoot wOne v)) :=
  ⟨⟨by decide, by decide⟩, distToRoot_invariants Ysk wOne (by decide) (by decide)⟩

/-! ### Splitting a list at the first element satisfying a predicate -/

theorem splitFirst (P : ℕ → Bool) (d : ℕ) :
    ∀ l : List ℕ, l.filter P ≠ [] →
      l.takeWhile (fun x => !P x) ++
          (l.filter P).headD d :: (l.dropWhile (fun x => !P x)).tail = l ∧
        P ((l.filter P).headD d) = true := by
  intro l
  induction l with
  | nil => intro h; simp at h
  | cons x xs ih =>
    intro h
    by_cases hx : P x = true
    · constructor
      · simp [List.filter_cons, hx, List.takeWhile_cons, List.dropWhile_cons]
      · simp [List.filter_cons, hx]
    · have hx' : P x = false := Bool.eq_false_iff.mpr hx
      have hfil : (x :: xs).filter P = xs.filter P := by
        simp [List.filter_cons, hx']
      rw [hfil] at h
      obtain ⟨h1, h2⟩ := ih h
      constructor
      · rw [hfil]
        simp only [List.takeWhile_cons, List.dropWhile_cons, hx', Bool.not_false,
          if_true]
        simpa [List.cons_append] using congrArg (fun t => x :: t) h1
      · rw [hfil]
        exact h2

/-! ### Path length -/

theorem Skel.adjacent_symm {s : Skel} {u v : ℕ} : s.adjacent u v ↔ s.adjacent v u :=
  or_comm

theorem Skel.pathLen_nil {s : Skel} {w : ℕ → ℕ → ℚ} : s.pathLen w [] = 0 := rfl

theorem Skel.pathLen_single {s : Skel} {w : ℕ → ℕ → ℚ} {x : ℕ} :
    s.pathLen w [x] = 0 := rfl

theorem Skel.pathLen_cons_cons {s : Skel} {w : ℕ → ℕ → ℚ} {x y : ℕ} {l : List ℕ} :
    s.pathLen w (x :: y :: l) =
      (if s.adjacent x y then w x y else 0) + s.pathLen w (y :: l) := rfl

theorem Skel.pathLen_append {s : Skel} {w : ℕ → ℕ → ℚ} :
    ∀ (A : List ℕ) (x : ℕ) (B : List ℕ),
      s.pathLen w (A ++ x :: B) = s.pathLen w (A ++ [x]) + s.pathLen w (x :: B) := by
  intro A
  induction A with
  | nil =>
    intro x B
    simp [Skel.pathLen_single]
  | cons a A ih =>
    intro x B
    cases A with
    | nil =>
      simp only [List.nil_append, List.cons_append, Skel.pathLen_cons_cons,
        Skel.pathLen_single]
      ring
    | cons a2 A2 =>
      simp only [List.cons_append, Skel.pathLen_cons_cons]
      have := ih x B
      simp only [List.cons_append] at this
      rw [this]
      ring

theorem Skel.pathLen_reverse {s : Skel} {w : ℕ → ℕ → ℚ}
    (hw : ∀ u, u < s.n → ∀ v, v < s.n → w u v = w v u) :
    ∀ l : List ℕ, (∀ x ∈ l, x < s.n) → s.pathLen w l.reverse = s.pathLen w l := by
  intro l
  induction l with
  | nil => intro _; rfl
  | cons a l ih =>
    intro hmem
    cases l with
    | nil => rfl
    | cons b l' =>
      have hrev : (a :: b :: l').reverse = (b :: l').reverse ++ [a] := by
        simp
      have hrev2 : (b :: l').reverse = l'.reverse ++ [b] := by simp
      rw [hrev, hrev2, List.append_assoc]
      simp only [List.singleton_append]
      have happ := Skel.pathLen_append (s := s) (w := w) l'.reverse b [a]
      simp only [List.singleton_append] at happ
      rw [happ, ← hrev2]
      rw [ih (fun x hx => hmem x (List.mem_cons_of_mem a hx))]
      rw [Skel.pathLen_cons_cons, Skel.pathLen_cons_cons, Skel.pathLen_single]
      have ha : a < s.n := hmem a (by simp)
      have hb : b < s.n := hmem b (by simp)
      have hadj : s.adjacent b a ↔ s.adjacent a b := Skel.adjacent_symm
      by_cases h : s.adjacent a b
      · rw [if_pos h, if_pos (hadj.mpr h), hw b hb a ha]
        ring
      · rw [if_neg h, if_neg (fun h2 => h (hadj.mp h2))]
        ring

theorem Skel.pathLen_chain_eq {s : Skel} {w : ℕ → ℕ → ℚ} (hs : s.Valid) :
    ∀ l : List ℕ, List.Chain' (fun u v => u ≠ s.root ∧ s.p u = v) l →
      (∀ x ∈ l, x < s.n) → ∀ a b, l.head? = some a → l.getLast? = some b →
        s.pathLen w l = s.distToRoot w a - s.distToRoot w b := by
  intro l
  induction l with
  | nil =>
    intro _ _ a b h
    simp at h
  | cons x xs ih =>
    intro hch hmem a b hh hl
    have hax : a = x := by
      simp only [List.head?_cons, Option.some.injEq] at hh
      exact hh.symm
    subst hax
    cases xs with
    | nil =>
      have hbx : b = a := by
        simp only [List.getLast?_singleton, Option.some.injEq] at hl
        exact hl.symm
      subst hbx
      rw [Skel.pathLen_single]
      ring
    | cons y ys =>
      rw [List.chain'_cons] at hch
      obtain ⟨⟨har, hpy⟩, hch'⟩ := hch
      have hrec := ih hch' (fun u hu => hmem u (List.mem_cons_of_mem a hu)) y b
        rfl (by rw [← hl]; rfl)
      rw [Skel.pathLen_cons_cons, hrec]
      have hadj : s.adjacent a y := Or.inl ⟨har, hpy⟩
      rw [if_pos hadj]
      have hstep := Skel.distToRoot_step (w := w) hs (hmem a (by simp)) har
      rw [hpy] at hstep
      linarith

/-! ### The lowest common ancestor and the path between two vertices -/

theorem Skel.lca_spec {s : Skel} (hs : s.Valid) {a b : ℕ} (ha : a < s.n)
    (hb : b < s.n) :
    ((s.pathToRoot a).takeWhile (fun u => !(s.pathToRoot b).contains u) ++
        s.lca a b :: ((s.pathToRoot a).dropWhile
          (fun u => !(s.pathToRoot b).contains u)).tail = s.pathToRoot a) ∧
      s.lca a b ∈ s.pathToRoot b := by
  have hfil : (s.pathToRoot a).filter (fun u => (s.pathToRoot b).contains u) ≠ [] := by
    intro h
    rw [List.filter_eq_nil_iff] at h
    refine h s.root (Skel.root_mem_pathToRoot hs ha) ?_
    exact List.elem_iff.mpr (Skel.root_mem_pathToRoot hs hb)
  obtain ⟨h1, h2⟩ := splitFirst (fun u => (s.pathToRoot b).contains u) s.root
    (s.pathToRoot a) hfil
  unfold Skel.lca
  refine ⟨h1, ?_⟩
  exact List.elem_iff.mp h2

theorem head?_append_cons (A : List ℕ) (x : ℕ) (r : List ℕ) :
    (A ++ x :: r).head? = (A ++ [x]).head? := by
  cases A <;> rfl

/-- C3: for every pair of valid vertex indices, the path length of the
output of `path_between a b` is `distance_to_root a + distance_to_root b -
2 * distance_to_root lca`, where the LCA is the lowest common ancestor of
`a` and `b` under the current root (it is a common ancestor — a member of
both path-to-root sequences — and no common ancestor is deeper). -/
theorem pathLength_between (s : Skel) (w : ℕ → ℕ → ℚ) (hs : s.Valid)
    (hw : ∀ u, u < s.n → ∀ v, v < s.n → w u v = w v u)
    (a b : ℕ) (ha : a < s.n) (hb : b < s.n) :
    s.lca a b ∈ s.pathToRoot a ∧ s.lca a b ∈ s.pathToRoot b ∧
    (∀ u, u ∈ s.pathToRoot a → u ∈ s.pathToRoot b →
      s.depth u ≤ s.depth (s.lca a b)) ∧
    s.pathLen w (s.pathBetween a b) =
      s.distToRoot w a + s.distToRoot w b - 2 * s.distToRoot w (s.lca a b) := by
  obtain ⟨hsplit, hLb⟩ := Skel.lca_spec hs ha hb
  have hLa : s.lca a b ∈ s.pathToRoot a := by
    rw [← hsplit]
    simp
  have hLn : s.lca a b < s.n := Skel.mem_pathToRoot_lt hs ha hLa
  have hbound_a : ∀ x ∈ s.pathToRoot a, x < s.n := fun x hx =>
    Skel.mem_pathToRoot_lt hs ha hx
  have hbound_b : ∀ x ∈ s.pathToRoot b, x < s.n := fun x hx =>
    Skel.mem_pathToRoot_lt hs hb hx
  -- notation for the two takeWhile prefixes
  set L := s.lca a b with hLdef
  set A := (s.pathToRoot a).takeWhile (fun u => !(s.pathToRoot b).contains u)
    with hAdef
  set restA := ((s.pathToRoot a).dropWhile
    (fun u => !(s.pathToRoot b).contains u)).tail with hrAdef
  have hAmem : ∀ x ∈ A, x ∉ s.pathToRoot b := by
    intro x hx
    have hpred := List.mem_takeWhile_imp (hAdef ▸ hx)
    rw [Bool.not_eq_true'] at hpred
    intro hmem
    have h2 : (s.pathToRoot b).contains x = true := List.elem_iff.mpr hmem
    rw [h2] at hpred
    simp at hpred
  have hAsub : ∀ x ∈ A, x ∈ s.pathToRoot a := by
    intro x hx
    exact (List.takeWhile_sublist _).subset (hAdef ▸ hx)
  have hlenA : A.length + 1 + restA.length = s.depth a + 1 := by
    have h1 : (A ++ L :: restA).length = (s.pathToRoot a).length := by rw [hsplit]
    rw [Skel.pathToRoot_length hs a ha] at h1
    simp at h1
    omega
  have hidxA : A.length < (s.pathToRoot a).length := by
    rw [Skel.pathToRoot_length hs a ha]
    omega
  have hgetL : (s.p)^[A.length] a = L := by
    have h2 := Skel.pathToRoot_getElem hs a ha A.length hidxA
    rw [← h2, List.getElem_of_eq hsplit.symm hidxA,
      List.getElem_append_right (le_refl A.length)]
    simp
  have hdL : s.depth L = s.depth a - A.length := by
    rw [← hgetL]
    exact Skel.depth_iter hs ha _ (by omega)
  -- the LCA is the deepest common ancestor
  have hlowest : ∀ u, u ∈ s.pathToRoot a → u ∈ s.pathToRoot b →
      s.depth u ≤ s.depth L := by
    intro u hua hub
    obtain ⟨i, hi, hiu⟩ := (Skel.mem_pathToRoot hs ha).mp hua
    have hiA : A.length ≤ i := by
      by_contra hcon
      push_neg at hcon
      have hidx : i < (s.pathToRoot a).length := by
        rw [Skel.pathToRoot_length hs a ha]
        omega
      have h1 : (s.pathToRoot a)[i] = u := by
        rw [Skel.pathToRoot_getElem hs a ha i hidx]
        exact hiu
      have hidx2 : i < (A ++ L :: restA).length := by
        rw [hsplit]
        exact hidx
      have h2 : (A ++ L :: restA)[i] = u := by
        rw [List.getElem_of_eq hsplit hidx2]
        exact h1
      rw [List.getElem_append_left hcon] at h2
      exact hAmem u (h2 ▸ List.getElem_mem hcon) hub
    have hdu := Skel.depth_iter hs ha i hi
    rw [hiu] at hdu
    omega
  -- path length of the a-side chain
  have hchain_a := Skel.pathToRoot_chain hs a ha
  have hALpref : s.pathToRoot a = (A ++ [L]) ++ restA := by
    rw [← hsplit]
    simp
  have hchAL : List.Chain' (fun u v => u ≠ s.root ∧ s.p u = v) (A ++ [L]) := by
    rw [hALpref] at hchain_a
    exact (List.chain'_append.mp hchain_a).1
  have hheadAL : (A ++ [L]).head? = some a := by
    rw [← head?_append_cons A L restA, hsplit]
    exact Skel.pathToRoot_head hs ha
  have hsumA : s.pathLen w (A ++ [L]) = s.distToRoot w a - s.distToRoot w L := by
    apply Skel.pathLen_chain_eq hs (A ++ [L]) hchAL
    · intro x hx
      rcases List.mem_append.mp hx with h | h
      · exact hbound_a x (hAsub x h)
      · simp at h
        exact h ▸ hLn
    · exact hheadAL
    · exact List.getLast?_concat _
  -- the b-side split at the LCA
  have hfilB : (s.pathToRoot b).filter (fun u => u == L) ≠ [] := by
    intro h
    rw [List.filter_eq_nil_iff] at h
    exact h L hLb (by simp)
  obtain ⟨hsplitB, hheadB⟩ := splitFirst (fun u => u == L) s.root (s.pathToRoot b) hfilB
  have hHL : ((s.pathToRoot b).filter (fun u => u == L)).headD s.root = L := by
    have := hheadB
    simpa using this
  rw [hHL] at hsplitB
  set B := (s.pathToRoot b).takeWhile (fun u => !(u == L)) with hBdef
  set restB := ((s.pathToRoot b).dropWhile (fun u => !(u == L))).tail with hrBdef
  have hBsub : ∀ x ∈ B, x ∈ s.pathToRoot b := by
    intro x hx
    exact (List.takeWhile_sublist _).subset (hBdef ▸ hx)
  have hchain_b := Skel.pathToRoot_chain hs b hb
  have hBLpref : s.pathToRoot b = (B ++ [L]) ++ restB := by
    rw [← hsplitB]
    simp
  have hchBL : List.Chain' (fun u v => u ≠ s.root ∧ s.p u = v) (B ++ [L]) := by
    rw [hBLpref] at hchain_b
    exact (List.chain'_append.mp hchain_b).1
  have hheadBL : (B ++ [L]).head? = some b := by
    rw [← head?_append_cons B L restB, hsplitB]
    exact Skel.pathToRoot_head hs hb
  have hboundBL : ∀ x ∈ B ++ [L], x < s.n := by
    intro x hx
    rcases List.mem_append.mp hx with h | h
    · exact hbound_b x (hBsub x h)
    · simp at h
      exact h ▸ hLn
  have hsumB : s.pathLen w (B ++ [L]) = s.distToRoot w b - s.distToRoot w L := by
    apply Skel.pathLen_chain_eq hs (B ++ [L]) hchBL hboundBL
    · exact hheadBL
    · exact List.getLast?_concat _
  have hsumBrev : s.pathLen w (L :: B.reverse) =
      s.distToRoot w b - s.distToRoot w L := by
    have h1 : (B ++ [L]).reverse = L :: B.reverse := by simp
    rw [← h1, Skel.pathLen_reverse hw _ hboundBL, hsumB]
  -- assembly
  have hPB : s.pathBetween a b = A ++ L :: B.reverse := rfl
  refine ⟨hLa, hLb, hlowest, ?_⟩
  rw [hPB, Skel.pathLen_append A L B.reverse, hsumA]
  rw [hsumBrev]
  ring

/-- Witness for C3: the Y-shaped example skeleton with unit weights, at the
two tips 4 and 6. -/
theorem pathLength_between_witness :
    (Ysk.Valid ∧ (∀ u, u < Ysk.n → ∀ v, v < Ysk.n → wOne u v = wOne v u) ∧
      4 < Ysk.n ∧ 6 < Ysk.n) ∧
    (Ysk.lca 4 6 ∈ Ysk.pathToRoot 4 ∧ Ysk.lca 4 6 ∈ Ysk.pathToRoot 6 ∧
     (∀ u, u ∈ Ysk.pathToRoot 4 → u ∈ Ysk.pathToRoot 6 →
       Ysk.depth u ≤ Ysk.depth (Ysk.lca 4 6)) ∧
     Ysk.pathLen wOne (Ysk.pathBetween 4 6) =
       Ysk.distToRoot wOne 4 + Ysk.distToRoot wOne 6 -
         2 * Ysk.distToRoot wOne (Ysk.lca 4 6)) :=
  ⟨⟨by decide, by decide, by decide, by decide⟩,
   pathLength_between Ysk wOne (by decide) (by decide) 4 6 (by decide) (by decide)⟩

/-! ### Cover paths: the greedy walk -/

theorem containsTrue {l : List ℕ} {x : ℕ} : l.contains x = true ↔ x ∈ l :=
  List.elem_iff

theorem walkUp_eq_takeWhile {s : Skel} (hs : s.Valid) (vis : List ℕ) :
    ∀ fuel v, v < s.n → s.depth v < fuel →
      walkUp s vis fuel v = (s.pathToRoot v).takeWhile (fun u => !vis.contains u) := by
  intro fuel
  induction fuel with
  | zero =>
    intro v hv h
    omega
  | succ fuel ih =>
    intro v hv hd
    by_cases hr : v = s.root
    · subst hr
      rw [Skel.pathToRoot_of_root, List.takeWhile_cons]
      by_cases hvis : s.root ∈ vis
      · rw [show (!vis.contains s.root) = false by simp [containsTrue, hvis]]
        simp [walkUp, hvis]
      · rw [show (!vis.contains s.root) = true by simp [containsTrue, hvis]]
        simp [walkUp, hvis]
    · rw [Skel.pathToRoot_cons hs hv hr, List.takeWhile_cons]
      by_cases hvis : v ∈ vis
      · rw [show (!vis.contains v) = false by simp [containsTrue, hvis]]
        simp [walkUp, hvis]
      · rw [show (!vis.contains v) = true by simp [containsTrue, hvis]]
        simp only [walkUp, if_neg hvis, if_neg hr, if_true]
        congr 1
        exact ih (s.p v) (hs.p_lt v hv)
          (by have := Skel.depth_succ hs hv hr; omega)

theorem walkUp_top {s : Skel} (hs : s.Valid) (vis : List ℕ) {v : ℕ} (hv : v < s.n) :
    walkUp s vis (s.n + 1) v =
      (s.pathToRoot v).takeWhile (fun u => !vis.contains u) :=
  walkUp_eq_takeWhile hs vis (s.n + 1) v hv (by have := Skel.depth_le_n hs hv; omega)

theorem walkUp_mem {s : Skel} (hs : s.Valid) (vis : List ℕ) {v : ℕ} (hv : v < s.n) :
    ∀ x ∈ walkUp s vis (s.n + 1) v, x ∈ s.pathToRoot v ∧ x ∉ vis := by
  intro x hx
  rw [walkUp_top hs vis hv] at hx
  constructor
  · exact (List.takeWhile_sublist _).subset hx
  · have hpred := List.mem_takeWhile_imp hx
    rw [Bool.not_eq_true'] at hpred
    intro hmem
    rw [containsTrue.mpr hmem] at hpred
    simp at hpred

theorem walkUp_nodup {s : Skel} (hs : s.Valid) (vis : List ℕ) {v : ℕ} (hv : v < s.n) :
    (walkUp s vis (s.n + 1) v).Nodup := by
  rw [walkUp_top hs vis hv]
  exact (List.takeWhile_sublist _).nodup (Skel.pathToRoot_nodup hs hv)

theorem walkUp_chain {s : Skel} (hs : s.Valid) (vis : List ℕ) {v : ℕ} (hv : v < s.n) :
    List.Chain' (fun a b => a ≠ s.root ∧ s.p a = b) (walkUp s vis (s.n + 1) v) := by
  rw [walkUp_top hs vis hv]
  have hch := Skel.pathToRoot_chain hs v hv
  rw [← List.takeWhile_append_dropWhile (fun u => !vis.contains u) (s.pathToRoot v)]
    at hch
  exact (List.chain'_append.mp hch).1

theorem walkUp_head {s : Skel} (hs : s.Valid) (vis : List ℕ) {v : ℕ} (hv : v < s.n)
    (hnv : v ∉ vis) : (walkUp s vis (s.n + 1) v).head? = some v := by
  rw [walkUp_top hs vis hv]
  obtain ⟨ys, hys⟩ := List.head?_eq_some_iff.mp (Skel.pathToRoot_head hs hv)
  rw [hys, List.takeWhile_cons]
  rw [show (!vis.contains v) = true by simp [containsTrue, hnv]]
  rfl

theorem dropWhile_head_false (p : ℕ → Bool) :
    ∀ (l : List ℕ) (x : ℕ), (l.dropWhile p).head? = some x → p x = false := by
  intro l
  induction l with
  | nil => intro x h; simp at h
  | cons a l ih =>
    intro x h
    by_cases ha : p a = true
    · rw [List.dropWhile_cons, if_pos ha] at h
      exact ih x h
    · rw [List.dropWhile_cons, if_neg ha] at h
      simp only [List.head?_cons, Option.some.injEq] at h
      rw [← h]
      exact Bool.eq_false_iff.mpr ha

theorem walkUp_getElem {s : Skel} (hs : s.Valid) (vis : List ℕ) {v : ℕ} (hv : v < s.n) :
    ∀ i, (h : i < (walkUp s vis (s.n + 1) v).length) →
      (walkUp s vis (s.n + 1) v)[i] = (s.p)^[i] v := by
  intro i h
  have htw := walkUp_top hs vis hv
  have hsplit := List.takeWhile_append_dropWhile (fun u => !vis.contains u)
    (s.pathToRoot v)
  have hlen : i < (s.pathToRoot v).length := by
    rw [← hsplit]
    have h2 := h
    rw [htw] at h2
    rw [List.length_append]
    omega
  have h4 : i < ((s.pathToRoot v).takeWhile (fun u => !vis.contains u)).length := by
    rw [← htw]
    exact h
  have hlen2 : i < ((s.pathToRoot v).takeWhile (fun u => !vis.contains u) ++
      (s.pathToRoot v).dropWhile (fun u => !vis.contains u)).length := by
    rw [hsplit]
    exact hlen
  have e1 : (walkUp s vis (s.n + 1) v)[i] =
      ((s.pathToRoot v).takeWhile (fun u => !vis.contains u))[i] :=
    List.getElem_of_eq htw h
  have e2 : ((s.pathToRoot v).takeWhile (fun u => !vis.contains u) ++
        (s.pathToRoot v).dropWhile (fun u => !vis.contains u))[i] =
      ((s.pathToRoot v).takeWhile (fun u => !vis.contains u))[i] :=
    List.getElem_append_left h4
  have e3 : ((s.pathToRoot v).takeWhile (fun u => !vis.contains u) ++
        (s.pathToRoot v).dropWhile (fun u => !vis.contains u))[i] =
      (s.pathToRoot v)[i] :=
    List.getElem_of_eq hsplit hlen2
  rw [e1, ← e2, e3]
  exact Skel.pathToRoot_getElem hs v hv i hlen

theorem walkUp_last {s : Skel} (hs : s.Valid) (vis : List ℕ) {v : ℕ} (hv : v < s.n) :
    ∀ l, (walkUp s vis (s.n + 1) v).getLast? = some l →
      l = s.root ∨ s.p l ∈ vis := by
  intro l hl
  rw [walkUp_top hs vis hv] at hl
  set W := (s.pathToRoot v).takeWhile (fun u => !vis.contains u) with hW
  set D := (s.pathToRoot v).dropWhile (fun u => !vis.contains u) with hD
  have hsplit : W ++ D = s.pathToRoot v := List.takeWhile_append_dropWhile _ _
  cases hDe : D with
  | nil =>
    left
    have : (s.pathToRoot v).getLast? = some l := by
      rw [← hsplit, hDe, List.append_nil]
      exact hl
    rw [Skel.pathToRoot_getLast hs hv] at this
    simpa using this.symm
  | cons d D' =>
    right
    have hdvis : d ∈ vis := by
      have hval := dropWhile_head_false (fun u => !vis.contains u) (s.pathToRoot v) d
        (by rw [← hD, hDe]; rfl)
      simp only [Bool.not_eq_false'] at hval
      exact containsTrue.mp hval
    obtain ⟨ys, hys⟩ := List.getLast?_eq_some_iff.mp hl
    have hch := Skel.pathToRoot_chain hs v hv
    rw [← hsplit, hDe, hys] at hch
    have hrel := (List.chain'_append.mp hch).2.2 l (by rw [List.getLast?_concat]; rfl) d rfl
    rw [hrel.2]
    exact hdvis

theorem walkUp_closure {s : Skel} (hs : s.Valid) {vis : List ℕ}
    (hcl : visClosed s vis) {v : ℕ} (hv : v < s.n) :
    visClosed s (vis ++ walkUp s vis (s.n + 1) v) := by
  intro u hu
  rcases List.mem_append.mp hu with h | h
  · obtain ⟨h1, h2⟩ := hcl u h
    exact ⟨h1, fun hur => List.mem_append.mpr (Or.inl (h2 hur))⟩
  · have hun : u < s.n :=
      Skel.mem_pathToRoot_lt hs hv (walkUp_mem hs vis hv u h).1
    refine ⟨hun, ?_⟩
    intro hur
    obtain ⟨i, hi, hiu⟩ := List.mem_iff_getElem.mp h
    have hgu : (s.p)^[i] v = u := by rw [← walkUp_getElem hs vis hv i hi]; exact hiu
    have hWlen : (walkUp s vis (s.n + 1) v).length ≤ (s.pathToRoot v).length := by
      rw [walkUp_top hs vis hv]
      exact (List.takeWhile_sublist _).length_le
    by_cases hlast : i + 1 < (walkUp s vis (s.n + 1) v).length
    · apply List.mem_append.mpr
      right
      have := walkUp_getElem hs vis hv (i + 1) hlast
      rw [Function.iterate_succ_apply', hgu] at this
      rw [← this]
      exact List.getElem_mem hlast
    · -- u is the last entry of the walk
      have hlasteq : (walkUp s vis (s.n + 1) v).getLast? = some u := by
        rw [List.getLast?_eq_getElem?]
        have hi1 : (walkUp s vis (s.n + 1) v).length - 1 = i := by omega
        rw [hi1, List.getElem?_eq_getElem hi]
        exact congrArg some hiu
      rcases walkUp_last hs vis hv u hlasteq with h1 | h1
      · exact absurd h1 hur
      · exact List.mem_append.mpr (Or.inl h1)

theorem visClosed_iterate {s : Skel} (hs : s.Valid) {vis : List ℕ}
    (hcl : visClosed s vis) {u : ℕ} (hu : u ∈ vis) :
    ∀ k, (s.p)^[k] u ∈ vis := by
  intro k
  induction k with
  | zero => exact hu
  | succ k ih =>
    rw [Function.iterate_succ_apply']
    by_cases hr : (s.p)^[k] u = s.root
    · rw [hr, hs.p_root, ← hr]
      exact ih
    · exact (hcl _ ih).2 hr

theorem visClosed_pathToRoot {s : Skel} (hs : s.Valid) {vis : List ℕ}
    (hcl : visClosed s vis) {t : ℕ} (ht : t ∈ vis) :
    ∀ x ∈ s.pathToRoot t, x ∈ vis := by
  intro x hx
  have htn : t < s.n := (hcl t ht).1
  obtain ⟨i, _, rfl⟩ := (Skel.mem_pathToRoot hs htn).mp hx
  exact visClosed_iterate hs hcl ht i

theorem walkUp_covers {s : Skel} (hs : s.Valid) {vis : List ℕ}
    (hcl : visClosed s vis) {v : ℕ} (hv : v < s.n) :
    ∀ x ∈ s.pathToRoot v, x ∈ vis ++ walkUp s vis (s.n + 1) v := by
  intro x hx
  set W := walkUp s vis (s.n + 1) v with hWdef
  have htw : W = (s.pathToRoot v).takeWhile (fun u => !vis.contains u) :=
    walkUp_top hs vis hv
  set D := (s.pathToRoot v).dropWhile (fun u => !vis.contains u) with hDdef
  have hsplit : W ++ D = s.pathToRoot v := by
    rw [htw]
    exact List.takeWhile_append_dropWhile _ _
  rw [← hsplit] at hx
  rcases List.mem_append.mp hx with h | h
  · exact List.mem_append.mpr (Or.inr h)
  · -- the dropped suffix is entirely visited
    cases hDe : D with
    | nil =>
      rw [hDe] at h
      simp at h
    | cons d D' =>
      have hdvis : d ∈ vis := by
        have hval := dropWhile_head_false (fun u => !vis.contains u) (s.pathToRoot v) d
          (by rw [← hDdef, hDe]; rfl)
        simp only [Bool.not_eq_false'] at hval
        exact containsTrue.mp hval
      have hWlen : W.length ≤ s.depth v := by
        have h1 : (W ++ D).length = (s.pathToRoot v).length := by rw [hsplit]
        rw [Skel.pathToRoot_length hs v hv] at h1
        rw [List.length_append, hDe] at h1
        simp at h1
        omega
      have hDdrop : D = (s.pathToRoot v).drop W.length := by
        rw [← hsplit, List.drop_left]
      have hDpath : D = s.pathToRoot ((s.p)^[W.length] v) := by
        rw [hDdrop]
        exact Skel.pathToRoot_drop hs hv W.length hWlen
      have hdhead : ((s.p)^[W.length] v) = d := by
        have h1 : D.head? = some d := by rw [hDe]; rfl
        rw [hDpath] at h1
        have h2 := Skel.pathToRoot_head hs (iter_lt hs.p_lt hv W.length)
        rw [h1] at h2
        simpa using h2.symm
      rw [hDe] at h
      rw [← hDe] at h
      rw [hDpath, hdhead] at h
      exact List.mem_append.mpr (Or.inl (visClosed_pathToRoot hs hcl hdvis x h))

/-! ### Cover paths: the greedy pass -/

theorem coverAux_cons {s : Skel} {vis : List ℕ} {e : ℕ} {es : List ℕ}
    (hnv : e ∉ vis) :
    coverAux s vis (e :: es) =
      walkUp s vis (s.n + 1) e ::
        coverAux s (vis ++ walkUp s vis (s.n + 1) e) es := by
  simp [coverAux, hnv]

theorem coverInv_step {s : Skel} (hs : s.Valid) {vis : List ℕ} {e : ℕ} {es : List ℕ}
    (hinv : coverInv s vis (e :: es)) :
    coverInv s (vis ++ walkUp s vis (s.n + 1) e) es := by
  obtain ⟨hcl, hnd, hes⟩ := hinv
  have he := (hes e (by simp)).1
  have hen : e < s.n := (Skel.mem_endPoints.mp he).1
  refine ⟨walkUp_closure hs hcl hen, (List.nodup_cons.mp hnd).2, ?_⟩
  intro e2 he2
  have h1 := hes e2 (List.mem_cons_of_mem e he2)
  refine ⟨h1.1, ?_⟩
  intro hmem
  rcases List.mem_append.mp hmem with h | h
  · exact h1.2 h
  · have h2 := (walkUp_mem hs vis hen e2 h).1
    have h3 : e2 = e := Skel.endPoint_eq_of_mem_pathToRoot hs h1.1 hen h2
    rw [h3] at he2
    exact (List.nodup_cons.mp hnd).1 he2

theorem coverAux_length {s : Skel} (hs : s.Valid) :
    ∀ es vis, coverInv s vis es → (coverAux s vis es).length = es.length := by
  intro es
  induction es with
  | nil => intro vis _; rfl
  | cons e es ih =>
    intro vis hinv
    rw [coverAux_cons (hinv.2.2 e (by simp)).2]
    simp [ih _ (coverInv_step hs hinv)]

theorem coverAux_new {s : Skel} (hs : s.Valid) :
    ∀ es vis, coverInv s vis es →
      ∀ P ∈ coverAux s vis es, ∀ x ∈ P, x ∉ vis ∧ x < s.n := by
  intro es
  induction es with
  | nil =>
    intro vis _ P hP
    simp [coverAux] at hP
  | cons e es ih =>
    intro vis hinv P hP x hx
    have hen : e < s.n := (Skel.mem_endPoints.mp (hinv.2.2 e (by simp)).1).1
    rw [coverAux_cons (hinv.2.2 e (by simp)).2] at hP
    rcases List.mem_cons.mp hP with h | h
    · subst h
      obtain ⟨h1, h2⟩ := walkUp_mem hs vis hen x hx
      exact ⟨h2, Skel.mem_pathToRoot_lt hs hen h1⟩
    · have h1 := ih _ (coverInv_step hs hinv) P h x hx
      exact ⟨fun hc => h1.1 (List.mem_append.mpr (Or.inl hc)), h1.2⟩

theorem coverAux_covers {s : Skel} (hs : s.Valid) :
    ∀ es vis, coverInv s vis es → ∀ e ∈ es, ∀ x ∈ s.pathToRoot e,
      x ∈ vis ++ (coverAux s vis es).flatten := by
  intro es
  induction es with
  | nil =>
    intro vis _ e he
    simp at he
  | cons e2 es ih =>
    intro vis hinv e he x hx
    have hen2 : e2 < s.n := (Skel.mem_endPoints.mp (hinv.2.2 e2 (by simp)).1).1
    rw [coverAux_cons (hinv.2.2 e2 (by simp)).2]
    rw [List.flatten_cons, ← List.append_assoc]
    rcases List.mem_cons.mp he with h | h
    · subst h
      exact List.mem_append.mpr
        (Or.inl (walkUp_covers hs hinv.1 hen2 x hx))
    · exact ih _ (coverInv_step hs hinv) e h x hx

theorem coverAux_flatten_nodup {s : Skel} (hs : s.Valid) :
    ∀ es vis, coverInv s vis es → (coverAux s vis es).flatten.Nodup := by
  intro es
  induction es with
  | nil =>
    intro vis _
    simp [coverAux]
  | cons e es ih =>
    intro vis hinv
    have hen : e < s.n := (Skel.mem_endPoints.mp (hinv.2.2 e (by simp)).1).1
    rw [coverAux_cons (hinv.2.2 e (by simp)).2, List.flatten_cons]
    rw [List.nodup_append]
    refine ⟨walkUp_nodup hs vis hen, ih _ (coverInv_step hs hinv), ?_⟩
    intro x hxW hxF
    obtain ⟨Q, hQ, hxQ⟩ := List.mem_flatten.mp hxF
    have := (coverAux_new hs es _ (coverInv_step hs hinv) Q hQ x hxQ).1
    exact this (List.mem_append.mpr (Or.inr hxW))

theorem coverAux_stage {s : Skel} (hs : s.Valid) :
    ∀ es vis, coverInv s vis es → ∀ i, i < es.length →
      (coverAux s vis es).getD i [] =
        walkUp s (vis ++ ((coverAux s vis es).take i).flatten) (s.n + 1)
          (es.getD i 0) ∧
      coverInv s (vis ++ ((coverAux s vis es).take i).flatten) (es.drop i) := by
  intro es
  induction es with
  | nil =>
    intro vis _ i hi
    simp at hi
  | cons e es ih =>
    intro vis hinv i hi
    rw [coverAux_cons (hinv.2.2 e (by simp)).2]
    rcases i with _ | i
    · simp only [List.take_zero, List.flatten_nil, List.append_nil, List.getD_cons_zero,
        List.drop_zero]
      exact ⟨trivial, hinv⟩
    · simp only [List.take_succ_cons, List.flatten_cons, List.getD_cons_succ,
        List.drop_succ_cons, ← List.append_assoc]
      exact ih _ (coverInv_step hs hinv) i (by simpa using hi)

/-! ### Cover paths: the sorted end points -/

theorem sortEnds_perm (s : Skel) (w : ℕ → ℕ → ℚ) :
    (sortEnds s w).Perm s.endPoints :=
  List.perm_insertionSort _ _

theorem sortEnds_sorted (s : Skel) (w : ℕ → ℕ → ℚ) :
    List.Pairwise (endOrd s w) (sortEnds s w) :=
  List.sorted_insertionSort _ _

theorem sortEnds_nodup (s : Skel) (w : ℕ → ℕ → ℚ) : (sortEnds s w).Nodup :=
  ((sortEnds_perm s w).nodup_iff).mpr (Skel.endPoints_nodup s)

theorem coverInv_init (s : Skel) (w : ℕ → ℕ → ℚ) : coverInv s [] (sortEnds s w) := by
  refine ⟨?_, sortEnds_nodup s w, ?_⟩
  · intro u hu
    simp at hu
  · intro e he
    exact ⟨(sortEnds_perm s w).mem_iff.mp he, by simp⟩

theorem coverPaths_flatten_nodup (s : Skel) (w : ℕ → ℕ → ℚ) (hs : s.Valid) :
    (s.coverPaths w).flatten.Nodup :=
  coverAux_flatten_nodup hs (sortEnds s w) [] (coverInv_init s w)

theorem coverPaths_flatten_covers (s : Skel) (w : ℕ → ℕ → ℚ) (hs : s.Valid)
    (h2 : 2 ≤ s.n) : ∀ v, v < s.n → v ∈ (s.coverPaths w).flatten := by
  intro v hv
  obtain ⟨e, he, hve⟩ := Skel.exists_endPoint_above hs h2 v hv
  have he2 : e ∈ sortEnds s w := (sortEnds_perm s w).mem_iff.mpr he
  have := coverAux_covers hs (sortEnds s w) [] (coverInv_init s w) e he2 v hve
  simpa using this

theorem countP_contains_one :
    ∀ (R : List (List ℕ)) (v : ℕ), R.flatten.Nodup → v ∈ R.flatten →
      R.countP (fun P => P.contains v) = 1 := by
  intro R
  induction R with
  | nil =>
    intro v _ h
    simp at h
  | cons P R ih =>
    intro v hnd hv
    rw [List.flatten_cons] at hnd hv
    rw [List.nodup_append] at hnd
    obtain ⟨hndP, hndR, hdisj⟩ := hnd
    rw [List.countP_cons]
    rcases List.mem_append.mp hv with h | h
    · have h0 : R.countP (fun Q => Q.contains v) = 0 := by
        rw [List.countP_eq_zero]
        intro Q hQ hcont
        exact hdisj h (List.mem_flatten.mpr ⟨Q, hQ, containsTrue.mp hcont⟩)
      rw [if_pos (containsTrue.mpr h), h0]
    · have hnP : ¬(P.contains v = true) := fun hc => hdisj (containsTrue.mp hc) h
      rw [if_neg hnP, ih v hndR h]

theorem coverPaths_stage (s : Skel) (w : ℕ → ℕ → ℚ) (hs : s.Valid) {i : ℕ}
    (hi : i < (sortEnds s w).length) :
    (s.coverPaths w).getD i [] =
      walkUp s (((s.coverPaths w).take i).flatten) (s.n + 1)
        ((sortEnds s w).getD i 0) ∧
    coverInv s (((s.coverPaths w).take i).flatten) ((sortEnds s w).drop i) := by
  have h := coverAux_stage hs (sortEnds s w) [] (coverInv_init s w) i hi
  simpa using h

theorem coverPaths_length (s : Skel) (w : ℕ → ℕ → ℚ) (hs : s.Valid) :
    (s.coverPaths w).length = (sortEnds s w).length :=
  coverAux_length hs (sortEnds s w) [] (coverInv_init s w)

theorem sortEnds_getD_mem_drop (s : Skel) (w : ℕ → ℕ → ℚ) :
    ∀ i, (hi : i < (sortEnds s w).length) →
      (sortEnds s w).getD i 0 ∈ (sortEnds s w).drop i := by
  intro i hi
  rw [List.getD_eq_getElem _ _ hi]
  have h := List.getElem_cons_drop (sortEnds s w) i hi
  rw [← h]
  exact List.mem_cons_self _ _

theorem coverPaths_head (s : Skel) (w : ℕ → ℕ → ℚ) (hs : s.Valid) :
    ∀ i, i < (s.coverPaths w).length →
      ((s.coverPaths w).getD i []).head? = some ((sortEnds s w).getD i 0) := by
  intro i hi
  have hlen := coverPaths_length s w hs
  obtain ⟨heq, hinv⟩ := coverPaths_stage s w hs (hlen ▸ hi)
  obtain ⟨hepi, hnvi⟩ := hinv.2.2 _ (sortEnds_getD_mem_drop s w i (hlen ▸ hi))
  rw [heq]
  exact walkUp_head hs _ (Skel.mem_endPoints.mp hepi).1 hnvi

theorem coverPaths_map_head (s : Skel) (w : ℕ → ℕ → ℚ) (hs : s.Valid) :
    (s.coverPaths w).map (fun P => P.head?) = (sortEnds s w).map some := by
  have hlen := coverPaths_length s w hs
  apply List.ext_getElem
  · simp [hlen]
  · intro i h1 h2'
    simp only [List.getElem_map]
    rw [List.length_map, hlen] at h1
    have h3 : i < (s.coverPaths w).length := hlen ▸ h1
    have h4 := coverPaths_head s w hs i h3
    rw [List.getD_eq_getElem _ _ h3] at h4
    rw [h4, List.getD_eq_getElem _ _ h1]

/-- C2 (amended: the original claim additionally asserted itself for every
valid skeleton, but it fails for the single-vertex skeleton, whose lone root
vertex is not an end point and is therefore covered by no path; the claim
holds for every valid skeleton with at least two vertices): `cover_paths`
returns vertex sequences in which every vertex appears in exactly one
sequence; each sequence starts at a previously unvisited end point and walks
parent-ward, terminating at the root or at a previously-visited vertex; and
the sequence starts are exactly the end points ordered farthest-from-root
first with ties broken by lowest vertex index. -/
theorem coverPaths_spec (s : Skel) (w : ℕ → ℕ → ℚ) (hs : s.Valid) (h2 : 2 ≤ s.n) :
    (∀ v, v < s.n → (s.coverPaths w).countP (fun P => P.contains v) = 1) ∧
    (s.coverPaths w).map (fun P => P.head?) = (sortEnds s w).map some ∧
    (sortEnds s w).Perm s.endPoints ∧
    List.Pairwise (endOrd s w) (sortEnds s w) ∧
    (∀ i, i < (s.coverPaths w).length →
      ((s.coverPaths w).getD i [] ≠ [] ∧
       (∀ e, ((s.coverPaths w).getD i []).head? = some e →
          e ∈ s.endPoints ∧ e ∉ ((s.coverPaths w).take i).flatten) ∧
       List.Chain' (fun a b => a ≠ s.root ∧ s.p a = b) ((s.coverPaths w).getD i []) ∧
       (∀ l, ((s.coverPaths w).getD i []).getLast? = some l →
          l = s.root ∨ s.p l ∈ ((s.coverPaths w).take i).flatten))) := by
  have hlen := coverPaths_length s w hs
  refine ⟨?_, coverPaths_map_head s w hs, sortEnds_perm s w, sortEnds_sorted s w, ?_⟩
  · intro v hv
    exact countP_contains_one (s.coverPaths w) v (coverPaths_flatten_nodup s w hs)
      (coverPaths_flatten_covers s w hs h2 v hv)
  · intro i hi
    obtain ⟨heq, hinv⟩ := coverPaths_stage s w hs (hlen ▸ hi)
    obtain ⟨hepi, hnvi⟩ := hinv.2.2 _ (sortEnds_getD_mem_drop s w i (hlen ▸ hi))
    have heni : (sortEnds s w).getD i 0 < s.n := (Skel.mem_endPoints.mp hepi).1
    have hhead := coverPaths_head s w hs i hi
    refine ⟨?_, ?_, ?_, ?_⟩
    · intro hnil
      rw [hnil] at hhead
      simp at hhead
    · intro e he
      rw [hhead] at he
      cases he
      exact ⟨hepi, hnvi⟩
    · rw [heq]
      exact walkUp_chain hs _ heni
    · intro l hl
      rw [heq] at hl
      exact walkUp_last hs _ heni l hl

/-- Counterexample for C2 as originally stated: the single-vertex skeleton is
valid, yet its root is covered by no cover path (there are no end points, so
no path is ever started), refuting "every vertex appears in exactly one
sequence" for every valid skeleton. -/
theorem coverPaths_partition_cex :
    Skel1.Valid ∧
      ¬(∀ v, v < Skel1.n →
          (Skel1.coverPaths wOne).countP (fun P => P.contains v) = 1) := by
  constructor
  · decide
  · intro h
    have := h 0 (by decide)
    revert this
    decide

/-- Witness for C2 (amended) at the Y-shaped example with unit weights. -/
theorem coverPaths_spec_witness :
    (Ysk.Valid ∧ 2 ≤ Ysk.n) ∧
    ((∀ v, v < Ysk.n →
        (Ysk.coverPaths wOne).countP (fun P => P.contains v) = 1) ∧
     (Ysk.coverPaths wOne).map (fun P => P.head?) = (sortEnds Ysk wOne).map some ∧
     (sortEnds Ysk wOne).Perm Ysk.endPoints ∧
     List.Pairwise (endOrd Ysk wOne) (sortEnds Ysk wOne) ∧
     (∀ i, i < (Ysk.coverPaths wOne).length →
       ((Ysk.coverPaths wOne).getD i [] ≠ [] ∧
        (∀ e, ((Ysk.coverPaths wOne).getD i []).head? = some e →
           e ∈ Ysk.endPoints ∧ e ∉ ((Ysk.coverPaths wOne).take i).flatten) ∧
        List.Chain' (fun a b => a ≠ Ysk.root ∧ Ysk.p a = b)
          ((Ysk.coverPaths wOne).getD i []) ∧
        (∀ l, ((Ysk.coverPaths wOne).getD i []).getLast? = some l →
           l = Ysk.root ∨ Ysk.p l ∈ ((Ysk.coverPaths wOne).take i).flatten)))) :=
  ⟨⟨by decide, by decide⟩, coverPaths_spec Ysk wOne (by decide) (by decide)⟩

/-! ### The number of cover paths -/

theorem parentChain_getElem {s : Skel} {P : List ℕ}
    (hch : List.Chain' (fun a b => a ≠ s.root ∧ s.p a = b) P) :
    ∀ k j, (h : j + k < P.length) → P[j + k] = (s.p)^[k] P[j] := by
  intro k
  induction k with
  | zero => intro j h; rfl
  | succ k ih =>
    intro j h
    have h1 : j + k < P.length - 1 := by omega
    have hrel := List.chain'_iff_get.mp hch (j + k) h1
    have hb1 : j + k < P.length := by omega
    have hrel2 : s.p (P[j + k]) = P[j + k + 1] := by
      have h2 := hrel.2
      simpa [List.get_eq_getElem] using h2
    have hadd : j + (k + 1) = j + k + 1 := by omega
    have hih := ih j hb1
    have hgoal : P[j + k + 1] = (s.p)^[k + 1] P[j] := by
      rw [← hrel2]
      rw [hih]
      rw [Function.iterate_succ_apply']
    simp only [hadd]
    exact hgoal

theorem endPoint_unique_in_chain {s : Skel} (hs : s.Valid) {P : List ℕ}
    (hP : s.isParentChain P) {e1 e2 : ℕ} (h1 : e1 ∈ s.endPoints)
    (h2 : e2 ∈ s.endPoints) (m1 : e1 ∈ P) (m2 : e2 ∈ P) : e1 = e2 := by
  obtain ⟨hbound, hch⟩ := hP
  -- an end point is never a proper iterated parent of another chain member
  have key : ∀ x ∈ P, ∀ k, (s.p)^[k] x ∈ s.endPoints → (s.p)^[k] x = x := by
    intro x hx k hk
    rcases k with _ | k
    · rfl
    · exfalso
      obtain ⟨hen, her, hech⟩ := Skel.mem_endPoints.mp hk
      set c := (s.p)^[k] x with hc
      have hxn : x < s.n := hbound x hx
      have hcn : c < s.n := iter_lt hs.p_lt hxn k
      have hpc : s.p c = (s.p)^[k + 1] x := (Function.iterate_succ_apply' s.p k x).symm
      have hcr : c ≠ s.root := by
        intro hr
        rw [hr, hs.p_root] at hpc
        exact her hpc.symm
      have hmem : c ∈ s.children ((s.p)^[k + 1] x) :=
        Skel.mem_children.mpr ⟨hcn, hcr, hpc⟩
      rw [hech] at hmem
      simp at hmem
  obtain ⟨i1, hi1, he1⟩ := List.mem_iff_getElem.mp m1
  obtain ⟨i2, hi2, he2⟩ := List.mem_iff_getElem.mp m2
  have main : ∀ j1 j2, (hj1 : j1 < P.length) → (hj2 : j2 < P.length) → j1 ≤ j2 →
      P[j2] = (s.p)^[j2 - j1] P[j1] := by
    intro j1 j2 hj1 hj2 hle
    have h3 : P[j1 + (j2 - j1)] = (s.p)^[j2 - j1] P[j1] :=
      parentChain_getElem hch (j2 - j1) j1 (by omega)
    have h5 : j1 + (j2 - j1) = j2 := by omega
    simp only [h5] at h3
    exact h3
  rcases Nat.le_total i1 i2 with hle | hle
  · have h3 : (s.p)^[i2 - i1] e1 = e2 := by
      rw [← he1, ← he2]
      exact (main i1 i2 hi1 hi2 hle).symm
    have hx : e1 ∈ P := he1 ▸ List.getElem_mem hi1
    have hkey := key e1 hx (i2 - i1) (by rw [h3]; exact h2)
    rw [h3] at hkey
    exact hkey.symm
  · have h3 : (s.p)^[i1 - i2] e2 = e1 := by
      rw [← he1, ← he2]
      exact (main i2 i1 hi2 hi1 hle).symm
    have hx : e2 ∈ P := he2 ▸ List.getElem_mem hi2
    have hkey := key e2 hx (i1 - i2) (by rw [h3]; exact h1)
    rw [h3] at hkey
    exact hkey

theorem findIdx_prop (q : List ℕ → Bool) :
    ∀ F : List (List ℕ), (∃ P ∈ F, q P = true) →
      F.findIdx q < F.length ∧ q (F.getD (F.findIdx q) []) = true := by
  intro F
  induction F with
  | nil =>
    rintro ⟨P, hP, _⟩
    simp at hP
  | cons P F ih =>
    rintro ⟨Q, hQ, hq⟩
    by_cases hP : q P = true
    · rw [List.findIdx_cons, hP]
      simpa using hP
    · have hQF : Q ∈ F := by
        rcases List.mem_cons.mp hQ with h | h
        · exact absurd (h ▸ hq) hP
        · exact h
      obtain ⟨ih1, ih2⟩ := ih ⟨Q, hQF, hq⟩
      rw [List.findIdx_cons]
      rw [show q P = false from Bool.eq_false_iff.mpr hP]
      simp only [cond_false]
      exact ⟨by simpa using ih1, by simpa using ih2⟩

/-- C10: for every valid skeleton, the number of cover-path sequences equals
the number of end points under the current root; each end point starts
exactly one cover path; and no collection of root-directed non-branching
paths covering all vertices has fewer members than there are end points. -/
theorem coverPaths_count_eq_endPoints (s : Skel) (w : ℕ → ℕ → ℚ) (hs : s.Valid) :
    (s.coverPaths w).length = s.endPoints.length ∧
    (∀ e ∈ s.endPoints,
      (s.coverPaths w).countP (fun P => P.head? == some e) = 1) ∧
    (∀ F : List (List ℕ), (∀ P ∈ F, s.isParentChain P) →
      (∀ v, v < s.n → ∃ P ∈ F, v ∈ P) →
      s.endPoints.length ≤ F.length) := by
  refine ⟨?_, ?_, ?_⟩
  · rw [coverPaths_length s w hs]
    exact (sortEnds_perm s w).length_eq
  · intro e he
    have hmape := coverPaths_map_head s w hs
    have h1 : (s.coverPaths w).countP (fun P => P.head? == some e) =
        ((s.coverPaths w).map (fun P => P.head?)).countP (fun o => o == some e) :=
      (List.countP_map (fun o => o == some e) (fun P : List ℕ => P.head?) _).symm
    rw [h1, hmape, List.countP_map]
    have h2 : ((sortEnds s w).countP fun x => some x == some e) =
        (sortEnds s w).countP fun x => x == e := by
      apply List.countP_congr
      intro x _
      simp
    have h3 : ((sortEnds s w).countP fun x => x == e) = (sortEnds s w).count e := rfl
    show ((sortEnds s w).countP fun x => some x == some e) = 1
    rw [h2, h3]
    exact List.count_eq_one_of_mem (sortEnds_nodup s w)
      ((sortEnds_perm s w).mem_iff.mpr he)
  · intro F hchains hcover
    have hnd := Skel.endPoints_nodup s
    rw [← List.toFinset_card_of_nodup hnd]
    have hcard : s.endPoints.toFinset.card ≤ (Finset.range F.length).card := by
      apply Finset.card_le_card_of_injOn (fun e => F.findIdx (fun P : List ℕ => P.contains e))
      · intro e he
        rw [List.mem_toFinset] at he
        have hen : e < s.n := (Skel.mem_endPoints.mp he).1
        obtain ⟨P, hP, heP⟩ := hcover e hen
        have := findIdx_prop (fun P => P.contains e) F
          ⟨P, hP, containsTrue.mpr heP⟩
        exact Finset.mem_range.mpr this.1
      · intro e1 he1 e2 he2 heq
        simp only [Finset.mem_coe, List.mem_toFinset] at he1 he2
        have hen1 : e1 < s.n := (Skel.mem_endPoints.mp he1).1
        have hen2 : e2 < s.n := (Skel.mem_endPoints.mp he2).1
        obtain ⟨P1, hP1, heP1⟩ := hcover e1 hen1
        obtain ⟨P2, hP2, heP2⟩ := hcover e2 hen2
        obtain ⟨hlt1, hget1⟩ := findIdx_prop (fun P => P.contains e1) F
          ⟨P1, hP1, containsTrue.mpr heP1⟩
        obtain ⟨hlt2, hget2⟩ := findIdx_prop (fun P => P.contains e2) F
          ⟨P2, hP2, containsTrue.mpr heP2⟩
        set i := F.findIdx (fun P => P.contains e1) with hi
        have hQmem : F.getD i [] ∈ F := by
          rw [List.getD_eq_getElem _ _ hlt1]
          exact List.getElem_mem hlt1
        have hm1 : e1 ∈ F.getD i [] := containsTrue.mp hget1
        have hm2 : e2 ∈ F.getD i [] := by
          have : F.findIdx (fun P => P.contains e2) = i := heq.symm
          rw [← this]
          exact containsTrue.mp hget2
        exact endPoint_unique_in_chain hs (hchains _ hQmem) he1 he2 hm1 hm2
    simpa using hcard

/-- Witness for C10 at the Y-shaped example with unit weights. -/
theorem coverPaths_count_eq_endPoints_witness :
    Ysk.Valid ∧
    ((Ysk.coverPaths wOne).length = Ysk.endPoints.length ∧
     (∀ e ∈ Ysk.endPoints,
       (Ysk.coverPaths wOne).countP (fun P => P.head? == some e) = 1) ∧
     (∀ F : List (List ℕ), (∀ P ∈ F, Ysk.isParentChain P) →
       (∀ v, v < Ysk.n → ∃ P ∈ F, v ∈ P) →
       Ysk.endPoints.length ≤ F.length)) :=
  ⟨by decide, coverPaths_count_eq_endPoints Ysk wOne (by decide)⟩

/-! ### Traversal safety of the cover paths -/

theorem getD_mem_of_lt (R : List (List ℕ)) {i : ℕ} (h : i < R.length) :
    R.getD i [] ∈ R := by
  rw [List.getD_eq_getElem _ _ h]
  exact List.getElem_mem h

theorem coverAux_cross {s : Skel} (hs : s.Valid) :
    ∀ es vis, coverInv s vis es → ∀ i j, i < j → j < (coverAux s vis es).length →
      ∀ x y, x ∈ (coverAux s vis es).getD i [] → y ∈ (coverAux s vis es).getD j [] →
        y ∉ s.pathToRoot x := by
  intro es
  induction es with
  | nil =>
    intro vis _ i j hij hj
    simp [coverAux] at hj
  | cons e es ih =>
    intro vis hinv i j hij hj x y hx hy hmem
    have hnv := (hinv.2.2 e (by simp)).2
    have hen : e < s.n := (Skel.mem_endPoints.mp (hinv.2.2 e (by simp)).1).1
    rw [coverAux_cons hnv] at hj hx hy
    obtain ⟨j', rfl⟩ : ∃ j', j = j' + 1 := ⟨j - 1, by omega⟩
    have hj' : j' < (coverAux s (vis ++ walkUp s vis (s.n + 1) e) es).length := by
      simpa using hj
    have hy' : y ∈ (coverAux s (vis ++ walkUp s vis (s.n + 1) e) es).getD j' [] := by
      simpa using hy
    rcases i with _ | i
    · have hxW : x ∈ walkUp s vis (s.n + 1) e := by simpa using hx
      have hxmem : x ∈ vis ++ walkUp s vis (s.n + 1) e :=
        List.mem_append.mpr (Or.inr hxW)
      have hcl' := walkUp_closure hs hinv.1 hen
      have hyvis : y ∈ vis ++ walkUp s vis (s.n + 1) e :=
        visClosed_pathToRoot hs hcl' hxmem y hmem
      have hynew := coverAux_new hs es _ (coverInv_step hs hinv) _
        (getD_mem_of_lt _ hj') y hy'
      exact hynew.1 hyvis
    · have hx' : x ∈ (coverAux s (vis ++ walkUp s vis (s.n + 1) e) es).getD i [] := by
        simpa using hx
      exact ih _ (coverInv_step hs hinv) i j' (by omega) hj' x y hx' hy' hmem

theorem indexOf_append_left (A B : List ℕ) (v : ℕ) (h : v ∈ A) :
    (A ++ B).indexOf v = A.indexOf v := by
  induction A with
  | nil => simp at h
  | cons a A ih =>
    by_cases hav : a = v
    · subst hav
      simp [List.indexOf_cons]
    · have hvA : v ∈ A := by
        rcases List.mem_cons.mp h with h1 | h1
        · exact absurd h1.symm hav
        · exact h1
      simp only [List.cons_append, List.indexOf_cons]
      rw [show (a == v) = false by simp [hav]]
      simp [ih hvA]

theorem indexOf_append_right (A B : List ℕ) (v : ℕ) (h : v ∉ A) :
    (A ++ B).indexOf v = A.length + B.indexOf v := by
  induction A with
  | nil => simp
  | cons a A ih =>
    have hav : (a == v) = false := by
      simp only [beq_eq_false_iff_ne, ne_eq]
      intro hc
      exact h (hc ▸ List.mem_cons_self a A)
    have hvA : v ∉ A := fun hc => h (List.mem_cons_of_mem a hc)
    simp only [List.cons_append, List.indexOf_cons, hav, cond_false, List.length_cons]
    rw [ih hvA]
    omega

theorem nodup_indexOf_getElem :
    ∀ (l : List ℕ), l.Nodup → ∀ i, (h : i < l.length) → l.indexOf l[i] = i := by
  intro l
  induction l with
  | nil =>
    intro _ i h
    simp at h
  | cons a l ih =>
    intro hnd i h
    rcases i with _ | i
    · simp [List.indexOf_cons]
    · have h' : i < l.length := by simpa using h
      have hne : (a == l[i]) = false := by
        simp only [beq_eq_false_iff_ne, ne_eq]
        intro hc
        exact (List.nodup_cons.mp hnd).1 (hc ▸ List.getElem_mem h')
      simp only [List.getElem_cons_succ, List.indexOf_cons, hne, cond_false]
      rw [ih (List.nodup_cons.mp hnd).2 i h']

theorem flatten_indexOf_lt :
    ∀ (R : List (List ℕ)), R.flatten.Nodup →
      ∀ i j, i < j → j < R.length → ∀ x y, x ∈ R.getD i [] → y ∈ R.getD j [] →
        R.flatten.indexOf x < R.flatten.indexOf y := by
  intro R
  induction R with
  | nil =>
    intro _ i j hij hj
    simp at hj
  | cons P R ih =>
    intro hnd i j hij hj x y hx hy
    have hnd' := hnd
    rw [List.flatten_cons, List.nodup_append] at hnd'
    obtain ⟨hndP, hndF, hdisj⟩ := hnd'
    obtain ⟨j', rfl⟩ : ∃ j', j = j' + 1 := ⟨j - 1, by omega⟩
    have hj' : j' < R.length := by simpa using hj
    have hy' : y ∈ R.getD j' [] := by simpa using hy
    have hyF : y ∈ R.flatten := List.mem_flatten.mpr ⟨_, getD_mem_of_lt R hj', hy'⟩
    have hyP : y ∉ P := fun hc => hdisj hc hyF
    rcases i with _ | i
    · have hxP : x ∈ P := by simpa using hx
      rw [List.flatten_cons, indexOf_append_left P _ x hxP,
        indexOf_append_right P _ y hyP]
      have h1 := List.indexOf_lt_length.mpr hxP
      omega
    · have hx' : x ∈ R.getD i [] := by simpa using hx
      have hxF : x ∈ R.flatten := List.mem_flatten.mpr
        ⟨_, getD_mem_of_lt R (by omega), hx'⟩
      have hxP : x ∉ P := fun hc => hdisj hc hxF
      rw [List.flatten_cons, indexOf_append_right P _ x hxP,
        indexOf_append_right P _ y hyP]
      have h1 := ih hndF i j' (by omega) hj' x y hx' hy'
      omega

theorem flatten_indexOf_lt_same :
    ∀ (R : List (List ℕ)), R.flatten.Nodup →
      ∀ i, i < R.length → ∀ x y, x ∈ R.getD i [] → y ∈ R.getD i [] →
        (R.getD i []).indexOf x < (R.getD i []).indexOf y →
        R.flatten.indexOf x < R.flatten.indexOf y := by
  intro R
  induction R with
  | nil =>
    intro _ i hi
    simp at hi
  | cons P R ih =>
    intro hnd i hi x y hx hy hlt
    have hnd' := hnd
    rw [List.flatten_cons, List.nodup_append] at hnd'
    obtain ⟨hndP, hndF, hdisj⟩ := hnd'
    rcases i with _ | i
    · have hxP : x ∈ P := by simpa using hx
      have hyP : y ∈ P := by simpa using hy
      rw [List.flatten_cons, indexOf_append_left P _ x hxP,
        indexOf_append_left P _ y hyP]
      simpa using hlt
    · have hi' : i < R.length := by simpa using hi
      have hx' : x ∈ R.getD i [] := by simpa using hx
      have hy' : y ∈ R.getD i [] := by simpa using hy
      have hxF : x ∈ R.flatten := List.mem_flatten.mpr ⟨_, getD_mem_of_lt R hi', hx'⟩
      have hyF : y ∈ R.flatten := List.mem_flatten.mpr ⟨_, getD_mem_of_lt R hi', hy'⟩
      rw [List.flatten_cons, indexOf_append_right P _ x (fun hc => hdisj hc hxF),
        indexOf_append_right P _ y (fun hc => hdisj hc hyF)]
      have h1 := ih hndF i hi' x y hx' hy' (by simpa using hlt)
      omega

theorem flatten_reverse_perm (R : List (List ℕ)) :
    R.reverse.flatten.Perm R.flatten := by
  induction R with
  | nil => simp
  | cons P R ih =>
    have h1 : (P :: R).reverse.flatten = R.reverse.flatten ++ P := by
      simp [List.flatten_append]
    rw [h1, List.flatten_cons]
    exact List.perm_append_comm.trans (ih.append_left P)

theorem reverse_getD (R : List (List ℕ)) {i : ℕ} (h : i < R.length) :
    R.reverse.getD (R.length - 1 - i) [] = R.getD i [] := by
  have h1 : R.length - 1 - i < R.reverse.length := by
    rw [List.length_reverse]
    omega
  rw [List.getD_eq_getElem _ _ h1, List.getD_eq_getElem _ _ h]
  rw [List.getElem_reverse]
  have h5 : R.length - 1 - (R.length - 1 - i) = i := by omega
  simp only [h5]

theorem branchPoint_two_le_n {s : Skel} {b : ℕ} (hb : b ∈ s.branchPoints) :
    2 ≤ s.n := by
  have h3 := (Skel.mem_branchPoints.mp hb).2
  have h4 : (s.children b).length ≤ s.n := by
    have h5 := (List.filter_sublist (l := List.range s.n)
      (p := fun u => decide (u ≠ s.root ∧ s.p u = b))).length_le
    rw [List.length_range] at h5
    exact h5
  have : (s.children b).length ≤ s.n := h4
  omega

/-- C1: for every valid skeleton, traversing the list returned by
`cover_paths` in reverse order, and within each sequence from its first
(most distal) element, visits every vertex downstream of a branch point
strictly before that branch point is visited: in the flattened reverse
traversal order, every strict downstream vertex of a branch point has a
strictly smaller position than the branch point. -/
theorem coverPaths_traversal_safe (s : Skel) (w : ℕ → ℕ → ℚ) (hs : s.Valid) :
    ∀ b ∈ s.branchPoints, ∀ v, v < s.n → s.downstream b v → v ≠ b →
      (s.coverOrder w).indexOf v < (s.coverOrder w).indexOf b := by
  intro b hb v hv hdown hne
  have hbn : b < s.n := (Skel.mem_branchPoints.mp hb).1
  have h2 : 2 ≤ s.n := branchPoint_two_le_n hb
  have hlen := coverPaths_length s w hs
  have hndF : (s.coverPaths w).flatten.Nodup := coverPaths_flatten_nodup s w hs
  have hvF : v ∈ (s.coverPaths w).flatten := coverPaths_flatten_covers s w hs h2 v hv
  have hbF : b ∈ (s.coverPaths w).flatten := coverPaths_flatten_covers s w hs h2 b hbn
  -- locate the stages containing v and b
  obtain ⟨Pv, hPv, hvPv⟩ := List.mem_flatten.mp hvF
  obtain ⟨jv, hjv, hjveq⟩ := List.mem_iff_getElem.mp hPv
  have hvin : v ∈ (s.coverPaths w).getD jv [] := by
    rw [List.getD_eq_getElem _ _ hjv, hjveq]
    exact hvPv
  obtain ⟨Pb, hPb, hbPb⟩ := List.mem_flatten.mp hbF
  obtain ⟨jb, hjb, hjbeq⟩ := List.mem_iff_getElem.mp hPb
  have hbin : b ∈ (s.coverPaths w).getD jb [] := by
    rw [List.getD_eq_getElem _ _ hjb, hjbeq]
    exact hbPb
  -- the branch point's stage is not later than the descendant's stage
  have hible : jb ≤ jv := by
    by_contra hcon
    push_neg at hcon
    exact coverAux_cross hs (sortEnds s w) [] (coverInv_init s w) jv jb hcon hjb
      v b hvin hbin hdown
  -- the traversal order is the flattened reversed path list
  have hOrder : s.coverOrder w = (s.coverPaths w).reverse.flatten := rfl
  have hndRev : (s.coverPaths w).reverse.flatten.Nodup :=
    ((flatten_reverse_perm (s.coverPaths w)).nodup_iff).mpr hndF
  have hrevlen : (s.coverPaths w).reverse.length = (s.coverPaths w).length :=
    List.length_reverse _
  rcases Nat.lt_or_ge jb jv with hstrict | hge
  · -- different stages: the later-created block comes first in the traversal
    have hi1 : (s.coverPaths w).length - 1 - jv < (s.coverPaths w).length - 1 - jb := by
      omega
    have hj1 : (s.coverPaths w).length - 1 - jb < (s.coverPaths w).reverse.length := by
      rw [hrevlen]
      omega
    have hvin' : v ∈ (s.coverPaths w).reverse.getD
        ((s.coverPaths w).length - 1 - jv) [] := by
      rw [reverse_getD _ hjv]
      exact hvin
    have hbin' : b ∈ (s.coverPaths w).reverse.getD
        ((s.coverPaths w).length - 1 - jb) [] := by
      rw [reverse_getD _ hjb]
      exact hbin
    rw [hOrder]
    exact flatten_indexOf_lt _ hndRev _ _ hi1 hj1 v b hvin' hbin'
  · -- same stage: v sits strictly earlier within the walk
    have hjeq : jb = jv := by omega
    subst hjeq
    -- the common path is a walk from an end point
    obtain ⟨heq, hinv⟩ := coverPaths_stage s w hs (hlen ▸ hjb)
    set e := (sortEnds s w).getD jb 0 with hedef
    obtain ⟨hepi, hnvi⟩ := hinv.2.2 _ (sortEnds_getD_mem_drop s w jb (hlen ▸ hjb))
    have hen : e < s.n := (Skel.mem_endPoints.mp hepi).1
    set vis := ((s.coverPaths w).take jb).flatten with hvisdef
    have hWn : (walkUp s vis (s.n + 1) e).Nodup := walkUp_nodup hs vis hen
    have hvW : v ∈ walkUp s vis (s.n + 1) e := heq ▸ hvin
    have hbW : b ∈ walkUp s vis (s.n + 1) e := heq ▸ hbin
    obtain ⟨iv, hivlt, hiveq⟩ := List.mem_iff_getElem.mp hvW
    obtain ⟨ib, hiblt, hibeq⟩ := List.mem_iff_getElem.mp hbW
    have hWlen : (walkUp s vis (s.n + 1) e).length ≤ s.depth e + 1 := by
      rw [walkUp_top hs vis hen]
      have := (List.takeWhile_sublist (l := s.pathToRoot e)
        (fun u => !vis.contains u)).length_le
      rw [Skel.pathToRoot_length hs e hen] at this
      exact this
    have hiv : (s.p)^[iv] e = v := by
      rw [← walkUp_getElem hs vis hen iv hivlt]
      exact hiveq
    have hib : (s.p)^[ib] e = b := by
      rw [← walkUp_getElem hs vis hen ib hiblt]
      exact hibeq
    -- b is a proper iterated parent of v
    obtain ⟨k, hk, hkeq⟩ := (Skel.mem_pathToRoot hs hv).mp hdown
    have hk1 : 1 ≤ k := by
      rcases Nat.eq_zero_or_pos k with h0 | h0
      · subst h0
        simp only [Function.iterate_zero_apply] at hkeq
        exact absurd hkeq hne
      · omega
    have hdv : s.depth v = s.depth e - iv := by
      rw [← hiv]
      exact Skel.depth_iter hs hen iv (by omega)
    have hdb : s.depth b = s.depth e - ib := by
      rw [← hib]
      exact Skel.depth_iter hs hen ib (by omega)
    have hdb2 : s.depth b = s.depth v - k := by
      rw [← hkeq]
      exact Skel.depth_iter hs hv k hk
    have hivdep : iv ≤ s.depth e := by omega
    have hibdep : ib ≤ s.depth e := by omega
    have hib_eq : ib = iv + k := by omega
    have hlt : iv < ib := by omega
    -- within-block positions give within-block index order
    have hidxv : (walkUp s vis (s.n + 1) e).indexOf v = iv := by
      rw [← hiveq]
      exact nodup_indexOf_getElem _ hWn iv hivlt
    have hidxb : (walkUp s vis (s.n + 1) e).indexOf b = ib := by
      rw [← hibeq]
      exact nodup_indexOf_getElem _ hWn ib hiblt
    have hj1 : (s.coverPaths w).length - 1 - jb < (s.coverPaths w).reverse.length := by
      rw [hrevlen]
      omega
    have hblock : (s.coverPaths w).reverse.getD
        ((s.coverPaths w).length - 1 - jb) [] = walkUp s vis (s.n + 1) e := by
      rw [reverse_getD _ hjb]
      exact heq
    rw [hOrder]
    apply flatten_indexOf_lt_same _ hndRev _ hj1 v b
    · rw [hblock]
      exact hvW
    · rw [hblock]
      exact hbW
    · rw [hblock, hidxv, hidxb]
      exact hlt

/-- Witness for C1 at the Y-shaped example with unit weights. -/
theorem coverPaths_traversal_safe_witness :
    Ysk.Valid ∧
    (∀ b ∈ Ysk.branchPoints, ∀ v, v < Ysk.n → Ysk.downstream b v → v ≠ b →
      (Ysk.coverOrder wOne).indexOf v < (Ysk.coverOrder wOne).indexOf b) :=
  ⟨by decide, coverPaths_traversal_safe Ysk wOne (by decide)⟩

/-! ### Rerooting -/

theorem getD_map_range (f : ℕ → ℕ) {n v : ℕ} (hv : v < n) :
    ((List.range n).map f).getD v 0 = f v := by
  rw [List.getD_eq_getElem _ _ (by simp [hv])]
  simp

theorem rerootCore_p {s : Skel} {x v : ℕ} (hv : v < s.n) :
    (s.rerootCore x).p v = rerootFun s x v := by
  show (rerootPar s x).getD v 0 = rerootFun s x v
  exact getD_map_range _ hv

theorem find?_eq_some_of_unique {pred : ℕ → Bool} :
    ∀ (l : List ℕ) (u : ℕ), u ∈ l → pred u = true →
      (∀ y ∈ l, pred y = true → y = u) → l.find? pred = some u := by
  intro l
  induction l with
  | nil =>
    intro u hu
    simp at hu
  | cons a l ih =>
    intro u hu hpu huniq
    by_cases hpa : pred a = true
    · rw [List.find?_cons_of_pos l hpa]
      exact congrArg some (huniq a (by simp) hpa)
    · rw [List.find?_cons_of_neg l hpa]
      have hul : u ∈ l := by
        rcases List.mem_cons.mp hu with h | h
        · exact absurd (h ▸ hpu) hpa
        · exact h
      exact ih u hul hpu (fun y hy hpy => huniq y (List.mem_cons_of_mem a hy) hpy)

theorem iter_ne_self {s : Skel} (hs : s.Valid) {x : ℕ} (hx : x < s.n) {i : ℕ}
    (h1 : 1 ≤ i) (h2 : i ≤ s.depth x) : (s.p)^[i] x ≠ x := by
  intro hc
  have hd := Skel.depth_iter hs hx i h2
  rw [hc] at hd
  omega

theorem iter_inj_le_depth {s : Skel} (hs : s.Valid) {x : ℕ} (hx : x < s.n)
    {i j : ℕ} (hi : i ≤ s.depth x) (hj : j ≤ s.depth x)
    (h : (s.p)^[i] x = (s.p)^[j] x) : i = j := by
  have hdi := Skel.depth_iter hs hx i hi
  have hdj := Skel.depth_iter hs hx j hj
  rw [h] at hdi
  omega

theorem rerootFun_self {s : Skel} {x : ℕ} : rerootFun s x x = x := by
  simp [rerootFun]

theorem rerootFun_off_chain {s : Skel} (hs : s.Valid) {x v : ℕ} (hx : x < s.n)
    (hv : v ∉ s.pathToRoot x) : rerootFun s x v = s.p v := by
  have hvx : v ≠ x := by
    intro h
    rw [h] at hv
    exact hv (Skel.self_mem_pathToRoot hs hx)
  unfold rerootFun
  rw [if_neg hvx]
  have hnone : (s.pathToRoot x).find? (fun u => s.p u == v && u != v) = none := by
    rw [List.find?_eq_none]
    intro u hu hpred
    simp only [Bool.and_eq_true, beq_iff_eq, bne_iff_ne, ne_eq] at hpred
    obtain ⟨i, hi, rfl⟩ := (Skel.mem_pathToRoot hs hx).mp hu
    apply hv
    rcases Nat.lt_or_ge i (s.depth x) with hlt | hge
    · refine (Skel.mem_pathToRoot hs hx).mpr ⟨i + 1, by omega, ?_⟩
      rw [Function.iterate_succ_apply', hpred.1]
    · have hieq : i = s.depth x := by omega
      have hroot : (s.p)^[i] x = s.root := hieq ▸ Skel.depth_reach hs hx
      rw [hroot, hs.p_root] at hpred
      rw [← hpred.1]
      rw [← hroot]
      exact hu
  rw [hnone]

theorem rerootFun_chain {s : Skel} (hs : s.Valid) {x : ℕ} (hx : x < s.n) {i : ℕ}
    (h1 : 1 ≤ i) (h2 : i ≤ s.depth x) :
    rerootFun s x ((s.p)^[i] x) = (s.p)^[i - 1] x := by
  have hne : (s.p)^[i] x ≠ x := iter_ne_self hs hx h1 h2
  unfold rerootFun
  rw [if_neg hne]
  have hfind : (s.pathToRoot x).find?
      (fun u => s.p u == (s.p)^[i] x && u != (s.p)^[i] x) = some ((s.p)^[i - 1] x) := by
    apply find?_eq_some_of_unique
    · exact (Skel.mem_pathToRoot hs hx).mpr ⟨i - 1, by omega, rfl⟩
    · simp only [Bool.and_eq_true, beq_iff_eq, bne_iff_ne, ne_eq]
      constructor
      · rw [← Function.iterate_succ_apply' s.p]
        congr 1
        omega
      · intro hc
        have := iter_inj_le_depth hs hx (by omega) h2 hc
        omega
    · intro y hy hpy
      simp only [Bool.and_eq_true, beq_iff_eq, bne_iff_ne, ne_eq] at hpy
      obtain ⟨j, hj, rfl⟩ := (Skel.mem_pathToRoot hs hx).mp hy
      rcases Nat.lt_or_ge j (s.depth x) with hlt | hge
      · have hpj : (s.p)^[j + 1] x = (s.p)^[i] x := by
          rw [Function.iterate_succ_apply']
          exact hpy.1
        have := iter_inj_le_depth hs hx (by omega) h2 hpj
        congr 1
        omega
      · exfalso
        have hjeq : j = s.depth x := by omega
        have hroot : (s.p)^[j] x = s.root := hjeq ▸ Skel.depth_reach hs hx
        have hp : s.p ((s.p)^[j] x) = (s.p)^[j] x := by
          rw [hroot, hs.p_root]
        rw [hp] at hpy
        exact hpy.2 hpy.1
  rw [hfind]

theorem rerootCore_valid {s : Skel} (hs : s.Valid) {x : ℕ} (hx : x < s.n) :
    (s.rerootCore x).Valid := by
  have hn : (s.rerootCore x).n = s.n := rfl
  have hroot : (s.rerootCore x).root = x := rfl
  have hplt : ∀ v, v < s.n → (s.rerootCore x).p v < s.n := by
    intro v hv
    rw [rerootCore_p hv]
    by_cases hvx : v = x
    · rw [hvx, rerootFun_self]
      exact hx
    · by_cases hvc : v ∈ s.pathToRoot x
      · obtain ⟨i, hi, rfl⟩ := (Skel.mem_pathToRoot hs hx).mp hvc
        have h1 : 1 ≤ i := by
          rcases Nat.eq_zero_or_pos i with h0 | h0
          · exact absurd (by simpa [h0] using rfl) hvx
          · exact h0
        rw [rerootFun_chain hs hx h1 hi]
        exact iter_lt hs.p_lt hx _
      · rw [rerootFun_off_chain hs hx hvc]
        exact hs.p_lt v hv
  have hreach : ∀ v, v < s.n → ∃ k, ((s.rerootCore x).p)^[k] v = x := by
    have hchain : ∀ i, i ≤ s.depth x →
        ((s.rerootCore x).p)^[i] ((s.p)^[i] x) = x := by
      intro i
      induction i with
      | zero => intro _; rfl
      | succ i ih =>
        intro hi
        rw [Function.iterate_succ_apply]
        have hmem : (s.p)^[i + 1] x < s.n := iter_lt hs.p_lt hx _
        rw [rerootCore_p hmem, rerootFun_chain hs hx (by omega) hi]
        have h2 : i + 1 - 1 = i := by omega
        rw [h2]
        exact ih (by omega)
    suffices H : ∀ d v, v < s.n → s.depth v = d →
        ∃ k, ((s.rerootCore x).p)^[k] v = x by
      intro v hv
      exact H (s.depth v) v hv rfl
    intro d
    induction d using Nat.strong_induction_on with
    | _ d ih =>
      intro v hv hd
      by_cases hvc : v ∈ s.pathToRoot x
      · obtain ⟨i, hi, rfl⟩ := (Skel.mem_pathToRoot hs hx).mp hvc
        exact ⟨i, hchain i hi⟩
      · have hvr : v ≠ s.root := fun h => hvc (h ▸ Skel.root_mem_pathToRoot hs hx)
        have hstep := Skel.depth_succ hs hv hvr
        obtain ⟨k, hk⟩ := ih (s.depth (s.p v)) (by omega) (s.p v) (hs.p_lt v hv) rfl
        refine ⟨k + 1, ?_⟩
        rw [Function.iterate_succ_apply, rerootCore_p hv,
          rerootFun_off_chain hs hx hvc]
        exact hk
  refine ⟨hx, by simp [Skel.rerootCore, rerootPar], ?_, hplt, ?_⟩
  · rw [show (s.rerootCore x).root = x from rfl, rerootCore_p hx]
    exact rerootFun_self
  · intro v hv
    obtain ⟨k, hk⟩ := hreach v hv
    have hfix : (s.rerootCore x).p ((s.rerootCore x).root) = (s.rerootCore x).root := by
      show (s.rerootCore x).p x = x
      rw [rerootCore_p hx]
      exact rerootFun_self
    exact iter_absorb hfix hplt hv hk

theorem rerootCore_of_root {s : Skel} (hs : s.Valid) : s.rerootCore s.root = s := by
  have hlen : (rerootPar s s.root).length = s.par.length := by
    simp [rerootPar, hs.parLen]
  have helem : ∀ v, v < s.n → rerootFun s s.root v = s.p v := by
    intro v hv
    by_cases hvr : v = s.root
    · rw [hvr, rerootFun_self, hs.p_root]
    · unfold rerootFun
      rw [if_neg hvr]
      have hnone : (s.pathToRoot s.root).find?
          (fun u => s.p u == v && u != v) = none := by
        rw [List.find?_eq_none]
        intro u hu hpred
        rw [Skel.pathToRoot_of_root] at hu
        simp only [List.mem_singleton] at hu
        subst hu
        simp only [Bool.and_eq_true, beq_iff_eq, bne_iff_ne, ne_eq] at hpred
        rw [hs.p_root] at hpred
        exact hvr hpred.1.symm
      rw [hnone]
  show Skel.mk s.n s.root (rerootPar s s.root) = s
  have hpar : rerootPar s s.root = s.par := by
    apply List.ext_getElem
    · exact hlen
    · intro i h1 h2
      have hi : i < s.n := by
        rw [hs.parLen] at h2
        exact h2
      have h3 : (rerootPar s s.root)[i] = rerootFun s s.root i := by
        simp [rerootPar]
      rw [h3, helem i hi]
      show s.par.getD i 0 = s.par[i]
      rw [List.getD_eq_getElem _ _ h2]
  rw [hpar]

/-- C8: rerooting fails with `InvalidVertex` exactly when the index is out of
range; otherwise it succeeds and recomputes the parent mapping by a single
traversal toward the new root (the result is rooted at the new vertex and is
again a valid skeleton); rerooting to the current root does not error and
returns the skeleton unchanged. -/
theorem reroot_spec (s : Skel) (hs : s.Valid) :
    (∀ v, s.reroot v = Except.error SkelErr.invalidVertex ↔ ¬v < s.n) ∧
    s.reroot s.root = Except.ok s ∧
    (∀ v, v < s.n → s.reroot v = Except.ok (s.rerootCore v) ∧
      (s.rerootCore v).root = v ∧ (s.rerootCore v).Valid) := by
  refine ⟨?_, ?_, ?_⟩
  · intro v
    unfold Skel.reroot
    by_cases hv : v < s.n
    · simp [hv]
    · simp [hv]
  · unfold Skel.reroot
    rw [if_pos hs.root_lt, rerootCore_of_root hs]
  · intro v hv
    refine ⟨?_, rfl, rerootCore_valid hs hv⟩
    unfold Skel.reroot
    rw [if_pos hv]

/-- Witness for C8 at the Y-shaped example skeleton. -/
theorem reroot_spec_witness :
    Ysk.Valid ∧
    ((∀ v, Ysk.reroot v = Except.error SkelErr.invalidVertex ↔ ¬v < Ysk.n) ∧
     Ysk.reroot Ysk.root = Except.ok Ysk ∧
     (∀ v, v < Ysk.n → Ysk.reroot v = Except.ok (Ysk.rerootCore v) ∧
       (Ysk.rerootCore v).root = v ∧ (Ysk.rerootCore v).Valid)) :=
  ⟨by decide, reroot_spec Ysk (by decide)⟩

/-! ### The reroot round trip -/

theorem ptrAux_eq_of_chain {s : Skel} :
    ∀ (l : List ℕ) (fuel : ℕ), l.length ≤ fuel →
      (∀ i, (h : i + 1 < l.length) → l[i] ≠ s.root ∧ s.p (l[i]) = l[i + 1]) →
      l.getLast? = some s.root →
      ∀ v, l.head? = some v → ptrAux s fuel v = l := by
  intro l
  induction l with
  | nil =>
    intro fuel _ _ _ v hv
    simp at hv
  | cons a l ih =>
    intro fuel hfuel hsteps hlast v hv
    have hva : a = v := by simpa using hv
    subst hva
    obtain ⟨f, rfl⟩ := Nat.exists_eq_succ_of_ne_zero
      (by simp at hfuel ⊢; omega : fuel ≠ 0)
    cases l with
    | nil =>
      have har : a = s.root := by simpa using hlast
      subst har
      simp [ptrAux]
    | cons b l' =>
      obtain ⟨hne, hstep⟩ := hsteps 0 (by simp)
      simp only [List.getElem_cons_zero, List.getElem_cons_succ] at hne hstep
      show ptrAux s (f + 1) a = a :: b :: l'
      simp only [ptrAux, if_neg hne]
      congr 1
      rw [hstep]
      apply ih f (by simp at hfuel ⊢; omega) ?_ ?_ b rfl
      · intro i h
        have h2 := hsteps (i + 1) (by simpa using h)
        simpa using h2
      · simpa using hlast

theorem rerootCore_pathToRoot {s : Skel} (hs : s.Valid) {x : ℕ} (hx : x < s.n) :
    (s.rerootCore x).pathToRoot s.root = (s.pathToRoot x).reverse := by
  have hL : (s.pathToRoot x).length = s.depth x + 1 := Skel.pathToRoot_length hs x hx
  have hrw : ∀ i, (h : i < (s.pathToRoot x).reverse.length) →
      (s.pathToRoot x).reverse[i] = (s.p)^[s.depth x - i] x := by
    intro i h
    rw [List.getElem_reverse]
    have h2 : i < (s.pathToRoot x).length := by simpa using h
    rw [Skel.pathToRoot_getElem hs x hx _ (by omega)]
    congr 1
    omega
  apply ptrAux_eq_of_chain
  · show (s.pathToRoot x).reverse.length ≤ (s.rerootCore x).n + 1
    have := Skel.depth_le_n hs hx
    show (s.pathToRoot x).reverse.length ≤ s.n + 1
    rw [List.length_reverse, hL]
    omega
  · intro i h
    have hlen : i + 1 < s.depth x + 1 := by
      have h2 := h
      rw [List.length_reverse, hL] at h2
      exact h2
    constructor
    · rw [hrw i (by omega)]
      show (s.p)^[s.depth x - i] x ≠ (s.rerootCore x).root
      show (s.p)^[s.depth x - i] x ≠ x
      exact iter_ne_self hs hx (by omega) (by omega)
    · rw [hrw i (by omega), hrw (i + 1) h]
      show (s.rerootCore x).p ((s.p)^[s.depth x - i] x) = (s.p)^[s.depth x - (i + 1)] x
      rw [rerootCore_p (iter_lt hs.p_lt hx _)]
      rw [rerootFun_chain hs hx (by omega) (by omega)]
      congr 1
  · rw [List.getLast?_reverse, Skel.pathToRoot_head hs hx]
    rfl
  · rw [List.head?_reverse, Skel.pathToRoot_getLast hs hx]

theorem rerootFun_roundTrip {s : Skel} (hs : s.Valid) {x : ℕ} (hx : x < s.n) :
    ∀ v, v < s.n → rerootFun (s.rerootCore x) s.root v = s.p v := by
  intro v hv
  have hptr := rerootCore_pathToRoot hs hx
  by_cases hvr : v = s.root
  · rw [hvr]
    rw [show rerootFun (s.rerootCore x) s.root s.root = s.root from rerootFun_self]
    rw [hs.p_root]
  · unfold rerootFun
    rw [if_neg hvr, hptr]
    by_cases hvc : v ∈ s.pathToRoot x
    · -- v is a chain vertex other than the old root
      obtain ⟨i, hi, rfl⟩ := (Skel.mem_pathToRoot hs hx).mp hvc
      have hid : i < s.depth x := by
        rcases Nat.lt_or_ge i (s.depth x) with h | h
        · exact h
        · exfalso
          have hieq : i = s.depth x := by omega
          exact hvr (hieq ▸ Skel.depth_reach hs hx)
      have hfind : (s.pathToRoot x).reverse.find?
          (fun u => (s.rerootCore x).p u == (s.p)^[i] x && u != (s.p)^[i] x) =
            some ((s.p)^[i + 1] x) := by
        apply find?_eq_some_of_unique
        · rw [List.mem_reverse]
          exact (Skel.mem_pathToRoot hs hx).mpr ⟨i + 1, by omega, rfl⟩
        · simp only [Bool.and_eq_true, beq_iff_eq, bne_iff_ne, ne_eq]
          constructor
          · rw [rerootCore_p (iter_lt hs.p_lt hx _)]
            rw [rerootFun_chain hs hx (by omega) (by omega)]
            congr 1
          · intro hc
            have := iter_inj_le_depth hs hx (by omega) (by omega) hc
            omega
        · intro y hy hpy
          rw [List.mem_reverse] at hy
          simp only [Bool.and_eq_true, beq_iff_eq, bne_iff_ne, ne_eq] at hpy
          obtain ⟨j, hj, rfl⟩ := (Skel.mem_pathToRoot hs hx).mp hy
          rcases Nat.eq_zero_or_pos j with h0 | h0
          · exfalso
            subst h0
            have hpx : (s.rerootCore x).p ((s.p)^[0] x) = x := by
              show (s.rerootCore x).p x = x
              rw [rerootCore_p hx]
              exact rerootFun_self
            rw [hpx] at hpy
            have hix : i = 0 := by
              have := iter_inj_le_depth hs hx (Nat.zero_le _) hi (by simpa using hpy.1)
              omega
            exact hpy.2 (by rw [hix])
          · have hstep : (s.rerootCore x).p ((s.p)^[j] x) = (s.p)^[j - 1] x := by
              rw [rerootCore_p (iter_lt hs.p_lt hx _)]
              exact rerootFun_chain hs hx h0 hj
            rw [hstep] at hpy
            have hji : j - 1 = i := iter_inj_le_depth hs hx (by omega) (by omega) hpy.1
            congr 1
            omega
      rw [hfind]
      rw [← Function.iterate_succ_apply' s.p]
    · -- v is off the chain
      have hfind : (s.pathToRoot x).reverse.find?
          (fun u => (s.rerootCore x).p u == v && u != v) = none := by
        rw [List.find?_eq_none]
        intro u hu hpred
        rw [List.mem_reverse] at hu
        simp only [Bool.and_eq_true, beq_iff_eq, bne_iff_ne, ne_eq] at hpred
        obtain ⟨j, hj, rfl⟩ := (Skel.mem_pathToRoot hs hx).mp hu
        apply hvc
        rcases Nat.eq_zero_or_pos j with h0 | h0
        · subst h0
          have hpx : (s.rerootCore x).p ((s.p)^[0] x) = x := by
            show (s.rerootCore x).p x = x
            rw [rerootCore_p hx]
            exact rerootFun_self
          rw [hpx] at hpred
          rw [← hpred.1]
          exact Skel.self_mem_pathToRoot hs hx
        · have hstep : (s.rerootCore x).p ((s.p)^[j] x) = (s.p)^[j - 1] x := by
            rw [rerootCore_p (iter_lt hs.p_lt hx _)]
            exact rerootFun_chain hs hx h0 hj
          rw [hstep] at hpred
          rw [← hpred.1]
          exact (Skel.mem_pathToRoot hs hx).mpr ⟨j - 1, by omega, rfl⟩
      rw [hfind]
      rw [rerootCore_p hv]
      exact rerootFun_off_chain hs hx hvc

theorem rerootCore_roundTrip {s : Skel} (hs : s.Valid) {x : ℕ} (hx : x < s.n) :
    (s.rerootCore x).rerootCore s.root = s := by
  show Skel.mk s.n s.root (rerootPar (s.rerootCore x) s.root) = s
  have hpar : rerootPar (s.rerootCore x) s.root = s.par := by
    apply List.ext_getElem
    · simp only [rerootPar, List.length_map, List.length_range, hs.parLen]
      rfl
    · intro i h1 h2
      have hi : i < s.n := by
        rw [hs.parLen] at h2
        exact h2
      have h3 : (rerootPar (s.rerootCore x) s.root)[i] =
          rerootFun (s.rerootCore x) s.root i := by
        simp [rerootPar]
      rw [h3, rerootFun_roundTrip hs hx i hi]
      show s.par.getD i 0 = s.par[i]
      rw [List.getD_eq_getElem _ _ h2]
  rw [hpar]

/-- C5: for every valid skeleton with original root `r` and every valid
vertex `x`, performing `reroot x` followed by `reroot r` restores the
original skeleton exactly: the parent mapping, the children mapping, and the
branch-point and end-point classifications are identical to the pre-reroot
state. -/
theorem reroot_roundTrip (s : Skel) (hs : s.Valid) (x : ℕ) (hx : x < s.n) :
    (s.reroot x).bind (fun s2 => s2.reroot s.root) = Except.ok s ∧
    ((s.rerootCore x).rerootCore s.root).par = s.par ∧
    (∀ v, ((s.rerootCore x).rerootCore s.root).children v = s.children v) ∧
    ((s.rerootCore x).rerootCore s.root).branchPoints = s.branchPoints ∧
    ((s.rerootCore x).rerootCore s.root).endPoints = s.endPoints := by
  have hrt := rerootCore_roundTrip hs hx
  refine ⟨?_, by rw [hrt], fun v => by rw [hrt], by rw [hrt], by rw [hrt]⟩
  unfold Skel.reroot
  rw [if_pos hx]
  show (s.rerootCore x).reroot s.root = Except.ok s
  unfold Skel.reroot
  rw [if_pos (show s.root < (s.rerootCore x).n from hs.root_lt)]
  rw [hrt]

/-- Witness for C5 at the Y-shaped example skeleton, rerooting to vertex 6
and back to vertex 0. -/
theorem reroot_roundTrip_witness :
    (Ysk.Valid ∧ 6 < Ysk.n) ∧
    ((Ysk.reroot 6).bind (fun s2 => s2.reroot Ysk.root) = Except.ok Ysk ∧
     ((Ysk.rerootCore 6).rerootCore Ysk.root).par = Ysk.par ∧
     (∀ v, ((Ysk.rerootCore 6).rerootCore Ysk.root).children v = Ysk.children v) ∧
     ((Ysk.rerootCore 6).rerootCore Ysk.root).branchPoints = Ysk.branchPoints ∧
     ((Ysk.rerootCore 6).rerootCore Ysk.root).endPoints = Ysk.endPoints) :=
  ⟨⟨by decide, by decide⟩, reroot_roundTrip Ysk (by decide) 6 (by decide)⟩

/-! ### End points: rooted and undirected -/

theorem countP_or_disjoint {α : Type} (p q : α → Bool) :
    ∀ l : List α, (∀ a ∈ l, ¬(p a = true ∧ q a = true)) →
      l.countP (fun a => p a || q a) = l.countP p + l.countP q := by
  intro l
  induction l with
  | nil =>
    intro _
    simp
  | cons a t ih =>
    intro h
    have ht := ih (fun b hb => h b (List.mem_cons_of_mem a hb))
    have ha := h a (List.mem_cons_self a t)
    have key : (if (p a || q a) = true then 1 else 0) =
        (if p a = true then 1 else 0) + (if q a = true then 1 else 0) := by
      cases hp : p a
      · cases hq : q a <;> simp
      · cases hq : q a
        · simp
        · exact absurd ⟨hp, hq⟩ ha
    simp only [List.countP_cons, ht, key]
    omega

theorem adjacent_rerootFun {s : Skel} (hs : s.Valid) {x : ℕ} (hx : x < s.n)
    {u : ℕ} (hu : u < s.n) (hux : u ≠ x) : s.adjacent u (rerootFun s x u) := by
  by_cases hc : u ∈ s.pathToRoot x
  · obtain ⟨i, hi, rfl⟩ := (Skel.mem_pathToRoot hs hx).mp hc
    have hi1 : 1 ≤ i := by
      rcases Nat.eq_zero_or_pos i with h0 | h0
      · exact absurd (by rw [h0]; simp) hux
      · exact h0
    rw [rerootFun_chain hs hx hi1 hi]
    right
    refine ⟨Skel.iter_ne_root_of_lt_depth hs hx (by omega), ?_⟩
    rw [← Function.iterate_succ_apply' s.p]
    congr 1
    omega
  · rw [rerootFun_off_chain hs hx hc]
    refine Or.inl ⟨?_, rfl⟩
    intro h
    apply hc
    rw [h]
    exact Skel.root_mem_pathToRoot hs hx

theorem rerootCore_adj_mp {s : Skel} (hs : s.Valid) {x : ℕ} (hx : x < s.n)
    {u v : ℕ} (hu : u < s.n) (hv : v < s.n)
    (h : (s.rerootCore x).adjacent u v) : s.adjacent u v := by
  rcases h with ⟨hux, hpu⟩ | ⟨hvx, hpv⟩
  · have hux' : u ≠ x := hux
    rw [rerootCore_p hu] at hpu
    have h2 := adjacent_rerootFun hs hx hu hux'
    rwa [hpu] at h2
  · have hvx' : v ≠ x := hvx
    rw [rerootCore_p hv] at hpv
    have h2 := adjacent_rerootFun hs hx hv hvx'
    rw [hpv] at h2
    exact Skel.adjacent_symm.mp h2

theorem rerootCore_adj {s : Skel} (hs : s.Valid) {x : ℕ} (hx : x < s.n)
    {u v : ℕ} (hu : u < s.n) (hv : v < s.n) :
    (s.rerootCore x).adjacent u v ↔ s.adjacent u v := by
  constructor
  · exact rerootCore_adj_mp hs hx hu hv
  · intro h
    have hs2 : (s.rerootCore x).Valid := rerootCore_valid hs hx
    have hroot : s.root < (s.rerootCore x).n := hs.root_lt
    have h2 := rerootCore_adj_mp hs2 hroot (u := u) (v := v) hu hv
    rw [rerootCore_roundTrip hs hx] at h2
    exact h2 h

theorem rerootCore_neighbors {s : Skel} (hs : s.Valid) {x : ℕ} (hx : x < s.n)
    {v : ℕ} (hv : v < s.n) : (s.rerootCore x).neighbors v = s.neighbors v := by
  show (List.range s.n).filter (fun u => decide ((s.rerootCore x).adjacent v u)) =
    (List.range s.n).filter (fun u => decide (s.adjacent v u))
  apply List.filter_congr
  intro a ha
  rw [List.mem_range] at ha
  exact decide_eq_decide.mpr (rerootCore_adj hs hx hv ha)

theorem rerootCore_endPointsUndirected {s : Skel} (hs : s.Valid) {x : ℕ}
    (hx : x < s.n) :
    (s.rerootCore x).endPointsUndirected = s.endPointsUndirected := by
  show (List.range s.n).filter
      (fun v => ((s.rerootCore x).neighbors v).length == 1 || (s.rerootCore x).n == 1) =
    (List.range s.n).filter (fun v => (s.neighbors v).length == 1 || s.n == 1)
  apply List.filter_congr
  intro a ha
  rw [List.mem_range] at ha
  rw [rerootCore_neighbors hs hx ha]
  rfl

theorem Skel.neighbors_length {s : Skel} (hs : s.Valid) {v : ℕ} (hv : v < s.n) :
    (s.neighbors v).length =
      (s.children v).length + (if v = s.root then 0 else 1) := by
  show ((List.range s.n).filter (fun u => decide (s.adjacent v u))).length = _
  rw [← List.countP_eq_length_filter]
  have hch : (s.children v).length =
      (List.range s.n).countP (fun u => decide (u ≠ s.root ∧ s.p u = v)) := by
    show ((List.range s.n).filter (fun u => decide (u ≠ s.root ∧ s.p u = v))).length = _
    rw [← List.countP_eq_length_filter]
  rw [hch]
  have hsplit : (List.range s.n).countP (fun u => decide (s.adjacent v u)) =
      (List.range s.n).countP (fun u => decide (v ≠ s.root ∧ s.p v = u)) +
      (List.range s.n).countP (fun u => decide (u ≠ s.root ∧ s.p u = v)) := by
    rw [← countP_or_disjoint]
    · apply List.countP_congr
      intro a _
      simp [Skel.adjacent]
    · intro a ha h2
      rw [List.mem_range] at ha
      obtain ⟨h1, h2⟩ := h2
      rw [decide_eq_true_iff] at h1 h2
      have hd1 : s.depth v = s.depth a + 1 := by
        rw [Skel.depth_succ hs hv h1.1, h1.2]
      have hd2 : s.depth a = s.depth v + 1 := by
        rw [Skel.depth_succ hs ha h2.1, h2.2]
      omega
  rw [hsplit]
  have hpar : (List.range s.n).countP (fun u => decide (v ≠ s.root ∧ s.p v = u)) =
      if v = s.root then 0 else 1 := by
    by_cases hvr : v = s.root
    · rw [if_pos hvr]
      apply List.countP_eq_zero.mpr
      intro a _
      simp [hvr]
    · rw [if_neg hvr]
      have hcg : (List.range s.n).countP (fun u => decide (v ≠ s.root ∧ s.p v = u)) =
          (List.range s.n).countP (fun u => u == s.p v) := by
        apply List.countP_congr
        intro a _
        simp only [decide_eq_true_iff, beq_iff_eq]
        constructor
        · intro h2
          exact h2.2.symm
        · intro h2
          exact ⟨hvr, h2.symm⟩
      rw [hcg]
      show List.count (s.p v) (List.range s.n) = 1
      exact List.count_eq_one_of_mem (List.nodup_range s.n)
        (List.mem_range.mpr (hs.p_lt v hv))
  rw [hpar]
  omega

theorem Skel.mem_endPointsUndirected {s : Skel} {v : ℕ} :
    v ∈ s.endPointsUndirected ↔
      v < s.n ∧ ((s.neighbors v).length = 1 ∨ s.n = 1) := by
  simp [Skel.endPointsUndirected, List.mem_filter, List.mem_range]

theorem Skel.neighbors_single {s : Skel} (hs : s.Valid) (h1 : s.n = 1) {v : ℕ}
    (hv : v < s.n) : s.neighbors v = [] := by
  have hv0 : v = 0 := by omega
  have hr0 : s.root = 0 := by
    have := hs.root_lt
    omega
  unfold Skel.neighbors
  rw [List.filter_eq_nil]
  intro a ha
  rw [List.mem_range] at ha
  have ha0 : a = 0 := by omega
  subst hv0
  subst ha0
  simp [Skel.adjacent, hr0]

/-- C9: `end_points` contains exactly the vertices with zero children under
the current root, excluding the root itself; `end_points_undirected`
contains exactly the vertices of degree 1 in the undirected graph (the
single vertex, of degree 0, when the tree has one vertex), includes the
root exactly when the root has one child (or the tree is a single vertex),
agrees with `end_points` away from the root, and is independent of the
current root (invariant under rerooting to any valid vertex). -/
theorem endPoints_spec (s : Skel) (hs : s.Valid) :
    (∀ v, v ∈ s.endPoints ↔ v < s.n ∧ v ≠ s.root ∧ s.children v = []) ∧
    s.root ∉ s.endPoints ∧
    (∀ v, v < s.n → (s.neighbors v).length =
      (s.children v).length + (if v = s.root then 0 else 1)) ∧
    (∀ v, v ∈ s.endPointsUndirected ↔ v < s.n ∧
      ((s.neighbors v).length = 1 ∨ (s.n = 1 ∧ (s.neighbors v).length = 0))) ∧
    (∀ v, v < s.n → v ≠ s.root →
      (v ∈ s.endPointsUndirected ↔ v ∈ s.endPoints)) ∧
    (s.root ∈ s.endPointsUndirected ↔
      (s.children s.root).length = 1 ∨ s.n = 1) ∧
    (∀ x, x < s.n →
      (s.rerootCore x).endPointsUndirected = s.endPointsUndirected) := by
  refine ⟨fun v => Skel.mem_endPoints, ?_, fun v hv => Skel.neighbors_length hs hv,
    ?_, ?_, ?_, fun x hx => rerootCore_endPointsUndirected hs hx⟩
  · intro h
    exact (Skel.mem_endPoints.mp h).2.1 rfl
  · intro v
    rw [Skel.mem_endPointsUndirected]
    constructor
    · rintro ⟨hv, h1 | h1⟩
      · exact ⟨hv, Or.inl h1⟩
      · refine ⟨hv, Or.inr ⟨h1, ?_⟩⟩
        rw [Skel.neighbors_single hs h1 hv]
        rfl
    · rintro ⟨hv, h1 | h1⟩
      · exact ⟨hv, Or.inl h1⟩
      · exact ⟨hv, Or.inr h1.1⟩
  · intro v hv hvr
    rw [Skel.mem_endPointsUndirected, Skel.mem_endPoints]
    have hdeg := Skel.neighbors_length hs hv
    rw [if_neg hvr] at hdeg
    constructor
    · rintro ⟨_, h1 | h1⟩
      · refine ⟨hv, hvr, ?_⟩
        rw [hdeg] at h1
        exact List.length_eq_zero.mp (by omega)
      · exfalso
        have := hs.root_lt
        omega
    · rintro ⟨_, _, h1⟩
      refine ⟨hv, Or.inl ?_⟩
      simp [hdeg, h1]
  · rw [Skel.mem_endPointsUndirected]
    have hdeg := Skel.neighbors_length hs hs.root_lt
    rw [if_pos rfl] at hdeg
    constructor
    · rintro ⟨_, h1 | h1⟩
      · left
        rw [hdeg] at h1
        omega
      · right
        exact h1
    · intro h1
      refine ⟨hs.root_lt, ?_⟩
      rcases h1 with h1 | h1
      · left
        rw [hdeg]
        omega
      · right
        exact h1

/-- Witness for C9 at the Y-shaped example skeleton. -/
theorem endPoints_spec_witness :
    Ysk.Valid ∧
    ((∀ v, v ∈ Ysk.endPoints ↔ v < Ysk.n ∧ v ≠ Ysk.root ∧ Ysk.children v = []) ∧
     Ysk.root ∉ Ysk.endPoints ∧
     (∀ v, v < Ysk.n → (Ysk.neighbors v).length =
       (Ysk.children v).length + (if v = Ysk.root then 0 else 1)) ∧
     (∀ v, v ∈ Ysk.endPointsUndirected ↔ v < Ysk.n ∧
       ((Ysk.neighbors v).length = 1 ∨ (Ysk.n = 1 ∧ (Ysk.neighbors v).length = 0))) ∧
     (∀ v, v < Ysk.n → v ≠ Ysk.root →
       (v ∈ Ysk.endPointsUndirected ↔ v ∈ Ysk.endPoints)) ∧
     (Ysk.root ∈ Ysk.endPointsUndirected ↔
       (Ysk.children Ysk.root).length = 1 ∨ Ysk.n = 1) ∧
     (∀ x, x < Ysk.n →
       (Ysk.rerootCore x).endPointsUndirected = Ysk.endPointsUndirected)) :=
  ⟨by decide, endPoints_spec Ysk (by decide)⟩

/-! ### Segments and the segment map -/

theorem not_isBoundary_iff {s : Skel} {v : ℕ} :
    ¬ s.isBoundary v ↔ v ≠ s.root ∧ (s.children v).length = 1 := by
  unfold Skel.isBoundary
  constructor
  · intro h
    push_neg at h
    obtain ⟨h1, h2, h3⟩ := h
    have h4 : (s.children v).length ≠ 0 := fun h0 => h3 (List.length_eq_zero.mp h0)
    exact ⟨h1, by omega⟩
  · rintro ⟨h1, h2⟩ (h | h | h)
    · exact h1 h
    · omega
    · rw [h] at h2
      simp at h2

theorem children_unique {s : Skel} {v : ℕ} (h : (s.children v).length = 1)
    {a b : ℕ} (ha : a ∈ s.children v) (hb : b ∈ s.children v) : a = b := by
  obtain ⟨c, hc⟩ := List.length_eq_one.mp h
  rw [hc] at ha hb
  simp at ha hb
  rw [ha, hb]

theorem map_iterate_cons (f : ℕ → ℕ) (v m : ℕ) :
    (List.range (m + 2)).map (fun i => f^[i] v) =
      v :: (List.range (m + 1)).map (fun i => f^[i] (f v)) := by
  have h1 : m + 2 = m + 1 + 1 := rfl
  rw [h1, List.range_succ_eq_map, List.map_cons, List.map_map]
  congr 1

theorem segTail_eq {s : Skel} (hs : s.Valid) :
    ∀ (m fuel v : ℕ), v < s.n → m < fuel →
      (∀ i, i < m → ¬ s.isBoundary ((s.p)^[i] v)) →
      s.isBoundary ((s.p)^[m] v) →
      segTail s fuel v = (List.range (m + 1)).map (fun i => (s.p)^[i] v) := by
  intro m
  induction m with
  | zero =>
    intro fuel v hv hf _ hb
    obtain ⟨f, rfl⟩ := Nat.exists_eq_succ_of_ne_zero (by omega : fuel ≠ 0)
    simp only [Function.iterate_zero_apply] at hb
    simp [segTail, hb]
  | succ m ih =>
    intro fuel v hv hf hni hb
    obtain ⟨f, rfl⟩ := Nat.exists_eq_succ_of_ne_zero (by omega : fuel ≠ 0)
    have hb0 : ¬ s.isBoundary v := by simpa using hni 0 (by omega)
    show (if s.isBoundary v then [v] else v :: segTail s f (s.p v)) = _
    rw [if_neg hb0]
    have hni2 : ∀ i, i < m → ¬ s.isBoundary ((s.p)^[i] (s.p v)) := by
      intro i hi
      rw [← Function.iterate_succ_apply]
      exact hni (i + 1) (by omega)
    have hb2 : s.isBoundary ((s.p)^[m] (s.p v)) := by
      rw [← Function.iterate_succ_apply]
      exact hb
    rw [ih f (s.p v) (hs.p_lt v hv) (by omega) hni2 hb2]
    exact (map_iterate_cons s.p v m).symm

theorem exists_first_boundary {s : Skel} (hs : s.Valid) {u : ℕ} (hu : u < s.n) :
    ∃ m, m ≤ s.depth u ∧ (∀ i, i < m → ¬ s.isBoundary ((s.p)^[i] u)) ∧
      s.isBoundary ((s.p)^[m] u) := by
  have hroot : s.isBoundary ((s.p)^[s.depth u] u) := by
    rw [Skel.depth_reach hs hu]
    exact Or.inl rfl
  have hex : ∃ k, s.isBoundary ((s.p)^[k] u) := ⟨s.depth u, hroot⟩
  exact ⟨Nat.find hex, Nat.find_min' hex hroot,
    fun i hi => Nat.find_min hex hi, Nat.find_spec hex⟩

theorem segmentFrom_spec {s : Skel} (hs : s.Valid) {d : ℕ} (hd : d < s.n)
    (hdr : d ≠ s.root) :
    ∃ m, m + 1 ≤ s.depth d ∧
      s.segmentFrom d = (List.range (m + 2)).map (fun i => (s.p)^[i] d) ∧
      (∀ i, 1 ≤ i → i ≤ m → ¬ s.isBoundary ((s.p)^[i] d)) ∧
      s.isBoundary ((s.p)^[m + 1] d) := by
  have hpd : s.p d < s.n := hs.p_lt d hd
  obtain ⟨m, hm, hni, hb⟩ := exists_first_boundary hs hpd
  have hdep : s.depth d = s.depth (s.p d) + 1 := Skel.depth_succ hs hd hdr
  have hdn : s.depth (s.p d) ≤ s.n := Skel.depth_le_n hs hpd
  refine ⟨m, by omega, ?_, ?_, ?_⟩
  · unfold Skel.segmentFrom
    rw [segTail_eq hs m (s.n + 1) (s.p d) hpd (by omega) hni hb]
    exact (map_iterate_cons s.p d m).symm
  · intro i h1 h2
    have hit : (s.p)^[i] d = (s.p)^[i - 1] (s.p d) := by
      rw [← Function.iterate_succ_apply]
      congr 1
      omega
    rw [hit]
    exact hni (i - 1) (by omega)
  · have hit : (s.p)^[m + 1] d = (s.p)^[m] (s.p d) := Function.iterate_succ_apply s.p m d
    rw [hit]
    exact hb

theorem mem_segStarts {s : Skel} {d : ℕ} :
    d ∈ s.segStarts ↔ d < s.n ∧ d ≠ s.root ∧ s.isBoundary d := by
  simp [Skel.segStarts, List.mem_filter, List.mem_range, and_assoc]

theorem segStarts_nodup (s : Skel) : s.segStarts.Nodup :=
  (List.nodup_range s.n).filter _

theorem segmentFrom_head (s : Skel) (d : ℕ) : (s.segmentFrom d).head? = some d := rfl

theorem segmentFrom_mem_iff {s : Skel} {d m : ℕ}
    (hseg : s.segmentFrom d = (List.range (m + 2)).map (fun i => (s.p)^[i] d))
    {v : ℕ} : v ∈ s.segmentFrom d ↔ ∃ i, i ≤ m + 1 ∧ (s.p)^[i] d = v := by
  rw [hseg]
  simp only [List.mem_map, List.mem_range]
  constructor
  · rintro ⟨i, hi, rfl⟩
    exact ⟨i, by omega, rfl⟩
  · rintro ⟨i, hi, rfl⟩
    exact ⟨i, by omega, rfl⟩

theorem segmentFrom_getLast {s : Skel} {d m : ℕ}
    (hseg : s.segmentFrom d = (List.range (m + 2)).map (fun i => (s.p)^[i] d)) :
    (s.segmentFrom d).getLast? = some ((s.p)^[m + 1] d) := by
  rw [hseg, List.getLast?_eq_getElem?]
  have hlen : ((List.range (m + 2)).map (fun i => (s.p)^[i] d)).length = m + 2 := by
    simp
  rw [hlen]
  rw [List.getElem?_eq_getElem (by simp : m + 2 - 1 <
    ((List.range (m + 2)).map (fun i => (s.p)^[i] d)).length)]
  congr 1
  rw [List.getElem_map, List.getElem_range]
  congr 1

theorem seg_chain_unique {s : Skel} (hs : s.Valid) :
    ∀ i1 i2 d1 d2 : ℕ, d1 < s.n → d2 < s.n →
      s.isBoundary d1 → s.isBoundary d2 → d1 ≠ s.root → d2 ≠ s.root →
      1 ≤ i1 → 1 ≤ i2 →
      (∀ j, 1 ≤ j → j ≤ i1 → ¬ s.isBoundary ((s.p)^[j] d1)) →
      (∀ j, 1 ≤ j → j ≤ i2 → ¬ s.isBoundary ((s.p)^[j] d2)) →
      (s.p)^[i1] d1 = (s.p)^[i2] d2 →
      d1 = d2 ∧ i1 = i2 := by
  intro i1
  induction i1 with
  | zero =>
    intro i2 d1 d2 _ _ _ _ _ _ h11
    exact absurd h11 (by omega)
  | succ i1 ih =>
    intro i2 d1 d2 hd1 hd2 hb1 hb2 hr1 hr2 _ h12 hn1 hn2 heq
    have hv : ¬ s.isBoundary ((s.p)^[i1 + 1] d1) := hn1 (i1 + 1) (by omega) le_rfl
    obtain ⟨hvr, hlen⟩ := not_isBoundary_iff.mp hv
    have hc1 : (s.p)^[i1] d1 ∈ s.children ((s.p)^[i1 + 1] d1) := by
      apply Skel.mem_children.mpr
      refine ⟨iter_lt hs.p_lt hd1 _, ?_, ?_⟩
      · rcases Nat.eq_zero_or_pos i1 with h0 | h0
        · rw [h0]
          simpa using hr1
        · exact (not_isBoundary_iff.mp (hn1 i1 (by omega) (by omega))).1
      · rw [← Function.iterate_succ_apply' s.p]
    obtain ⟨i2', rfl⟩ : ∃ i2', i2 = i2' + 1 := ⟨i2 - 1, by omega⟩
    have hc2 : (s.p)^[i2'] d2 ∈ s.children ((s.p)^[i1 + 1] d1) := by
      apply Skel.mem_children.mpr
      refine ⟨iter_lt hs.p_lt hd2 _, ?_, ?_⟩
      · rcases Nat.eq_zero_or_pos i2' with h0 | h0
        · rw [h0]
          simpa using hr2
        · exact (not_isBoundary_iff.mp (hn2 i2' (by omega) (by omega))).1
      · rw [← Function.iterate_succ_apply' s.p]
        exact heq.symm
    have hcc := children_unique hlen hc1 hc2
    rcases Nat.eq_zero_or_pos i1 with h0 | h0
    · subst h0
      rcases Nat.eq_zero_or_pos i2' with h02 | h02
      · subst h02
        simp only [Function.iterate_zero_apply] at hcc
        exact ⟨hcc, rfl⟩
      · exfalso
        apply hn2 i2' (by omega) (by omega)
        rw [← hcc]
        simpa using hb1
    · rcases Nat.eq_zero_or_pos i2' with h02 | h02
      · exfalso
        subst h02
        apply hn1 i1 (by omega) (by omega)
        rw [hcc]
        simpa using hb2
      · have hres := ih i2' d1 d2 hd1 hd2 hb1 hb2 hr1 hr2 h0 h02
          (fun j hj1 hj2 => hn1 j hj1 (by omega))
          (fun j hj1 hj2 => hn2 j hj1 (by omega)) hcc
        exact ⟨hres.1, by omega⟩

theorem exists_max_below (P : ℕ → Prop) [DecidablePred P] :
    ∀ k, 1 ≤ k → P 0 → ∃ j, j < k ∧ P j ∧ ∀ t, j < t → t < k → ¬ P t := by
  intro k
  induction k with
  | zero =>
    intro h _
    exact absurd h (by omega)
  | succ k ih =>
    intro _ hp0
    rcases Nat.eq_zero_or_pos k with h0 | h0
    · subst h0
      exact ⟨0, by omega, hp0, fun t ht1 ht2 => by omega⟩
    · by_cases hk : P k
      · exact ⟨k, by omega, hk, fun t ht1 ht2 => by omega⟩
      · obtain ⟨j, hj1, hj2, hj3⟩ := ih h0 hp0
        refine ⟨j, by omega, hj2, ?_⟩
        intro t ht1 ht2
        rcases Nat.lt_or_ge t k with h | h
        · exact hj3 t ht1 h
        · have ht : t = k := by omega
          rw [ht]
          exact hk

theorem exists_seg_containing {s : Skel} (hs : s.Valid) (h2 : 2 ≤ s.n) {v : ℕ}
    (hv : v < s.n) (hnb : ¬ s.isBoundary v) :
    ∃ d, (d < s.n ∧ d ≠ s.root ∧ s.isBoundary d) ∧
      ∃ i, 1 ≤ i ∧ (s.p)^[i] d = v ∧
        ∀ j, 1 ≤ j → j ≤ i → ¬ s.isBoundary ((s.p)^[j] d) := by
  have hvr : v ≠ s.root := (not_isBoundary_iff.mp hnb).1
  obtain ⟨e, he, hve⟩ := Skel.exists_endPoint_above hs h2 v hv
  obtain ⟨hen, her, hech⟩ := Skel.mem_endPoints.mp he
  have heb : s.isBoundary e := Or.inr (Or.inr hech)
  obtain ⟨k, hk, hkv⟩ := (Skel.mem_pathToRoot hs hen).mp hve
  have hk1 : 1 ≤ k := by
    rcases Nat.eq_zero_or_pos k with h0 | h0
    · exfalso
      apply hnb
      rw [← hkv, h0]
      simpa using heb
    · exact h0
  obtain ⟨j, hj1, hj2, hj3⟩ :=
    exists_max_below (fun t => s.isBoundary ((s.p)^[t] e)) k hk1 (by simpa using heb)
  have hdn : (s.p)^[j] e < s.n := iter_lt hs.p_lt hen j
  have hiter : ∀ t, (s.p)^[t] ((s.p)^[j] e) = (s.p)^[t + j] e := by
    intro t
    rw [Function.iterate_add_apply]
  refine ⟨(s.p)^[j] e, ⟨hdn, ?_, hj2⟩, k - j, by omega, ?_, ?_⟩
  · -- p^[j] e ≠ root: its depth exceeds the depth of v, which is positive
    intro hroot
    have hdj : s.depth ((s.p)^[j] e) = s.depth e - j :=
      Skel.depth_iter hs hen j (by omega)
    have hdk : s.depth ((s.p)^[k] e) = s.depth e - k :=
      Skel.depth_iter hs hen k hk
    have hdvpos : 0 < s.depth v := Skel.depth_pos hs hv hvr
    rw [hkv] at hdk
    have : s.depth ((s.p)^[j] e) = 0 := by
      rw [hroot]
      exact Skel.depth_root hs
    omega
  · rw [hiter]
    have hkj : k - j + j = k := by omega
    rw [hkj]
    exact hkv
  · intro t ht1 ht2
    rw [hiter]
    rcases Nat.lt_or_ge (t + j) k with h | h
    · exact hj3 (t + j) (by omega) h
    · have htk : t + j = k := by omega
      rw [htk, hkv]
      exact hnb

theorem exists_seg_containing_root {s : Skel} (hs : s.Valid) (h2 : 2 ≤ s.n) :
    ∃ S ∈ s.segments, s.root ∈ S := by
  obtain ⟨e, he, _⟩ := Skel.exists_endPoint_above hs h2 s.root hs.root_lt
  obtain ⟨hen, her, hech⟩ := Skel.mem_endPoints.mp he
  have heb : s.isBoundary e := Or.inr (Or.inr hech)
  have hk1 : 1 ≤ s.depth e := Skel.depth_pos hs hen her
  obtain ⟨j, hj1, hj2, hj3⟩ :=
    exists_max_below (fun t => s.isBoundary ((s.p)^[t] e)) (s.depth e) hk1
      (by simpa using heb)
  have hdn : (s.p)^[j] e < s.n := iter_lt hs.p_lt hen j
  have hdj : s.depth ((s.p)^[j] e) = s.depth e - j :=
    Skel.depth_iter hs hen j (by omega)
  have hdr : (s.p)^[j] e ≠ s.root := by
    intro hroot
    have : s.depth ((s.p)^[j] e) = 0 := by
      rw [hroot]
      exact Skel.depth_root hs
    omega
  obtain ⟨m, hm, hseg, hint, hbm⟩ := segmentFrom_spec hs hdn hdr
  have hiter : ∀ t, (s.p)^[t] ((s.p)^[j] e) = (s.p)^[t + j] e := by
    intro t
    rw [Function.iterate_add_apply]
  have hm1 : m + 1 = s.depth e - j := by
    have hle : m + 1 ≤ s.depth e - j := by
      by_contra hgt
      push_neg at hgt
      have hdj2 : 1 ≤ s.depth e - j := by omega
      apply hint (s.depth e - j) hdj2 (by omega)
      rw [hiter]
      have : s.depth e - j + j = s.depth e := by omega
      rw [this, Skel.depth_reach hs hen]
      exact Or.inl rfl
    have hge : ¬ (m + 1 < s.depth e - j) := by
      intro hlt
      apply hj3 (m + 1 + j) (by omega) (by omega)
      have := hbm
      rwa [hiter] at this
    omega
  refine ⟨s.segmentFrom ((s.p)^[j] e), ?_, ?_⟩
  · apply List.mem_map_of_mem
    exact mem_segStarts.mpr ⟨hdn, hdr, hj2⟩
  · rw [segmentFrom_mem_iff hseg]
    refine ⟨m + 1, le_rfl, ?_⟩
    rw [hiter]
    have : m + 1 + j = s.depth e := by omega
    rw [this]
    exact Skel.depth_reach hs hen

theorem countP_eq_one_of_unique (p : ℕ → Bool) :
    ∀ l : List ℕ, l.Nodup → ∀ a, a ∈ l → p a = true →
      (∀ b ∈ l, p b = true → b = a) → l.countP p = 1 := by
  intro l
  induction l with
  | nil =>
    intro _ a ha
    simp at ha
  | cons c t ih =>
    intro hnd a ha hpa huniq
    rw [List.nodup_cons] at hnd
    rw [List.countP_cons]
    rcases List.mem_cons.mp ha with rfl | hat
    · have ht0 : t.countP p = 0 := by
        apply List.countP_eq_zero.mpr
        intro b hb hpb
        have hba := huniq b (List.mem_cons_of_mem _ hb) hpb
        rw [hba] at hb
        exact hnd.1 hb
      rw [ht0, hpa]
      simp
    · have hpc : p c = false := by
        cases hc : p c
        · rfl
        · have hca := huniq c (List.mem_cons_self c t) hc
          rw [hca] at hnd
          exact absurd hat hnd.1
      rw [ih hnd.2 a hat hpa (fun b hb hpb => huniq b (List.mem_cons_of_mem _ hb) hpb),
        hpc]
      simp

theorem zip_tail_contains (l : List ℕ) (a b : ℕ) :
    (l.zip l.tail).contains (a, b) = true ↔
      ∃ i, ∃ h : i + 1 < l.length, l[i] = a ∧ l[i + 1] = b := by
  have hlen : (l.zip l.tail).length = l.length - 1 := by
    rw [List.length_zip, List.length_tail]
    omega
  have hmem : ((l.zip l.tail).contains (a, b) = true) ↔ (a, b) ∈ l.zip l.tail :=
    List.elem_iff
  rw [hmem, List.mem_iff_getElem]
  constructor
  · rintro ⟨i, hi, hget⟩
    have hi1 : i + 1 < l.length := by omega
    rw [List.getElem_zip] at hget
    have hfst := congrArg Prod.fst hget
    have hsnd := congrArg Prod.snd hget
    simp only at hfst hsnd
    rw [List.getElem_tail] at hsnd
    exact ⟨i, hi1, hfst, hsnd⟩
  · rintro ⟨i, hi1, hfa, hfb⟩
    refine ⟨i, by omega, ?_⟩
    rw [List.getElem_zip, List.getElem_tail, hfa, hfb]

theorem findIdxQ_none (q : List ℕ → Bool) :
    ∀ (F : List (List ℕ)) (k : ℕ), (∀ P ∈ F, q P = false) →
      List.findIdx? q F k = none := by
  intro F
  induction F with
  | nil =>
    intro k _
    rfl
  | cons a t ih =>
    intro k h
    rw [List.findIdx?_cons]
    rw [if_neg (by simp [h a (List.mem_cons_self a t)])]
    exact ih (k + 1) (fun P hP => h P (List.mem_cons_of_mem a hP))

theorem findIdxQ_some (q : List ℕ → Bool) :
    ∀ (F : List (List ℕ)) (k i : ℕ), List.findIdx? q F k = some i →
      k ≤ i ∧ i - k < F.length ∧ q (F.getD (i - k) []) = true := by
  intro F
  induction F with
  | nil =>
    intro k i h
    simp [List.findIdx?] at h
  | cons a t ih =>
    intro k i h
    rw [List.findIdx?_cons] at h
    by_cases hq : q a = true
    · rw [if_pos hq] at h
      have hik : i = k := by
        have := h
        simp at this
        omega
      subst hik
      refine ⟨le_rfl, by simp, ?_⟩
      simp [hq]
    · rw [if_neg hq] at h
      obtain ⟨h1, h2, h3⟩ := ih (k + 1) i h
      refine ⟨by omega, by simp; omega, ?_⟩
      have hik : i - k = (i - (k + 1)) + 1 := by omega
      rw [hik]
      simpa using h3

theorem findIdxQ_isSome (q : List ℕ → Bool) :
    ∀ (F : List (List ℕ)) (k : ℕ), (∃ P ∈ F, q P = true) →
      ∃ i, List.findIdx? q F k = some i := by
  intro F
  induction F with
  | nil =>
    intro k h
    obtain ⟨P, hP, _⟩ := h
    simp at hP
  | cons a t ih =>
    intro k h
    rw [List.findIdx?_cons]
    by_cases hq : q a = true
    · exact ⟨k, by rw [if_pos hq]⟩
    · rw [if_neg hq]
      apply ih (k + 1)
      obtain ⟨P, hP, hqP⟩ := h
      rcases List.mem_cons.mp hP with rfl | hPt
      · exact absurd hqP hq
      · exact ⟨P, hPt, hqP⟩

theorem segments_nonboundary_count {s : Skel} (hs : s.Valid) {v : ℕ} (hv : v < s.n)
    (hnb : ¬ s.isBoundary v) :
    s.segments.countP (fun S => S.contains v) = 1 := by
  have hvr : v ≠ s.root := (not_isBoundary_iff.mp hnb).1
  have h2 : 2 ≤ s.n := by
    have := hs.root_lt
    omega
  obtain ⟨d0, ⟨hd0n, hd0r, hd0b⟩, i0, hi01, hi0v, hi0int⟩ :=
    exists_seg_containing hs h2 hv hnb
  unfold Skel.segments
  rw [List.countP_map]
  apply countP_eq_one_of_unique _ s.segStarts (segStarts_nodup s) d0
    (mem_segStarts.mpr ⟨hd0n, hd0r, hd0b⟩)
  · show (s.segmentFrom d0).contains v = true
    obtain ⟨m, hm, hseg, hint, hbm⟩ := segmentFrom_spec hs hd0n hd0r
    have hi0m : i0 ≤ m := by
      by_contra hgt
      push_neg at hgt
      exact hi0int (m + 1) (by omega) (by omega) hbm
    rw [containsTrue, segmentFrom_mem_iff hseg]
    exact ⟨i0, by omega, hi0v⟩
  · intro b hb hpb
    obtain ⟨hbn, hbr, hbb⟩ := mem_segStarts.mp hb
    obtain ⟨mb, hmb, hsegb, hintb, hbmb⟩ := segmentFrom_spec hs hbn hbr
    have hmem : v ∈ s.segmentFrom b := containsTrue.mp hpb
    rw [segmentFrom_mem_iff hsegb] at hmem
    obtain ⟨ib, hib, hibv⟩ := hmem
    have hib1 : 1 ≤ ib := by
      rcases Nat.eq_zero_or_pos ib with h0 | h0
      · exfalso
        apply hnb
        rw [← hibv, h0]
        simpa using hbb
      · exact h0
    have hibm : ib ≤ mb := by
      rcases Nat.lt_or_ge ib (mb + 1) with h | h
      · omega
      · exfalso
        have hib2 : ib = mb + 1 := by omega
        apply hnb
        rw [← hibv, hib2]
        exact hbmb
    exact (seg_chain_unique hs ib i0 b d0 hbn hd0n hbb hd0b hbr hd0r hib1 hi01
      (fun j hj1 hj2 => hintb j hj1 (by omega)) hi0int (hibv.trans hi0v.symm)).1

theorem seg_edge_iff {s : Skel} {d m : ℕ}
    (hseg : s.segmentFrom d = (List.range (m + 2)).map (fun i => (s.p)^[i] d))
    {v : ℕ} :
    ((s.segmentFrom d).zip (s.segmentFrom d).tail).contains (v, s.p v) = true ↔
      ∃ i, i ≤ m ∧ (s.p)^[i] d = v := by
  have hlen : (s.segmentFrom d).length = m + 2 := by
    rw [hseg]
    simp
  rw [zip_tail_contains]
  constructor
  · rintro ⟨i, hi, hfa, _⟩
    refine ⟨i, by omega, ?_⟩
    rw [← hfa, List.getElem_of_eq hseg]
    simp only [List.getElem_map, List.getElem_range]
  · rintro ⟨i, hi, rfl⟩
    refine ⟨i, by omega, ?_, ?_⟩
    · rw [List.getElem_of_eq hseg]
      simp only [List.getElem_map, List.getElem_range]
    · rw [List.getElem_of_eq hseg]
      simp only [List.getElem_map, List.getElem_range, Function.iterate_succ_apply']

theorem segments_edge_count {s : Skel} (hs : s.Valid) {v : ℕ} (hv : v < s.n)
    (hvr : v ≠ s.root) :
    s.segments.countP (fun S => (S.zip S.tail).contains (v, s.p v)) = 1 := by
  have h2 : 2 ≤ s.n := by
    have := hs.root_lt
    omega
  unfold Skel.segments
  rw [List.countP_map]
  by_cases hb : s.isBoundary v
  · apply countP_eq_one_of_unique _ s.segStarts (segStarts_nodup s) v
      (mem_segStarts.mpr ⟨hv, hvr, hb⟩)
    · show ((s.segmentFrom v).zip (s.segmentFrom v).tail).contains (v, s.p v) = true
      obtain ⟨m, hm, hseg, hint, hbm⟩ := segmentFrom_spec hs hv hvr
      rw [seg_edge_iff hseg]
      exact ⟨0, Nat.zero_le m, by simp⟩
    · intro b hbm hpb
      obtain ⟨hbn, hbr, hbb⟩ := mem_segStarts.mp hbm
      obtain ⟨mb, hmb, hsegb, hintb, hbmb⟩ := segmentFrom_spec hs hbn hbr
      obtain ⟨ib, hib, hibv⟩ := (seg_edge_iff hsegb).mp hpb
      rcases Nat.eq_zero_or_pos ib with h0 | h0
      · rw [h0] at hibv
        simpa using hibv
      · exfalso
        apply hintb ib h0 hib
        rw [hibv]
        exact hb
  · obtain ⟨d0, ⟨hd0n, hd0r, hd0b⟩, i0, hi01, hi0v, hi0int⟩ :=
      exists_seg_containing hs h2 hv hb
    obtain ⟨m, hm, hseg, hint, hbm⟩ := segmentFrom_spec hs hd0n hd0r
    have hi0m : i0 ≤ m := by
      by_contra hgt
      push_neg at hgt
      exact hi0int (m + 1) (by omega) (by omega) hbm
    apply countP_eq_one_of_unique _ s.segStarts (segStarts_nodup s) d0
      (mem_segStarts.mpr ⟨hd0n, hd0r, hd0b⟩)
    · show ((s.segmentFrom d0).zip (s.segmentFrom d0).tail).contains (v, s.p v) = true
      rw [seg_edge_iff hseg]
      exact ⟨i0, hi0m, hi0v⟩
    · intro b hbm2 hpb
      obtain ⟨hbn, hbr, hbb⟩ := mem_segStarts.mp hbm2
      obtain ⟨mb, hmb, hsegb, hintb, hbmb⟩ := segmentFrom_spec hs hbn hbr
      obtain ⟨ib, hib, hibv⟩ := (seg_edge_iff hsegb).mp hpb
      have hib1 : 1 ≤ ib := by
        rcases Nat.eq_zero_or_pos ib with h0 | h0
        · exfalso
          apply hb
          rw [← hibv, h0]
          simpa using hbb
        · exact h0
      exact (seg_chain_unique hs ib i0 b d0 hbn hd0n hbb hd0b hbr hd0r hib1 hi01
        (fun j hj1 hj2 => hintb j hj1 (by omega)) hi0int (hibv.trans hi0v.symm)).1

theorem segments_boundary_mem {s : Skel} (hs : s.Valid) {v : ℕ}
    (hb : s.isBoundary v) {S : List ℕ} (hS : S ∈ s.segments) :
    v ∈ S ↔ S.head? = some v ∨ S.getLast? = some v := by
  obtain ⟨d, hd, rfl⟩ := List.mem_map.mp hS
  obtain ⟨hdn, hdr, hdb⟩ := mem_segStarts.mp hd
  obtain ⟨m, hm, hseg, hint, hbm⟩ := segmentFrom_spec hs hdn hdr
  constructor
  · intro hmem
    rw [segmentFrom_mem_iff hseg] at hmem
    obtain ⟨i, hi, rfl⟩ := hmem
    rcases Nat.eq_zero_or_pos i with h0 | h0
    · left
      rw [segmentFrom_head, h0]
      simp
    · rcases Nat.lt_or_ge i (m + 1) with h | h
      · exact absurd hb (hint i h0 (by omega))
      · have hi2 : i = m + 1 := by omega
        right
        rw [segmentFrom_getLast hseg, hi2]
  · intro h
    rcases h with h | h
    · exact List.mem_of_mem_head? (by rw [h]; rfl)
    · rw [segmentFrom_getLast hseg] at h
      have hv2 : (s.p)^[m + 1] d = v := by simpa using h
      rw [segmentFrom_mem_iff hseg]
      exact ⟨m + 1, le_rfl, hv2⟩

theorem segMapConv_of_ne_root {s : Skel} (hs : s.Valid) {v : ℕ} (hv : v < s.n)
    (hvr : v ≠ s.root) : s.segMapConv v := by
  by_cases hb : s.isBoundary v
  · have hex : ∃ P ∈ s.segments, (P.head? == some v) = true := by
      refine ⟨s.segmentFrom v, List.mem_map_of_mem _ (mem_segStarts.mpr ⟨hv, hvr, hb⟩), ?_⟩
      rw [segmentFrom_head]
      simp
    obtain ⟨i, hfind⟩ := findIdxQ_isSome _ s.segments 0 hex
    obtain ⟨_, hlt, hq⟩ := findIdxQ_some _ s.segments 0 i hfind
    simp only [Nat.sub_zero] at hlt hq
    have hmap : s.segMap v = i := by
      unfold Skel.segMap
      rw [hfind]
    unfold Skel.segMapConv
    rw [hmap]
    have hhead : (s.segments.getD i []).head? = some v := by simpa using hq
    exact ⟨hlt, List.mem_of_mem_head? (by rw [hhead]; rfl), fun _ => hhead⟩
  · have hnone : List.findIdx? (fun S => S.head? == some v) s.segments 0 = none := by
      apply findIdxQ_none
      intro P hP
      obtain ⟨d, hd, rfl⟩ := List.mem_map.mp hP
      obtain ⟨hdn, hdr, hdb⟩ := mem_segStarts.mp hd
      rw [segmentFrom_head]
      have hdv : d ≠ v := fun h => hb (h ▸ hdb)
      simp [hdv]
    have h2 : 2 ≤ s.n := by
      have := hs.root_lt
      omega
    obtain ⟨d0, ⟨hd0n, hd0r, hd0b⟩, i0, hi01, hi0v, hi0int⟩ :=
      exists_seg_containing hs h2 hv hb
    obtain ⟨m, hm, hseg, hint, hbm⟩ := segmentFrom_spec hs hd0n hd0r
    have hi0m : i0 ≤ m := by
      by_contra hgt
      push_neg at hgt
      exact hi0int (m + 1) (by omega) (by omega) hbm
    have hex : ∃ P ∈ s.segments, P.contains v = true := by
      refine ⟨s.segmentFrom d0,
        List.mem_map_of_mem _ (mem_segStarts.mpr ⟨hd0n, hd0r, hd0b⟩), ?_⟩
      rw [containsTrue, segmentFrom_mem_iff hseg]
      exact ⟨i0, by omega, hi0v⟩
    obtain ⟨i, hfind⟩ := findIdxQ_isSome _ s.segments 0 hex
    obtain ⟨_, hlt, hq⟩ := findIdxQ_some _ s.segments 0 i hfind
    simp only [Nat.sub_zero] at hlt hq
    have hmap : s.segMap v = i := by
      unfold Skel.segMap
      rw [hnone, hfind]
      rfl
    unfold Skel.segMapConv
    rw [hmap]
    exact ⟨hlt, containsTrue.mp hq, fun hbb => absurd hbb hb⟩

theorem segMap_root_mem {s : Skel} (hs : s.Valid) (h2 : 2 ≤ s.n) :
    s.segMap s.root < s.segments.length ∧
      s.root ∈ s.segments.getD (s.segMap s.root) [] := by
  have hnone : List.findIdx? (fun S => S.head? == some s.root) s.segments 0 = none := by
    apply findIdxQ_none
    intro P hP
    obtain ⟨d, hd, rfl⟩ := List.mem_map.mp hP
    obtain ⟨hdn, hdr, _⟩ := mem_segStarts.mp hd
    rw [segmentFrom_head]
    simp [hdr]
  obtain ⟨S, hS, hSr⟩ := exists_seg_containing_root hs h2
  have hex : ∃ P ∈ s.segments, P.contains s.root = true := ⟨S, hS, containsTrue.mpr hSr⟩
  obtain ⟨i, hfind⟩ := findIdxQ_isSome _ s.segments 0 hex
  obtain ⟨_, hlt, hq⟩ := findIdxQ_some _ s.segments 0 i hfind
  simp only [Nat.sub_zero] at hlt hq
  have hmap : s.segMap s.root = i := by
    unfold Skel.segMap
    rw [hnone, hfind]
    rfl
  rw [hmap]
  exact ⟨hlt, containsTrue.mp hq⟩

/-- C6 (amended): for every valid skeleton, every edge `(v, parent v)`
belongs to exactly one segment, every non-boundary vertex belongs to
exactly one segment, a boundary vertex belongs to a segment exactly when
that segment originates (head) or terminates (last) at it, and for every
non-root vertex `segment_map` follows the most-distal-member ownership
convention (`segMapConv`): it indexes a segment containing the vertex,
headed by the vertex whenever the vertex is a boundary vertex.  At the root
(a boundary vertex, excluded from the original claim by this amendment)
`segment_map` still indexes a segment containing it whenever the skeleton
has at least two vertices. -/
theorem segments_spec (s : Skel) (hs : s.Valid) :
    (∀ v, v < s.n → ¬ s.isBoundary v →
      s.segments.countP (fun S => S.contains v) = 1) ∧
    (∀ v, v < s.n → v ≠ s.root →
      s.segments.countP (fun S => (S.zip S.tail).contains (v, s.p v)) = 1) ∧
    (∀ v, s.isBoundary v → ∀ S ∈ s.segments,
      (v ∈ S ↔ S.head? = some v ∨ S.getLast? = some v)) ∧
    (∀ v, v < s.n → v ≠ s.root → s.segMapConv v) ∧
    (2 ≤ s.n → s.segMap s.root < s.segments.length ∧
      s.root ∈ s.segments.getD (s.segMap s.root) []) :=
  ⟨fun _ hv hnb => segments_nonboundary_count hs hv hnb,
   fun _ hv hvr => segments_edge_count hs hv hvr,
   fun _ hb _ hS => segments_boundary_mem hs hb hS,
   fun _ hv hvr => segMapConv_of_ne_root hs hv hvr,
   fun h2 => segMap_root_mem hs h2⟩

/-- Counterexample to the unamended C6: in the Y-shaped example the root is
a boundary vertex, yet `segment_map` cannot return a segment of which the
root is the most-distal member — no segment is headed by the root. -/
theorem segMap_root_not_distal :
    Ysk.Valid ∧ Ysk.isBoundary Ysk.root ∧ ¬ Ysk.segMapConv Ysk.root := by
  decide

/-- Witness for C6 at the Y-shaped example skeleton. -/
theorem segments_spec_witness :
    Ysk.Valid ∧
    ((∀ v, v < Ysk.n → ¬ Ysk.isBoundary v →
       Ysk.segments.countP (fun S => S.contains v) = 1) ∧
     (∀ v, v < Ysk.n → v ≠ Ysk.root →
       Ysk.segments.countP (fun S => (S.zip S.tail).contains (v, Ysk.p v)) = 1) ∧
     (∀ v, Ysk.isBoundary v → ∀ S ∈ Ysk.segments,
       (v ∈ S ↔ S.head? = some v ∨ S.getLast? = some v)) ∧
     (∀ v, v < Ysk.n → v ≠ Ysk.root → Ysk.segMapConv v) ∧
     (2 ≤ Ysk.n → Ysk.segMap Ysk.root < Ysk.segments.length ∧
       Ysk.root ∈ Ysk.segments.getD (Ysk.segMap Ysk.root) [])) :=
  ⟨by decide, segments_spec Ysk (by decide)⟩

/-! ### Construction: breadth-first reachability and levels -/

theorem adjE_symm {es : List (ℕ × ℕ)} {u v : ℕ} (h : adjE es u v) : adjE es v u := by
  rcases h with h | h
  · exact Or.inr h
  · exact Or.inl h

theorem reach_lt {n : ℕ} {es : List (ℕ × ℕ)} (hn : 0 < n) :
    ∀ k, ∀ v ∈ reachSet n es k, v < n := by
  intro k
  cases k with
  | zero =>
    intro v hv
    have : v = 0 := by simpa [reachSet] using hv
    omega
  | succ k =>
    intro v hv
    have : v ∈ (List.range n).filter _ := hv
    rw [List.mem_filter, List.mem_range] at this
    exact this.1

theorem reach_mono {n : ℕ} {es : List (ℕ × ℕ)} (hn : 0 < n) :
    ∀ k, ∀ v ∈ reachSet n es k, v ∈ reachSet n es (k + 1) := by
  intro k v hv
  show v ∈ expand n es (reachSet n es k)
  unfold expand
  rw [List.mem_filter, List.mem_range]
  refine ⟨reach_lt hn k v hv, ?_⟩
  rw [Bool.or_eq_true]
  exact Or.inl (containsTrue.mpr hv)

theorem reach_mono_le {n : ℕ} {es : List (ℕ × ℕ)} (hn : 0 < n) {k k' : ℕ}
    (h : k ≤ k') : ∀ v ∈ reachSet n es k, v ∈ reachSet n es k' := by
  induction k' with
  | zero =>
    intro v hv
    rw [Nat.le_zero.mp h] at hv
    exact hv
  | succ k' ih =>
    intro v hv
    rcases Nat.eq_or_lt_of_le h with rfl | hlt
    · exact hv
    · exact reach_mono hn k' v (ih (by omega) v hv)

theorem reach_step {n : ℕ} {es : List (ℕ × ℕ)} {u v : ℕ} (hv : v < n) {k : ℕ}
    (hu : u ∈ reachSet n es k) (hadj : adjE es u v) : v ∈ reachSet n es (k + 1) := by
  show v ∈ expand n es (reachSet n es k)
  unfold expand
  rw [List.mem_filter, List.mem_range]
  refine ⟨hv, ?_⟩
  rw [Bool.or_eq_true]
  right
  rw [List.any_eq_true]
  exact ⟨u, hu, by simpa using hadj⟩

theorem lvlAux_min (q : ℕ → Bool) :
    ∀ fuel k t, k ≤ t → t < lvlAux q fuel k → q t = false := by
  intro fuel
  induction fuel with
  | zero =>
    intro k t h1 h2
    exact absurd h2 (by simp [lvlAux]; omega)
  | succ f ih =>
    intro k t h1 h2
    rw [show lvlAux q (f + 1) k = if q k then k else lvlAux q f (k + 1) from rfl] at h2
    by_cases hq : q k
    · rw [if_pos hq] at h2
      exact absurd h2 (by omega)
    · rw [if_neg hq] at h2
      rcases Nat.eq_or_lt_of_le h1 with rfl | hlt
      · cases hqq : q k
        · rfl
        · exact absurd hqq hq
      · exact ih (k + 1) t (by omega) h2

theorem lvlAux_le (q : ℕ → Bool) :
    ∀ fuel k j, j < fuel → q (k + j) = true → lvlAux q fuel k ≤ k + j := by
  intro fuel
  induction fuel with
  | zero =>
    intro k j h
    exact absurd h (by omega)
  | succ f ih =>
    intro k j hj hq
    show (if q k then k else lvlAux q f (k + 1)) ≤ k + j
    by_cases hqk : q k
    · rw [if_pos hqk]
      omega
    · rw [if_neg hqk]
      have hj1 : 1 ≤ j := by
        rcases Nat.eq_zero_or_pos j with h0 | h0
        · exfalso
          apply hqk
          rw [show k = k + j from by omega]
          exact hq
        · exact h0
      have := ih (k + 1) (j - 1) (by omega)
        (by rw [show k + 1 + (j - 1) = k + j from by omega]; exact hq)
      omega

theorem lvlAux_hits (q : ℕ → Bool) :
    ∀ fuel k j, j < fuel → q (k + j) = true → q (lvlAux q fuel k) = true := by
  intro fuel
  induction fuel with
  | zero =>
    intro k j h
    exact absurd h (by omega)
  | succ f ih =>
    intro k j hj hq
    show q (if q k then k else lvlAux q f (k + 1)) = true
    by_cases hqk : q k
    · rw [if_pos hqk]
      exact hqk
    · rw [if_neg hqk]
      have hj1 : 1 ≤ j := by
        rcases Nat.eq_zero_or_pos j with h0 | h0
        · exfalso
          apply hqk
          rw [show k = k + j from by omega]
          exact hq
        · exact h0
      exact ih (k + 1) (j - 1) (by omega)
        (by rw [show k + 1 + (j - 1) = k + j from by omega]; exact hq)

theorem lvl_spec {n : ℕ} {es : List (ℕ × ℕ)} (hn : 0 < n) {v : ℕ} (hv : v < n)
    (hreach : v ∈ reachSet n es n) :
    v ∈ reachSet n es (lvl n es v) ∧ lvl n es v ≤ n ∧
      ∀ t, t < lvl n es v → v ∉ reachSet n es t := by
  have hq : (fun k => (reachSet n es k).contains v) (0 + n) = true := by
    show (reachSet n es (0 + n)).contains v = true
    rw [Nat.zero_add]
    exact containsTrue.mpr hreach
  refine ⟨?_, ?_, ?_⟩
  · have := lvlAux_hits (fun k => (reachSet n es k).contains v) (n + 1) 0 n (by omega) hq
    exact containsTrue.mp this
  · have := lvlAux_le (fun k => (reachSet n es k).contains v) (n + 1) 0 n (by omega) hq
    unfold lvl
    omega
  · intro t ht hmem
    have h3 := lvlAux_min (fun k => (reachSet n es k).contains v) (n + 1) 0 t (Nat.zero_le t) ht
    have h4 : (reachSet n es t).contains v = false := h3
    rw [containsTrue.mpr hmem] at h4
    simp at h4

theorem lvl_zero (n : ℕ) (es : List (ℕ × ℕ)) : lvl n es 0 = 0 := by
  show lvlAux (fun k => (reachSet n es k).contains 0) (n + 1) 0 = 0
  rw [show lvlAux (fun k => (reachSet n es k).contains 0) (n + 1) 0 =
    if (reachSet n es 0).contains 0 then 0
    else lvlAux (fun k => (reachSet n es k).contains 0) n 1 from rfl]
  rw [if_pos (show (reachSet n es 0).contains 0 = true from rfl)]

theorem lvl_pos {n : ℕ} {es : List (ℕ × ℕ)} (hn : 0 < n) {v : ℕ} (hv : v < n)
    (hv0 : v ≠ 0) (hreach : v ∈ reachSet n es n) : 0 < lvl n es v := by
  rcases Nat.eq_zero_or_pos (lvl n es v) with h0 | h0
  · exfalso
    have := (lvl_spec hn hv hreach).1
    rw [h0] at this
    exact hv0 (by simpa [reachSet] using this)
  · exact h0

theorem bfsPar_spec {n : ℕ} {es : List (ℕ × ℕ)} (hn : 0 < n)
    (hD : ∀ v, v < n → v ∈ reachSet n es n) {v : ℕ} (hv : v < n) (hv0 : v ≠ 0) :
    bfsPar n es v < n ∧ adjE es (bfsPar n es v) v ∧
      lvl n es (bfsPar n es v) < lvl n es v := by
  obtain ⟨hmem, hle, hmin⟩ := lvl_spec hn hv (hD v hv)
  have hl1 : 0 < lvl n es v := lvl_pos hn hv hv0 (hD v hv)
  obtain ⟨L, hL⟩ : ∃ L, lvl n es v = L + 1 := ⟨lvl n es v - 1, by omega⟩
  rw [hL] at hmem
  have hmem2 : v ∈ expand n es (reachSet n es L) := hmem
  unfold expand at hmem2
  rw [List.mem_filter, List.mem_range] at hmem2
  obtain ⟨hrange, hpred⟩ := hmem2
  rw [Bool.or_eq_true] at hpred
  rcases hpred with hc | hany
  · exact absurd (containsTrue.mp hc) (hmin L (by omega))
  · rw [List.any_eq_true] at hany
    obtain ⟨u, hu, hadj⟩ := hany
    rw [decide_eq_true_iff] at hadj
    have hun : u < n := reach_lt hn L u hu
    have hulvl : lvl n es u < lvl n es v := by
      have := lvlAux_le (fun k => (reachSet n es k).contains u) (n + 1) 0 L (by omega)
        (by show (reachSet n es (0 + L)).contains u = true
            rw [Nat.zero_add]
            exact containsTrue.mpr hu)
      have h5 : lvl n es u ≤ 0 + L := this
      omega
    have hfind : ∃ w, (List.range n).find?
        (fun u2 => decide (adjE es u2 v) && decide (lvl n es u2 < lvl n es v)) = some w := by
      cases hf : (List.range n).find?
          (fun u2 => decide (adjE es u2 v) && decide (lvl n es u2 < lvl n es v)) with
      | none =>
        exfalso
        rw [List.find?_eq_none] at hf
        apply hf u (List.mem_range.mpr hun)
        rw [Bool.and_eq_true, decide_eq_true_iff, decide_eq_true_iff]
        exact ⟨hadj, hulvl⟩
      | some w => exact ⟨w, rfl⟩
    obtain ⟨w, hw⟩ := hfind
    have hwp := List.find?_some hw
    have hwm := List.mem_of_find?_eq_some hw
    rw [Bool.and_eq_true, decide_eq_true_iff, decide_eq_true_iff] at hwp
    unfold bfsPar
    rw [if_neg hv0, hw]
    exact ⟨List.mem_range.mp hwm, hwp.1, hwp.2⟩

theorem bfsPar_zero (n : ℕ) (es : List (ℕ × ℕ)) : bfsPar n es 0 = 0 := by
  unfold bfsPar
  rw [if_pos rfl]

theorem normPair_symm (a b : ℕ) : normPair (a, b) = normPair (b, a) := by
  unfold normPair
  rw [Prod.mk.injEq]
  constructor
  · exact min_comm a b
  · exact max_comm a b

theorem normPair_eq_iff {q r : ℕ × ℕ} :
    normPair q = normPair r ↔ (q.1 = r.1 ∧ q.2 = r.2) ∨ (q.1 = r.2 ∧ q.2 = r.1) := by
  unfold normPair
  rw [Prod.mk.injEq]
  omega

theorem filter_ne_zero_length {n : ℕ} (hn : 0 < n) :
    ((List.range n).filter (fun v => v != 0)).length = n - 1 := by
  obtain ⟨m, rfl⟩ := Nat.exists_eq_succ_of_ne_zero (by omega : n ≠ 0)
  rw [List.range_succ_eq_map, List.filter_cons]
  rw [if_neg (by simp)]
  rw [List.filter_map]
  have hall : (List.range m).filter ((fun v => v != 0) ∘ Nat.succ) = List.range m := by
    apply List.filter_eq_self.mpr
    intro a _
    simp
  rw [hall]
  simp

theorem parent_edges_cover {n : ℕ} {es : List (ℕ × ℕ)} (hn : 0 < n)
    (hB : (es.map normPair).Nodup) (hC : es.length + 1 = n)
    (hD : ∀ v, v < n → v ∈ reachSet n es n) :
    ∀ e ∈ es, ∃ v, v < n ∧ v ≠ 0 ∧ normPair e = normPair (v, bfsPar n es v) := by
  intro e he
  have hTnd : ((List.range n).filter (fun v => v != 0)).Nodup :=
    (List.nodup_range n).filter _
  have hinj : Set.InjOn (fun v => normPair (v, bfsPar n es v))
      ((List.range n).filter (fun v => v != 0)).toFinset := by
    intro a ha b hb hab
    simp only [Finset.mem_coe, List.mem_toFinset, List.mem_filter, List.mem_range] at ha hb
    have ha0 : a ≠ 0 := by simpa using ha.2
    have hb0 : b ≠ 0 := by simpa using hb.2
    obtain ⟨hpa, hadja, hlvla⟩ := bfsPar_spec hn hD ha.1 ha0
    obtain ⟨hpb, hadjb, hlvlb⟩ := bfsPar_spec hn hD hb.1 hb0
    rcases normPair_eq_iff.mp hab with ⟨h1, _⟩ | ⟨h1, h2⟩
    · exact h1
    · exfalso
      simp only at h1 h2
      rw [← h1] at hlvlb
      rw [h2] at hlvla
      omega
  have himage_sub : (((List.range n).filter (fun v => v != 0)).toFinset.image
      (fun v => normPair (v, bfsPar n es v))) ⊆ (es.map normPair).toFinset := by
    intro q hq
    rw [Finset.mem_image] at hq
    obtain ⟨v, hv, rfl⟩ := hq
    rw [List.mem_toFinset, List.mem_filter, List.mem_range] at hv
    have hv0 : v ≠ 0 := by simpa using hv.2
    obtain ⟨hpn, hpadj, _⟩ := bfsPar_spec hn hD hv.1 hv0
    rw [List.mem_toFinset]
    rw [normPair_symm]
    rcases hpadj with h | h
    · exact List.mem_map_of_mem _ h
    · rw [normPair_symm]
      exact List.mem_map_of_mem _ h
  have hcard1 : (((List.range n).filter (fun v => v != 0)).toFinset.image
      (fun v => normPair (v, bfsPar n es v))).card = n - 1 := by
    rw [Finset.card_image_of_injOn hinj, List.toFinset_card_of_nodup hTnd]
    exact filter_ne_zero_length hn
  have hcard2 : (es.map normPair).toFinset.card = n - 1 := by
    rw [List.toFinset_card_of_nodup hB, List.length_map]
    omega
  have heq := Finset.eq_of_subset_of_card_le himage_sub (by omega)
  have hmem : normPair e ∈ (es.map normPair).toFinset :=
    List.mem_toFinset.mpr (List.mem_map_of_mem _ he)
  rw [← heq, Finset.mem_image] at hmem
  obtain ⟨v, hv, hveq⟩ := hmem
  rw [List.mem_toFinset, List.mem_filter, List.mem_range] at hv
  exact ⟨v, hv.1, by simpa using hv.2, hveq.symm⟩

theorem adj_orient {n : ℕ} {es : List (ℕ × ℕ)} (hn : 0 < n)
    (hB : (es.map normPair).Nodup) (hC : es.length + 1 = n)
    (hD : ∀ v, v < n → v ∈ reachSet n es n) {a b : Fin n}
    (hadj : (graphOf n es).Adj a b) :
    (b.val = bfsPar n es a.val ∧ lvl n es b.val < lvl n es a.val) ∨
    (a.val = bfsPar n es b.val ∧ lvl n es a.val < lvl n es b.val) := by
  have hadj2 := hadj
  rw [graphOf, SimpleGraph.fromRel_adj] at hadj2
  obtain ⟨hne, hor⟩ := hadj2
  have hadjE : adjE es a.val b.val := by
    rcases hor with h | h
    · exact h
    · exact adjE_symm h
  obtain ⟨e, he, heq⟩ : ∃ e ∈ es, normPair e = normPair (a.val, b.val) := by
    rcases hadjE with h | h
    · exact ⟨_, h, rfl⟩
    · exact ⟨_, h, normPair_symm _ _⟩
  obtain ⟨v, hvn, hv0, hvp⟩ := parent_edges_cover hn hB hC hD e he
  rw [heq] at hvp
  obtain ⟨hpn, hpadj, hplvl⟩ := bfsPar_spec hn hD hvn hv0
  rcases normPair_eq_iff.mp hvp with ⟨h1, h2⟩ | ⟨h1, h2⟩
  · left
    simp only at h1 h2
    rw [h1, h2]
    exact ⟨rfl, by rw [← h1] at hplvl; rw [← h1]; exact hplvl⟩
  · right
    simp only at h1 h2
    rw [h1, h2]
    exact ⟨rfl, by rw [← h2] at hplvl; rw [← h2]; exact hplvl⟩

theorem exists_edge_into_end {V : Type} {G : SimpleGraph V} :
    ∀ {y x : V} (p : G.Walk y x), y ≠ x →
      ∃ z, ∃ h2 : G.Adj z x, z ∈ p.support ∧ Sym2.mk (z, x) ∈ p.edges := by
  intro y x p
  induction p with
  | nil =>
    intro h
    exact absurd rfl h
  | cons h q ih =>
    intro hyx
    rename_i y2 w x2
    by_cases hwx : w = x2
    · subst hwx
      refine ⟨y2, h, ?_, ?_⟩
      · rw [SimpleGraph.Walk.support_cons]
        exact List.mem_cons_self _ _
      · rw [SimpleGraph.Walk.edges_cons]
        exact List.mem_cons_self _ _
    · obtain ⟨z, hz, hzs, hze⟩ := ih hwx
      refine ⟨z, hz, ?_, ?_⟩
      · rw [SimpleGraph.Walk.support_cons]
        exact List.mem_cons_of_mem _ hzs
      · rw [SimpleGraph.Walk.edges_cons]
        exact List.mem_cons_of_mem _ hze

theorem graph_acyclic {n : ℕ} {es : List (ℕ × ℕ)} (hn : 0 < n)
    (hB : (es.map normPair).Nodup) (hC : es.length + 1 = n)
    (hD : ∀ v, v < n → v ∈ reachSet n es n) : (graphOf n es).IsAcyclic := by
  intro v0 c hc
  have hsupne : c.support.toFinset.Nonempty :=
    ⟨v0, List.mem_toFinset.mpr c.start_mem_support⟩
  obtain ⟨x, hx, hmax⟩ := Finset.exists_max_image c.support.toFinset
    (fun w => lvl n es w.val) hsupne
  rw [List.mem_toFinset] at hx
  have hc2 := hc.rotate hx
  have hmaxd : ∀ w : Fin n, w ∈ (c.rotate hx).support → lvl n es w.val ≤ lvl n es x.val := by
    intro w hw
    apply hmax
    rw [List.mem_toFinset]
    rcases (SimpleGraph.Walk.mem_support_iff (c.rotate hx)).mp hw with rfl | hwt
    · exact hx
    · exact List.mem_of_mem_tail (((SimpleGraph.Walk.support_rotate c hx).mem_iff).mp hwt)
  cases hrot : c.rotate hx with
  | nil =>
    rw [hrot] at hc2
    have := hc2.three_le_length
    simp at this
  | cons h1 p =>
    rw [hrot] at hc2 hmaxd
    rename_i y
    have hnd : (SimpleGraph.Walk.cons h1 p).edges.Nodup :=
      hc2.toIsCircuit.toIsTrail.edges_nodup
    have hy : y ∈ (SimpleGraph.Walk.cons h1 p).support := by
      rw [SimpleGraph.Walk.support_cons]
      exact List.mem_cons_of_mem _ p.start_mem_support
    have hor1 := adj_orient hn hB hC hD h1
    have hy2 : y.val = bfsPar n es x.val ∧ lvl n es y.val < lvl n es x.val := by
      rcases hor1 with h | h
      · exact h
      · exact absurd (hmaxd y hy) (by omega)
    have hyx : y ≠ x := by
      intro hyx2
      rw [hyx2] at hy2
      omega
    obtain ⟨z, hzadj, hzs, hze⟩ := exists_edge_into_end p hyx
    have hz : z ∈ (SimpleGraph.Walk.cons h1 p).support := by
      rw [SimpleGraph.Walk.support_cons]
      exact List.mem_cons_of_mem _ hzs
    have hor2 := adj_orient hn hB hC hD hzadj
    have hz2 : z.val = bfsPar n es x.val := by
      rcases hor2 with h | h
      · exact absurd (hmaxd z hz) (by omega)
      · exact h.1
    have hzy : z = y := by
      apply Fin.ext
      rw [hz2, hy2.1]
    rw [SimpleGraph.Walk.edges_cons, List.nodup_cons] at hnd
    apply hnd.1
    have : Sym2.mk (x, y) = Sym2.mk (z, x) := by
      rw [hzy]
      exact Sym2.eq_swap
    rw [this]
    exact hze

theorem walk_reach {n : ℕ} {es : List (ℕ × ℕ)} (hn : 0 < n) :
    ∀ {a b : Fin n} (w : (graphOf n es).Walk a b) (k : ℕ),
      a.val ∈ reachSet n es k → b.val ∈ reachSet n es (k + w.length) := by
  intro a b w
  induction w with
  | nil =>
    intro k h
    simpa using h
  | cons h p ih =>
    intro k hk
    rename_i a2 u b2
    have hadjE : adjE es a2.val u.val := by
      have h2 := h
      rw [graphOf, SimpleGraph.fromRel_adj] at h2
      rcases h2.2 with h3 | h3
      · exact h3
      · exact adjE_symm h3
    have hu : u.val ∈ reachSet n es (k + 1) := reach_step u.isLt hk hadjE
    have hb := ih (k + 1) hu
    rw [SimpleGraph.Walk.length_cons]
    rw [show k + (p.length + 1) = k + 1 + p.length from by omega]
    exact hb

theorem graph_connected {n : ℕ} {es : List (ℕ × ℕ)} (hn : 0 < n)
    (hD : ∀ v, v < n → v ∈ reachSet n es n) : (graphOf n es).Connected := by
  rw [SimpleGraph.connected_iff]
  constructor
  · have key : ∀ w : Fin n, (graphOf n es).Reachable ⟨0, hn⟩ w := by
      intro w
      have hmain : ∀ k, ∀ u : Fin n, u.val ∈ reachSet n es k →
          (graphOf n es).Reachable ⟨0, hn⟩ u := by
        intro k
        induction k with
        | zero =>
          intro u hu
          have hu0 : u.val = 0 := by simpa [reachSet] using hu
          have : u = ⟨0, hn⟩ := Fin.ext hu0
          rw [this]
        | succ k ih =>
          intro u hu
          have hu2 : u.val ∈ expand n es (reachSet n es k) := hu
          unfold expand at hu2
          rw [List.mem_filter, List.mem_range] at hu2
          obtain ⟨hun, hpred⟩ := hu2
          rw [Bool.or_eq_true] at hpred
          rcases hpred with hcon | hany
          · exact ih u (containsTrue.mp hcon)
          · rw [List.any_eq_true] at hany
            obtain ⟨u2, hu2m, hadj⟩ := hany
            rw [decide_eq_true_iff] at hadj
            have hu2n : u2 < n := reach_lt hn k u2 hu2m
            have hreach2 := ih ⟨u2, hu2n⟩ hu2m
            by_cases hequ : u2 = u.val
            · rw [show u = ⟨u2, hu2n⟩ from Fin.ext hequ.symm]
              exact hreach2
            · refine hreach2.trans (SimpleGraph.Adj.reachable ?_)
              rw [graphOf, SimpleGraph.fromRel_adj]
              refine ⟨?_, Or.inl hadj⟩
              intro hcc
              apply hequ
              exact congrArg Fin.val hcc
      exact hmain n w (hD w.val w.isLt)
    intro a b
    exact (key a).symm.trans (key b)
  · exact ⟨⟨0, hn⟩⟩

theorem topoCheck_iff {n : ℕ} {es : List (ℕ × ℕ)} : topoCheck n es = true ↔
    (∀ q ∈ es, q.1 < n ∧ q.2 < n ∧ q.1 ≠ q.2) ∧
    (es.map normPair).Nodup ∧ es.length + 1 = n ∧
    (∀ v, v < n → v ∈ reachSet n es n) := by
  unfold topoCheck
  rw [Bool.and_eq_true, Bool.and_eq_true, Bool.and_eq_true]
  constructor
  · rintro ⟨⟨⟨hA, hB⟩, hC⟩, hD⟩
    refine ⟨?_, ?_, ?_, ?_⟩
    · intro q hq
      have := List.all_eq_true.mp hA q hq
      simpa using this
    · exact of_decide_eq_true hB
    · simpa using hC
    · intro v hv
      have := List.all_eq_true.mp hD v (List.mem_range.mpr hv)
      exact containsTrue.mp this
  · rintro ⟨hA, hB, hC, hD⟩
    refine ⟨⟨⟨?_, ?_⟩, ?_⟩, ?_⟩
    · rw [List.all_eq_true]
      intro q hq
      exact decide_eq_true (hA q hq)
    · exact decide_eq_true hB
    · simpa using hC
    · rw [List.all_eq_true]
      intro v hv
      exact containsTrue.mpr (hD v (List.mem_range.mp hv))

theorem symOf_some_iff {n : ℕ} {q : ℕ × ℕ} :
    (∃ b, symOf n q = some b) ↔ q.1 < n ∧ q.2 < n ∧ q.1 ≠ q.2 := by
  unfold symOf
  by_cases h : q.1 < n ∧ q.2 < n ∧ q.1 ≠ q.2
  · simp [h]
  · simp [h]

theorem filterMap_length_all_some {α β : Type} (f : α → Option β) :
    ∀ l : List α, (l.filterMap f).length = l.length → ∀ a ∈ l, ∃ b, f a = some b := by
  intro l
  induction l with
  | nil =>
    intro _ a ha
    simp at ha
  | cons c t ih =>
    intro h a ha
    rw [List.filterMap_cons] at h
    cases hf : f c with
    | none =>
      rw [hf] at h
      have := List.length_filterMap_le f t
      simp at h
      omega
    | some b =>
      rw [hf] at h
      rw [List.length_cons, List.length_cons] at h
      have h2 : (List.filterMap f t).length = t.length := by omega
      rcases List.mem_cons.mp ha with rfl | hat
      · exact ⟨b, hf⟩
      · exact ih h2 a hat

theorem nodup_of_toFinset_card {α : Type} [DecidableEq α] (l : List α)
    (h : l.toFinset.card = l.length) : l.Nodup := by
  rw [List.card_toFinset] at h
  rw [← List.dedup_eq_self]
  exact l.dedup_sublist.eq_of_length h

theorem symOf_congr {n : ℕ} {q r : ℕ × ℕ} (h : normPair q = normPair r)
    {b c : Sym2 (Fin n)} (hq : symOf n q = some b) (hr : symOf n r = some c) :
    b = c := by
  unfold symOf at hq hr
  by_cases h1 : q.1 < n ∧ q.2 < n ∧ q.1 ≠ q.2
  · rw [dif_pos h1] at hq
    by_cases h2 : r.1 < n ∧ r.2 < n ∧ r.1 ≠ r.2
    · rw [dif_pos h2] at hr
      rw [← Option.some.inj hq, ← Option.some.inj hr]
      rcases normPair_eq_iff.mp h with ⟨ha, hb2⟩ | ⟨ha, hb2⟩
      · simp only [ha, hb2]
      · simp only [ha, hb2]
        exact Sym2.eq_swap
    · rw [dif_neg h2] at hr
      exact absurd hr (by simp)
  · rw [dif_neg h1] at hq
    exact absurd hq (by simp)

theorem map_normPair_nodup {n : ℕ} :
    ∀ es : List (ℕ × ℕ), (∀ e ∈ es, ∃ b, symOf n e = some b) →
      (es.filterMap (symOf n)).Nodup → (es.map normPair).Nodup := by
  intro es
  induction es with
  | nil =>
    intro _ _
    simp
  | cons e t ih =>
    intro hall hnd
    obtain ⟨b, hb⟩ := hall e (List.mem_cons_self e t)
    rw [List.filterMap_cons, hb, List.nodup_cons] at hnd
    rw [List.map_cons, List.nodup_cons]
    refine ⟨?_, ih (fun x hx => hall x (List.mem_cons_of_mem e hx)) hnd.2⟩
    intro hmem
    rw [List.mem_map] at hmem
    obtain ⟨e2, he2, hne⟩ := hmem
    obtain ⟨b2, hb2⟩ := hall e2 (List.mem_cons_of_mem e he2)
    have hbb : b2 = b := symOf_congr hne hb2 hb
    apply hnd.1
    rw [← hbb]
    exact List.mem_filterMap.mpr ⟨e2, he2, hb2⟩

theorem edgeFinset_sub_symOf {n : ℕ} {es : List (ℕ × ℕ)} :
    (graphOf n es).edgeFinset ⊆ (es.filterMap (symOf n)).toFinset := by
  intro e he
  rw [SimpleGraph.mem_edgeFinset] at he
  revert he
  refine Sym2.ind ?_ e
  intro a b he
  rw [SimpleGraph.mem_edgeSet] at he
  have he2 := he
  rw [graphOf, SimpleGraph.fromRel_adj] at he2
  obtain ⟨hne, hor⟩ := he2
  have hvalne : a.val ≠ b.val := fun h => hne (Fin.ext h)
  have hadjE : adjE es a.val b.val := by
    rcases hor with h | h
    · exact h
    · exact adjE_symm h
  rw [List.mem_toFinset, List.mem_filterMap]
  rcases hadjE with h | h
  · refine ⟨(a.val, b.val), h, ?_⟩
    unfold symOf
    rw [dif_pos (show (a.val, b.val).1 < n ∧ (a.val, b.val).2 < n ∧
      (a.val, b.val).1 ≠ (a.val, b.val).2 from ⟨a.isLt, b.isLt, hvalne⟩)]
  · refine ⟨(b.val, a.val), h, ?_⟩
    unfold symOf
    rw [dif_pos (show (b.val, a.val).1 < n ∧ (b.val, a.val).2 < n ∧
      (b.val, a.val).1 ≠ (b.val, a.val).2 from ⟨b.isLt, a.isLt, fun hh => hvalne hh.symm⟩)]
    simp [Sym2.eq_swap]

theorem tree_to_topoCheck {n : ℕ} {es : List (ℕ × ℕ)}
    (hT : (graphOf n es).IsTree) (hC : es.length + 1 = n) :
    topoCheck n es = true := by
  have hn : 0 < n := by omega
  obtain ⟨hconn, hacyc⟩ := (SimpleGraph.isTree_iff _).mp hT
  have hD : ∀ v, v < n → v ∈ reachSet n es n := by
    intro v hv
    obtain ⟨w⟩ := hconn.preconnected ⟨0, hn⟩ ⟨v, hv⟩
    have hlen : w.bypass.length < n := by
      have := w.bypass_isPath.length_lt
      simpa [Fintype.card_fin] using this
    have h0 : (⟨0, hn⟩ : Fin n).val ∈ reachSet n es 0 := by simp [reachSet]
    have hw := walk_reach hn w.bypass 0 h0
    exact reach_mono_le hn (by omega) v hw
  have hcard1 : (graphOf n es).edgeFinset.card + 1 = n := by
    have := hT.card_edgeFinset
    simpa [Fintype.card_fin] using this
  have hsub : (graphOf n es).edgeFinset ⊆ (es.filterMap (symOf n)).toFinset :=
    edgeFinset_sub_symOf
  have h4 : n - 1 ≤ (es.filterMap (symOf n)).toFinset.card := by
    have := Finset.card_le_card hsub
    omega
  have h2 := List.toFinset_card_le (es.filterMap (symOf n))
  have h3 := List.length_filterMap_le (symOf n) es
  have h5 : (es.filterMap (symOf n)).length = es.length := by omega
  have h6 : (es.filterMap (symOf n)).toFinset.card = (es.filterMap (symOf n)).length := by
    omega
  have hall := filterMap_length_all_some (symOf n) es h5
  have hA : ∀ q ∈ es, q.1 < n ∧ q.2 < n ∧ q.1 ≠ q.2 := by
    intro q hq
    exact symOf_some_iff.mp (hall q hq)
  have hndf : (es.filterMap (symOf n)).Nodup := nodup_of_toFinset_card _ h6
  have hB : (es.map normPair).Nodup := map_normPair_nodup es hall hndf
  exact topoCheck_iff.mpr ⟨hA, hB, hC, hD⟩

theorem built_valid {n : ℕ} {es : List (ℕ × ℕ)} (h : topoCheck n es = true) :
    (Skel.mk n 0 ((List.range n).map (bfsPar n es))).Valid := by
  obtain ⟨hA, hB, hC, hD⟩ := topoCheck_iff.mp h
  have hn : 0 < n := by omega
  have hp : ∀ v, v < n →
      (Skel.mk n 0 ((List.range n).map (bfsPar n es))).p v = bfsPar n es v := by
    intro v hv
    show ((List.range n).map (bfsPar n es)).getD v 0 = _
    exact getD_map_range _ hv
  have hcl : ∀ v, v < n →
      (Skel.mk n 0 ((List.range n).map (bfsPar n es))).p v < n := by
    intro v hv
    rw [hp v hv]
    by_cases hv0 : v = 0
    · rw [hv0, bfsPar_zero]
      exact hn
    · exact (bfsPar_spec hn hD hv hv0).1
  have hr : (Skel.mk n 0 ((List.range n).map (bfsPar n es))).p 0 = 0 := by
    rw [hp 0 hn, bfsPar_zero]
  refine ⟨hn, by simp, hr, hcl, ?_⟩
  intro v hv
  have hex : ∀ L v2, v2 < n → lvl n es v2 ≤ L → ∃ k,
      ((Skel.mk n 0 ((List.range n).map (bfsPar n es))).p)^[k] v2 = 0 := by
    intro L
    induction L with
    | zero =>
      intro v2 hv2 hlvl
      have hm := (lvl_spec hn hv2 (hD v2 hv2)).1
      rw [Nat.le_zero.mp hlvl] at hm
      have hv20 : v2 = 0 := by simpa [reachSet] using hm
      exact ⟨0, by simpa using hv20⟩
    | succ L ih =>
      intro v2 hv2 hlvl
      by_cases hv20 : v2 = 0
      · exact ⟨0, by simpa using hv20⟩
      · obtain ⟨hpn, _, hplvl⟩ := bfsPar_spec hn hD hv2 hv20
        obtain ⟨k, hk⟩ := ih (bfsPar n es v2) hpn (by omega)
        refine ⟨k + 1, ?_⟩
        rw [Function.iterate_succ_apply, hp v2 hv2]
        exact hk
  obtain ⟨k, hk⟩ := hex (lvl n es v) v hv le_rfl
  exact iter_absorb hr hcl hv hk

/-- C7: construction fails with `InvalidTopology` exactly when the edge list
does not form one connected acyclic tree spanning all vertices (tree
property of the generated undirected graph together with the edge count
being the vertex count minus one); and nothing malformed is partially
accepted — every accepted construction is a valid skeleton rooted at
vertex 0. -/
theorem buildSkeleton_spec (coords : List (ℤ × ℤ × ℤ)) (es : List (ℕ × ℕ)) :
    (buildSkeleton coords es = Except.error SkelErr.invalidTopology ↔
      ¬ formsSpanningTree coords.length es) ∧
    ∀ s2, buildSkeleton coords es = Except.ok s2 →
      s2.Valid ∧ s2.n = coords.length ∧ s2.root = 0 := by
  constructor
  · unfold buildSkeleton
    by_cases h : topoCheck coords.length es = true
    · rw [if_pos h]
      constructor
      · intro hok
        exact absurd hok (by simp)
      · intro hnt
        exfalso
        apply hnt
        obtain ⟨hA, hB, hC, hD⟩ := topoCheck_iff.mp h
        have hn : 0 < coords.length := by omega
        show (graphOf coords.length es).IsTree ∧ es.length + 1 = coords.length
        exact ⟨SimpleGraph.IsTree.mk (graph_connected hn hD)
          (graph_acyclic hn hB hC hD), hC⟩
    · rw [if_neg h]
      constructor
      · intro _
        intro hforms
        unfold formsSpanningTree at hforms
        exact h (tree_to_topoCheck hforms.1 hforms.2)
      · intro _
        rfl
  · intro s2 hok
    unfold buildSkeleton at hok
    by_cases h : topoCheck coords.length es = true
    · rw [if_pos h] at hok
      rw [← Except.ok.inj hok]
      exact ⟨built_valid h, rfl, rfl⟩
    · rw [if_neg h] at hok
      exact absurd hok (by simp)

/-- Witness for C7: the construction claim instantiated at the Y-shaped
example input (7 coordinates, 6 edges). -/
theorem buildSkeleton_spec_witness :
    (buildSkeleton
        [((0:ℤ), (0:ℤ), (0:ℤ)), (1, 0, 0), (2, 0, 0), (3, 0, 0), (4, 0, 0), (2, 1, 0), (2, 2, 0)]
        [(0, 1), (1, 2), (2, 3), (3, 4), (2, 5), (5, 6)] =
          Except.error SkelErr.invalidTopology ↔
      ¬ formsSpanningTree
        ([((0:ℤ), (0:ℤ), (0:ℤ)), (1, 0, 0), (2, 0, 0), (3, 0, 0), (4, 0, 0), (2, 1, 0), (2, 2, 0)] :
          List (ℤ × ℤ × ℤ)).length
        [(0, 1), (1, 2), (2, 3), (3, 4), (2, 5), (5, 6)]) ∧
    ∀ s2, buildSkeleton
        [((0:ℤ), (0:ℤ), (0:ℤ)), (1, 0, 0), (2, 0, 0), (3, 0, 0), (4, 0, 0), (2, 1, 0), (2, 2, 0)]
        [(0, 1), (1, 2), (2, 3), (3, 4), (2, 5), (5, 6)] = Except.ok s2 →
      s2.Valid ∧ s2.n =
        ([((0:ℤ), (0:ℤ), (0:ℤ)), (1, 0, 0), (2, 0, 0), (3, 0, 0), (4, 0, 0), (2, 1, 0), (2, 2, 0)] :
          List (ℤ × ℤ × ℤ)).length ∧ s2.root = 0 :=
  buildSkeleton_spec _ _

end SkelSpec
